import Mathlib

/-!
# Full-text search: conjunction iterator, search driver and inverted index

A shallow embedding of

* `src/storage/invertedindex/search/and_iterator.cpp` (`AndIterator`),
* `src/storage/invertedindex/search/search_driver.cpp` (`SearchDriver`),
* the inverted index that the unit tests under `src/unit_test/storage/invertedindex`
  exercise, and
* the methods `SetVariableOrConfig`, `ShowQueries`, `ShowQuery`, `ShowTransactions` and
  `ShowLogs` of `src/main/infinity.cpp`,

followed by theorems about the embedded code.

Conventions.

* `docid_t` values are natural numbers; the sentinel `INVALID_ROWID` is declared outside the
  embedded sources and is therefore a parameter `inv` of every definition that uses it.
* The child iterators of an `AndIterator` live in `children_`; `sorted_iterators_` holds raw
  pointers to the same objects and is embedded as a list of indices into `children_`.
* `while` loops take a fuel argument and return `none` when the fuel is exhausted.
-/

namespace Infinity

/-! ## Definitions: `and_iterator.cpp` -/

/-- The largest value of the C++ type `u32`, `std::numeric_limits<u32>::max()`. -/
def U32_MAX : Nat := 2 ^ 32 - 1

/-- A child `DocIterator`: the posting list it walks (`docs`), the value its `GetDF()` returns
(`df`) and the docid it is positioned on (`doc_id_`, returned by `Doc()`). -/
structure DocIterator where
  docs : List Nat
  df : Nat
  doc_id_ : Nat
  deriving DecidableEq, Repr

/-- The accessor `DocIterator::Doc()`. -/
def DocIterator.Doc (c : DocIterator) : Nat := c.doc_id_

/-- The accessor `DocIterator::GetDF()`. -/
def DocIterator.GetDF (c : DocIterator) : Nat := c.df

/-- Modelled from the spec: `DocIterator::Seek` is declared in the module `doc_iterator`, which is
not among the embedded sources. Following the description of seeking in the spec, `Seek t`
scans the posting list forward and positions the iterator on the first docid that is at least
`t`, and on `INVALID_ROWID` (the parameter `inv`) when the list has no such docid. -/
def DocIterator.Seek (inv : Nat) (c : DocIterator) (t : Nat) : DocIterator :=
  { c with doc_id_ := (c.docs.find? (fun d => decide (t ≤ d))).getD inv }

/-- A posting list is well formed when its docids are strictly increasing and all of them are
proper docids, that is, below the sentinel `INVALID_ROWID`. -/
def DocIterator.WellFormed (inv : Nat) (c : DocIterator) : Prop :=
  c.docs.Pairwise (fun a b => a < b) ∧ ∀ d ∈ c.docs, d < inv

/-- The state of an `AndIterator`: the owned children, the pointers to them in seek order
(indices into `children_`) and the current docid. -/
structure AndIterator where
  children_ : List DocIterator
  sorted_iterators_ : List Nat
  doc_id_ : Nat
  deriving DecidableEq, Repr

/-- The value `p->GetDF()` for a pointer `p` into `children`; a pointer outside the vector does
not occur for the vectors built by the constructor and reads as `0`. -/
def GetDFAt (children : List DocIterator) (p : Nat) : Nat :=
  match children[p]? with
  | some c => c.GetDF
  | none => 0

/-- One step of the insertion performed by `std::sort` on a short range: the element `a` is
moved to the left past every element `b` with `comp a b`. -/
def linearInsert {α : Type} (comp : α → α → Bool) (a : α) : List α → List α
  | [] => [a]
  | b :: l => if comp a b then a :: b :: l else b :: linearInsert comp a l

/-- The library call `std::sort(first, last, comp)`, embedded as the insertion sort that the
standard library runs on short ranges. The C++ standard leaves the relative order of
elements that compare equivalent unspecified; this embedding keeps their input order. -/
def stdSort {α : Type} (comp : α → α → Bool) (l : List α) : List α :=
  l.foldl (fun acc a => linearInsert comp a acc) []

/-- The loop of `AndIterator::DoSeek`. `ib` is the position of the iterator `ib` in
`sorted_iterators_` and `ib != ie` holds exactly when `sorted[ib]?` is defined. The result is
the children after all the seeks together with the final value of the local `doc_id`; it is
`none` when the fuel runs out or a pointer does not point into `children`. -/
def DoSeekLoop (inv : Nat) (sorted : List Nat) :
    Nat → List DocIterator → Nat → Nat → Option (List DocIterator × Nat)
  | 0, _, _, _ => none
  | fuel + 1, children, ib, doc_id =>
    match sorted[ib]? with
    | none => some (children, doc_id)
    | some p =>
      match children[p]? with
      | none => none
      | some c =>
        let c1 := c.Seek inv doc_id
        let children1 := children.set p c1
        let doc := c1.Doc
        if doc ≠ doc_id then
          DoSeekLoop inv sorted fuel children1 0 doc
        else
          DoSeekLoop inv sorted fuel children1 (ib + 1) doc_id

/-- The method `AndIterator::DoSeek(doc_id)`: run the loop from `sorted_iterators_.begin()` and
store the final candidate in `doc_id_`. -/
def AndIterator.DoSeek (inv : Nat) (fuel : Nat) (it : AndIterator) (doc_id : Nat) :
    Option AndIterator :=
  match DoSeekLoop inv it.sorted_iterators_ fuel it.children_ 0 doc_id with
  | none => none
  | some (children, d) =>
    some { children_ := children, sorted_iterators_ := it.sorted_iterators_, doc_id_ := d }

/-- The constructor `AndIterator::AndIterator(iterators)`: take ownership of the children, push
a pointer to each of them, sort the pointers by `GetDF()` and seek to the first docid. -/
def AndIterator.new (inv : Nat) (fuel : Nat) (iterators : List DocIterator) :
    Option AndIterator :=
  let children := iterators
  let pushed := List.range children.length
  let sorted := stdSort (fun lhs rhs => decide (GetDFAt children lhs < GetDFAt children rhs)) pushed
  AndIterator.DoSeek inv fuel { children_ := children, sorted_iterators_ := sorted, doc_id_ := 0 } 0

/-- The method `AndIterator::GetDF()`: the running minimum over `children_`, started at the
largest `u32`. -/
def AndIterator.GetDF (it : AndIterator) : Nat :=
  it.children_.foldl (fun min_df c => min min_df c.GetDF) U32_MAX

/-- The caller's enumeration loop over an iterator: while `doc_id_` is not `INVALID_ROWID`,
take `doc_id_` and call `DoSeek(doc_id_ + 1)`. -/
def emitLoop (inv : Nat) (fuel : Nat) : Nat → AndIterator → Option (List Nat)
  | 0, _ => none
  | k + 1, it =>
    if it.doc_id_ = inv then some []
    else
      match it.DoSeek inv fuel (it.doc_id_ + 1) with
      | none => none
      | some it1 =>
        match emitLoop inv fuel k it1 with
        | none => none
        | some rest => some (it.doc_id_ :: rest)

/-- The docids taken by `AndIterator(iterators)`: `doc_id_` after construction, then after each
`DoSeek(doc_id_ + 1)` until `INVALID_ROWID` is reached. -/
def emitted (inv : Nat) (fuel : Nat) (iterators : List DocIterator) : Option (List Nat) :=
  match AndIterator.new inv fuel iterators with
  | none => none
  | some it => emitLoop inv fuel fuel it

/-- The docids that every child contains. -/
def Common (children : List DocIterator) (d : Nat) : Prop :=
  ∀ c ∈ children, d ∈ c.docs

instance (children : List DocIterator) (d : Nat) : Decidable (Common children d) := by
  unfold Common; infer_instance

/-- The representation invariant of an `AndIterator`: every child is well formed and
`sorted_iterators_` holds exactly one pointer to each child. -/
def AndIterator.Valid (inv : Nat) (it : AndIterator) : Prop :=
  (∀ c ∈ it.children_, c.WellFormed inv) ∧
    it.sorted_iterators_.Perm (List.range it.children_.length)

/-- A number of loop iterations that suffices for any `DoSeek` over `n` children. -/
def seekFuel (inv n : Nat) : Nat := (inv + 1) * (n + 1)


instance (inv : Nat) (c : DocIterator) : Decidable (c.WellFormed inv) := by
  unfold DocIterator.WellFormed; infer_instance

instance (inv : Nat) (it : AndIterator) : Decidable (it.Valid inv) := by
  unfold AndIterator.Valid; infer_instance

/-- The children in seek order: the objects that the pointers in `sorted_iterators_` point
to. -/
def AndIterator.sortedChildren (it : AndIterator) : List DocIterator :=
  it.sorted_iterators_.filterMap (fun p => it.children_[p]?)


/-- The loop of `AndIterator::DoSeek` over children of any class derived from `DocIterator`:
`Seek` and `Doc` are the virtual methods of the children, whose states have the type `σ`, and
a seek on one child leaves the other children as they are. `DoSeekLoop` is this loop for
children that scan a posting list. The last component of the state and of the result is not
part of the code: it records the values that the local `doc_id` takes, one per restart of the
scan, after the values it is started with. -/
def DoSeekLoopVirtual {σ : Type} (Seek : σ → Nat → σ) (Doc : σ → Nat) (sorted : List Nat) :
    Nat → List σ → Nat → Nat → List Nat → Option (List σ × Nat × List Nat)
  | 0, _, _, _, _ => none
  | fuel + 1, children, ib, doc_id, candidates =>
    match sorted[ib]? with
    | none => some (children, doc_id, candidates)
    | some p =>
      match children[p]? with
      | none => none
      | some c =>
        let c1 := Seek c doc_id
        let children1 := children.set p c1
        let doc := Doc c1
        if doc ≠ doc_id then
          DoSeekLoopVirtual Seek Doc sorted fuel children1 0 doc (candidates ++ [doc])
        else
          DoSeekLoopVirtual Seek Doc sorted fuel children1 (ib + 1) doc_id candidates



/-! ## Definitions: `search_driver.cpp`

A `std::string` is a list of characters and `std::string::npos` is `none`. The C++ type
`float` is a type parameter `F`: the driver only stores weights, multiplies them and takes the
literal `1.0F`, so the embedding asks for a multiplication and a unit on `F` and nothing else.
The generated parser (`SearchParser`, `SearchScanner`), the analyzer behind `analyze_func_`
and `std::stof` are outside the embedded sources and are parameters. Output written with
`fmt::print` and the debug log are not part of the state. -/

/-- Modelled from the spec: the error kinds of the engine, as listed in its error handling
design. -/
inductive ErrorCode where
  | kSyntaxError
  | kConfigError
  | kFormatError
  | kIOError
  | kInvariantViolation
  deriving DecidableEq, Repr

/-- A `Status`: an error kind and its message. -/
structure Status where
  code : ErrorCode
  msg : String
  deriving DecidableEq, Repr

/-- The factory `Status::SyntaxError(msg)`. -/
def Status.SyntaxError (msg : String) : Status := { code := ErrorCode.kSyntaxError, msg := msg }

/-- The exceptions of the embedding: those thrown by `std::stof`, the `RecoverableException`
that `RecoverableError(status)` raises, and the `UnrecoverableException` of a fatal error. -/
inductive Exception where
  | std_invalid_argument
  | std_out_of_range
  | RecoverableException (status : Status)
  | UnrecoverableException (status : Status)
  deriving DecidableEq, Repr

/-- Modelled from the spec: `RecoverableError(status)` is declared in the module
`infinity_exception`, which is not among the embedded sources; it reports the status to the
caller by raising it, so the statement after it is not reached. -/
def RecoverableError {α : Type} (status : Status) : Except Exception α :=
  Except.error (Exception.RecoverableException status)

/-- Modelled from the spec: the query nodes of `query_node.h`, which is not among the embedded
sources. Every node carries a weight; a term node has `term_` and `column_`, a phrase node
`terms_` and `column_`, and the boolean nodes have `children_`. -/
inductive QueryNode (F : Type) where
  | TermQueryNode (weight_ : F) (term_ : List Char) (column_ : List Char)
  | PhraseQueryNode (weight_ : F) (terms_ : List (List Char)) (column_ : List Char)
  | AndQueryNode (weight_ : F) (children_ : List (QueryNode F))
  | OrQueryNode (weight_ : F) (children_ : List (QueryNode F))
  | NotQueryNode (weight_ : F) (children_ : List (QueryNode F))

/-- The weight of the root of a query tree. -/
def QueryNode.weight_ {F : Type} : QueryNode F → F
  | .TermQueryNode w _ _ => w
  | .PhraseQueryNode w _ _ => w
  | .AndQueryNode w _ => w
  | .OrQueryNode w _ => w
  | .NotQueryNode w _ => w

/-- Modelled from the spec: `QueryNode::MultiplyWeight(factor)` is declared in `query_node.h`;
it multiplies the weight of the node it is called on, the root of the tree, by `factor`. -/
def QueryNode.MultiplyWeight {F : Type} [Mul F] (factor : F) : QueryNode F → QueryNode F
  | .TermQueryNode w t c => .TermQueryNode (w * factor) t c
  | .PhraseQueryNode w ts c => .PhraseQueryNode (w * factor) ts c
  | .AndQueryNode w cs => .AndQueryNode (w * factor) cs
  | .OrQueryNode w cs => .OrQueryNode (w * factor) cs
  | .NotQueryNode w cs => .NotQueryNode (w * factor) cs

/-- The node `t` with its weight replaced by `w` and everything else kept. -/
def QueryNode.withWeight {F : Type} (w : F) : QueryNode F → QueryNode F
  | .TermQueryNode _ t c => .TermQueryNode w t c
  | .PhraseQueryNode _ ts c => .PhraseQueryNode w ts c
  | .AndQueryNode _ cs => .AndQueryNode w cs
  | .OrQueryNode _ cs => .OrQueryNode w cs
  | .NotQueryNode _ cs => .NotQueryNode w cs

/-- Whether a node is an `OrQueryNode`. -/
def QueryNode.isOr {F : Type} : QueryNode F → Bool
  | .OrQueryNode _ _ => true
  | _ => false

/-- Modelled from the spec: a `Term` produced by an analyzer, its text and its position. -/
structure Term where
  text_ : List Char
  word_offset_ : Nat
  deriving DecidableEq, Repr

/-- The accessor `Term::Text()`. -/
def Term.Text (t : Term) : List Char := t.text_

/-- The call `s.find_first_of(c, pos)`: the index of the first `c` at or after `pos`. -/
def find_first_of (s : List Char) (c : Char) (pos : Nat) : Option Nat :=
  if (s.drop pos).indexOf c < (s.drop pos).length then some (pos + (s.drop pos).indexOf c)
  else none

/-- The call `s.substr(pos, n)`, and `s.substr(pos)` when `n` is `none`. -/
def substr (s : List Char) (pos : Nat) (n : Option Nat) : List Char :=
  match n with
  | none => s.drop pos
  | some n => (s.drop pos).take n

/-- The call `v.clear()` on a vector. -/
def vectorClear {α : Type} (_v : List α) : List α := []

/-- The function `ParseField(field)`: split `name^boost` at the first `^`; without a `^` the
boost is `1.0F`. `stof` is `std::stof`, which raises on text that is not a number. -/
def ParseField {F : Type} [One F] (stof : List Char → Except Exception F) (field : List Char) :
    Except Exception (List Char × F) :=
  match find_first_of field '^' 0 with
  | none => Except.ok (field, 1)
  | some cap_idx =>
    let field_name := substr field 0 (some cap_idx)
    let field_boost := substr field (cap_idx + 1) none
    match stof field_boost with
    | Except.error e => Except.error e
    | Except.ok boost => Except.ok (field_name, boost)

set_option linter.unusedVariables false in
/-- The `while (begin_idx < len)` loop of `ParseFields`. It terminates because `begin_idx`
grows in every iteration that does not leave the loop. -/
def ParseFieldsLoop {F : Type} [One F] (stof : List Char → Except Exception F)
    (fields_str : List Char) (begin_idx : Nat) (fields : List (List Char × F)) :
    Except Exception (List (List Char × F)) :=
  if begin_idx < fields_str.length then
    match h : find_first_of fields_str ',' begin_idx with
    | none =>
      match ParseField stof (substr fields_str begin_idx none) with
      | Except.error e => Except.error e
      | Except.ok field => Except.ok (fields ++ [field])
    | some comma_idx =>
      match ParseField stof (substr fields_str begin_idx (some (comma_idx - begin_idx))) with
      | Except.error e => Except.error e
      | Except.ok field => ParseFieldsLoop stof fields_str (comma_idx + 1) (fields ++ [field])
  else Except.ok fields
termination_by fields_str.length - begin_idx
decreasing_by
  unfold find_first_of at h
  split at h
  · simp only [Option.some.injEq] at h; omega
  · simp at h

/-- The function `ParseFields(fields_str, fields)`; the argument `fields` is the content of the
output vector on entry and the result is its content on return. -/
def ParseFields {F : Type} [One F] (stof : List Char → Except Exception F)
    (fields_str : List Char) (fields : List (List Char × F)) :
    Except Exception (List (List Char × F)) :=
  let fields := vectorClear fields
  if fields_str.isEmpty then Except.ok fields
  else ParseFieldsLoop stof fields_str 0 fields

/-- The data members of `SearchDriver` that the embedded methods read. `analyze_func_` is the
analyzer: from the analyzer name and the text to the terms it appends to an empty `TermList`,
or the exception it raises. -/
structure SearchDriver where
  field2analyzer_ : List (List Char × List Char)
  default_field_ : List Char
  analyze_func_ : List Char → List Char → Except Exception (List Term)

/-- The result of running the generated parser: the value returned by `parser->parse()` and
the tree it leaves in `result`, or the exception that leaves it. Its arguments are the
default field and the query text. -/
abbrev ParserFn (F : Type) := List Char → List Char → Except Exception (Int × Option (QueryNode F))

/-- The method `SearchDriver::ParseSingle(query, default_field_ptr)`. The stream over `query` is
freshly constructed, so `iss.good()` holds; a null `default_field_ptr` is replaced by the
address of `default_field_`; a return value of the parser other than `accept = 0` gives
null. -/
def SearchDriver.ParseSingle {F : Type} (drv : SearchDriver) (parser : ParserFn F)
    (query : List Char) (default_field_ptr : Option (List Char)) :
    Except Exception (Option (QueryNode F)) :=
  let default_field := match default_field_ptr with
    | none => drv.default_field_
    | some f => f
  match parser default_field query with
  | Except.error e => Except.error e
  | Except.ok (rc, result) => if rc ≠ 0 then Except.ok none else Except.ok result

/-- The `for (auto &[default_field, boost] : fields)` loop of `ParseSingleWithFields`, from the
current content of `or_children` to its content after the loop. -/
def orChildrenLoop {F : Type} [Mul F] (drv : SearchDriver) (parser : ParserFn F)
    (query : List Char) :
    List (List Char × F) → List (QueryNode F) → Except Exception (List (QueryNode F))
  | [], or_children => Except.ok or_children
  | (default_field, boost) :: rest, or_children =>
    match drv.ParseSingle parser query (some default_field) with
    | Except.error e => Except.error e
    | Except.ok none => orChildrenLoop drv parser query rest or_children
    | Except.ok (some sub_result) =>
      orChildrenLoop drv parser query rest (or_children ++ [sub_result.MultiplyWeight boost])

/-- The method `SearchDriver::ParseSingleWithFields(fields_str, query)`. A node made by
`std::make_unique<OrQueryNode>()` has the default weight `1.0F`. -/
def SearchDriver.ParseSingleWithFields {F : Type} [Mul F] [One F] (drv : SearchDriver)
    (parser : ParserFn F) (stof : List Char → Except Exception F)
    (fields_str : List Char) (query : List Char) : Except Exception (Option (QueryNode F)) :=
  match ParseFields stof fields_str [] with
  | Except.error e => Except.error e
  | Except.ok fields =>
    match fields with
    | [] => drv.ParseSingle parser query none
    | [(field, boost)] =>
      match drv.ParseSingle parser query (some field) with
      | Except.error e => Except.error e
      | Except.ok none => Except.ok none
      | Except.ok (some parsed_query_tree) =>
        Except.ok (some (parsed_query_tree.MultiplyWeight boost))
    | _ =>
      match orChildrenLoop drv parser query fields [] with
      | Except.error e => Except.error e
      | Except.ok or_children =>
        match or_children with
        | [] => Except.ok none
        | [child] => Except.ok (some child)
        | _ => Except.ok (some (QueryNode.OrQueryNode 1 or_children))

/-- The method `SearchDriver::AnalyzeAndBuildQueryNode(field, text)`. The first component of
`analysis` is the local `terms`, the second the flag `analyzed`. New nodes have the default
weight `1.0F`. -/
def SearchDriver.AnalyzeAndBuildQueryNode {F : Type} [One F] (drv : SearchDriver)
    (field : List Char) (text : List Char) : Except Exception (Option (QueryNode F)) :=
  if text.isEmpty then RecoverableError (Status.SyntaxError "Empty query text")
  else
    let analysis : Except Exception (List Term × Bool) :=
      if ¬ field.isEmpty then
        match drv.field2analyzer_.lookup field with
        | some analyzer_name =>
          if ¬ analyzer_name.isEmpty then
            match drv.analyze_func_ analyzer_name text with
            | Except.error e => Except.error e
            | Except.ok terms => Except.ok (terms, true)
          else Except.ok ([], false)
        | none => Except.ok ([], false)
      else Except.ok ([], false)
    match analysis with
    | Except.error e => Except.error e
    | Except.ok (terms, analyzed) =>
      if ¬ analyzed then
        Except.ok (some (QueryNode.TermQueryNode 1 text field))
      else if terms.isEmpty then
        RecoverableError (Status.SyntaxError "Empty terms after analyzing")
      else
        match terms with
        | [term] => Except.ok (some (QueryNode.TermQueryNode 1 term.text_ field))
        | _ => Except.ok (some (QueryNode.PhraseQueryNode 1 (terms.map Term.Text) field))


/-- Field entries joined by commas, the text of a fields string. -/
def joinFields : List (List Char) → List Char
  | [] => []
  | [e] => e
  | e :: es => e ++ ',' :: joinFields es


/-- The entries that a fields string without `^` stands for: its comma-separated segments,
without the final segment when that one is empty. -/
def fieldSegments (s : List Char) : List (List Char) :=
  if (s.splitOn ',').getLast? = some [] then (s.splitOn ',').dropLast else s.splitOn ','



/-! ## Definitions: the inverted index

The analyzer, the column inverter, the posting writer, the posting format, the memory indexer
and the posting iterator are declared in modules that are not among the embedded sources; only
their unit tests are. Their embedding follows the design given in the spec. Documents are
identified by their row ids, which are natural numbers; `INVALID_ROWID` and
`INVALID_POSITION` are parameters. Worker threads are not part of the embedding: an inversion
task runs to completion when it is dispatched, and the order in which finished inverters
reach the commit step is a parameter where it matters. -/

/-- Modelled from the spec: the analyzer `standard` is declared in the module `analyzer`. It
lowers the case, splits the text at every character that is not alphanumeric and keeps the
non-empty runs. `cur` is the run read so far. -/
def standardTokens : List Char → List Char → List (List Char)
  | [], cur => if cur.isEmpty then [] else [cur]
  | c :: cs, cur =>
    if c.isAlphanum then standardTokens cs (cur ++ [c.toLower])
    else if cur.isEmpty then standardTokens cs []
    else cur :: standardTokens cs []

/-- Modelled from the spec: an analyzer maps a text to its sequence of `(term, position)`;
positions start at 0 and grow by 1 per token. This one numbers the tokens of a tokenizer. -/
def analyzeWith (tokens : List Char → List (List Char)) (text : List Char) :
    List (List Char × Nat) :=
  (tokens text).enum.map (fun it => (it.2, it.1))

/-- Modelled from the spec: the analyzer registered under the name `standard`. -/
def standardAnalyzer (text : List Char) : List (List Char × Nat) :=
  analyzeWith (fun t => standardTokens t []) text

/-- Modelled from the spec: a tuple `(term, docid, pos)` recorded by a column inverter. -/
structure PostingTuple where
  term : List Char
  docid : Nat
  pos : Nat
  deriving DecidableEq, Repr

/-- The sort key of a tuple: `(term, docid, pos)` in lexicographic order. -/
def PostingTuple.key (t : PostingTuple) : Lex (List Char × Lex (Nat × Nat)) :=
  toLex (t.term, toLex (t.docid, t.pos))

/-- Modelled from the spec: one record `(docid, tf, positions)` of a posting list. -/
structure PostingRecord where
  docid : Nat
  tf : Nat
  positions : List Nat
  deriving DecidableEq, Repr

/-- Modelled from the spec: the `PostingWriter` of one term, declared in the module
`posting_writer`. It holds the records it has flushed, the record it is building (whose docid
is the writer's last docid) and the running statistics `df` and `ttf`. -/
structure PostingWriter where
  flushed : List PostingRecord
  current : Option PostingRecord
  df : Nat
  ttf : Nat
  deriving DecidableEq, Repr

/-- A writer to which nothing has been added. -/
def PostingWriter.empty : PostingWriter :=
  { flushed := [], current := none, df := 0, ttf := 0 }

/-- The accessor `PostingWriter::GetDF()`. -/
def PostingWriter.GetDF (w : PostingWriter) : Nat := w.df

/-- The records of a writer in the order in which they were appended: its posting list. -/
def PostingWriter.postingList (w : PostingWriter) : List PostingRecord :=
  w.flushed ++ w.current.toList

/-- Modelled from the spec: `PostingWriter::AddPosition(docid, pos)`. A position for the last
docid is appended to the current record and `tf` grows; a larger docid flushes the current
record, starts a new one and `df` grows; a smaller docid is a programmer error and aborts. -/
def PostingWriter.AddPosition (w : PostingWriter) (docid pos : Nat) :
    Except Exception PostingWriter :=
  match w.current with
  | none =>
    Except.ok { flushed := w.flushed, current := some ⟨docid, 1, [pos]⟩,
                df := w.df + 1, ttf := w.ttf + 1 }
  | some r =>
    if docid = r.docid then
      Except.ok { flushed := w.flushed,
                  current := some ⟨r.docid, r.tf + 1, r.positions ++ [pos]⟩,
                  df := w.df, ttf := w.ttf + 1 }
    else if r.docid < docid then
      Except.ok { flushed := w.flushed ++ [r], current := some ⟨docid, 1, [pos]⟩,
                  df := w.df + 1, ttf := w.ttf + 1 }
    else
      Except.error (Exception.UnrecoverableException
        { code := ErrorCode.kInvariantViolation, msg := "docid out of order" })

/-- Adding a sequence of `(docid, pos)` pairs to a writer, in order. -/
def PostingWriter.feed (w : PostingWriter) : List (Nat × Nat) → Except Exception PostingWriter
  | [] => Except.ok w
  | (docid, pos) :: rest =>
    match w.AddPosition docid pos with
    | Except.error e => Except.error e
    | Except.ok w1 => w1.feed rest

/-- The term dictionary of live writers, a `Map<String, SharedPtr<PostingWriter>>`. -/
abbrev PostingMap := List (List Char × PostingWriter)

/-- Looking a term up in the map. -/
def PostingMap.find : PostingMap → List Char → Option PostingWriter
  | [], _ => none
  | (k, v) :: m, term => if k = term then some v else PostingMap.find m term

/-- Storing the writer of a term in the map. -/
def PostingMap.set : PostingMap → List Char → PostingWriter → PostingMap
  | [], term, w => [(term, w)]
  | (k, v) :: m, term, w =>
    if k = term then (k, w) :: m else (k, v) :: PostingMap.set m term w

/-- Modelled from the spec: the writer provider of the unit test, `GetOrAddPosting(term)`: the
writer of the term, constructed on the first lookup. -/
def GetOrAddPosting (m : PostingMap) (term : List Char) : PostingWriter :=
  match PostingMap.find m term with
  | some w => w
  | none => PostingWriter.empty


/-- Modelled from the spec: a `ColumnInverter`, declared in the module `column_inverter`: the
analyzer bound by `InitAnalyzer` and the buffer of recorded tuples. The per-docid column
length counter is not part of the embedding. -/
structure ColumnInverter where
  analyzer : List Char → List (List Char × Nat)
  tuples : List PostingTuple

/-- The tuples that the rows `(docid, text)` give rise to: for every `(term, pos)` that the
analyzer emits for the text, the tuple `(term, docid, pos)`. -/
def tuplesOfRows (analyzer : List Char → List (List Char × Nat))
    (rows : List (Nat × List Char)) : List PostingTuple :=
  rows.flatMap (fun row => (analyzer row.2).map (fun tp => ⟨tp.1, row.1, tp.2⟩))

/-- The rows of a column slice with their row ids: row `i` of the slice is
`column[row_offset + i]` and has the row id `row_id_base + i`. A row outside the column has no
text. -/
def sliceRows (column : List (List Char)) (row_offset row_count row_id_base : Nat) :
    List (Nat × List Char) :=
  (List.range row_count).map (fun i => (row_id_base + i, column.getD (row_offset + i) []))

/-- Modelled from the spec: `ColumnInverter::InvertColumn(column, row_offset, row_count,
row_id_base)` tokenizes the rows of the slice and records their tuples in the buffer. -/
def ColumnInverter.InvertColumn (self : ColumnInverter) (column : List (List Char))
    (row_offset row_count row_id_base : Nat) : ColumnInverter :=
  { self with tuples := self.tuples ++
      tuplesOfRows self.analyzer (sliceRows column row_offset row_count row_id_base) }

/-- Modelled from the spec: `ColumnInverter::Merge(other)` moves all tuples of `other` into
this inverter. -/
def ColumnInverter.Merge (self other : ColumnInverter) : ColumnInverter :=
  { self with tuples := self.tuples ++ other.tuples }

/-- Modelled from the spec: `ColumnInverter::Sort()` sorts the tuples by `(term, docid, pos)`
ascending, with a stable sort. -/
def ColumnInverter.Sort (self : ColumnInverter) : ColumnInverter :=
  { self with tuples := stdSort (fun a b => decide (a.key < b.key)) self.tuples }

/-- The walk of `GeneratePosting` over the tuples: for each tuple the writer of its term is
obtained from the provider and `AddPosition` is called on it. -/
def generateLoop : PostingMap → List PostingTuple → Except Exception PostingMap
  | m, [] => Except.ok m
  | m, t :: rest =>
    match (GetOrAddPosting m t.term).AddPosition t.docid t.pos with
    | Except.error e => Except.error e
    | Except.ok w => generateLoop (PostingMap.set m t.term w) rest

/-- Modelled from the spec: `ColumnInverter::GeneratePosting()` against the writers in
`postings`. -/
def ColumnInverter.GeneratePosting (self : ColumnInverter) (postings : PostingMap) :
    Except Exception PostingMap :=
  generateLoop postings self.tuples

/-- Modelled from the spec: the `MemoryIndexer`, declared in the module `memory_indexer`: its
chunk name, base row id and analyzer, the term dictionary of live writers, the number of rows
inserted so far and the queue of inverters that are ready to be committed. -/
structure MemoryIndexer where
  chunk_name : String
  base_row_id : Nat
  analyzer : List Char → List (List Char × Nat)
  postings : PostingMap
  doc_count : Nat
  ready : List ColumnInverter

/-- The constructor `MemoryIndexer(dir, chunk_name, base_row_id, flag, analyzer)`. -/
def MemoryIndexer.new (chunk_name : String) (base_row_id : Nat)
    (analyzer : List Char → List (List Char × Nat)) : MemoryIndexer :=
  { chunk_name := chunk_name, base_row_id := base_row_id, analyzer := analyzer,
    postings := [], doc_count := 0, ready := [] }

/-- Modelled from the spec: `MemoryIndexer::Insert(column, row_offset, row_count)`. The
inversion task constructs an inverter, inverts the slice with the next free row ids and
pushes the inverter onto the ready queue. -/
def MemoryIndexer.Insert (self : MemoryIndexer) (column : List (List Char))
    (row_offset row_count : Nat) : MemoryIndexer :=
  let inverter : ColumnInverter := { analyzer := self.analyzer, tuples := [] }
  let inverter := inverter.InvertColumn column row_offset row_count
    (self.base_row_id + self.doc_count)
  { self with doc_count := self.doc_count + row_count, ready := self.ready ++ [inverter] }

/-- The commit worker merging the ready inverters into the first of them. -/
def mergeReady : List ColumnInverter → Option ColumnInverter
  | [] => none
  | first :: rest => some (rest.foldl ColumnInverter.Merge first)

/-- Modelled from the spec: `MemoryIndexer::CommitSync()` drains the ready queue: the ready
inverters are merged, and the one that remains is sorted and generates its postings against
the live writers. -/
def MemoryIndexer.CommitSync (self : MemoryIndexer) : Except Exception MemoryIndexer :=
  match mergeReady self.ready with
  | none => Except.ok self
  | some merged =>
    match merged.Sort.GeneratePosting self.postings with
    | Except.error e => Except.error e
    | Except.ok postings => Except.ok { self with postings := postings, ready := [] }

/-- The calls `Insert(column, row_offset, n1)`, `Insert(column, row_offset + n1, n2)`, ... for
the consecutive slices with the row counts `counts`. -/
def MemoryIndexer.InsertAll (self : MemoryIndexer) (column : List (List Char)) :
    Nat → List Nat → MemoryIndexer
  | _, [] => self
  | row_offset, n :: counts =>
    MemoryIndexer.InsertAll (self.Insert column row_offset n) column (row_offset + n) counts


/-- Modelled from the spec: the number of records in one block of a posting list. -/
def BLOCK_SIZE : Nat := 128

/-- Modelled from the spec: one block of the posting format, three parallel streams: the
delta-encoded docids, the term frequencies, and the concatenated per-record position deltas.
The embedding keeps the integers and leaves their variable-byte packing out. -/
structure PostingBlock where
  docid_delta : List Nat
  tf : List Nat
  positions_blob : List Nat
  deriving DecidableEq, Repr

/-- Modelled from the spec: the skip entry of a block, its last docid and its offset; blocks
are addressed by their index instead of a byte offset. -/
structure SkipEntry where
  last_docid : Nat
  offset : Nat
  deriving DecidableEq, Repr

/-- Modelled from the spec: a sealed posting list, its skip list and its blocks. -/
structure SealedPosting where
  skip_list : List SkipEntry
  blocks : List PostingBlock
  deriving DecidableEq, Repr

/-- Delta encoding of an increasing sequence, the first delta taken from `prev`. -/
def deltaEncode : Nat → List Nat → List Nat
  | _, [] => []
  | prev, x :: xs => (x - prev) :: deltaEncode x xs

/-- Decoding of a delta-encoded sequence by running sums from `prev`. -/
def deltaDecode : Nat → List Nat → List Nat
  | _, [] => []
  | prev, d :: ds => (prev + d) :: deltaDecode (prev + d) ds

/-- Cutting a sequence into blocks of `size` elements, the last one possibly shorter; `cur` is
the block being filled. -/
def splitBlocks {α : Type} (size : Nat) : List α → List α → List (List α)
  | [], cur => if cur.isEmpty then [] else [cur]
  | a :: l, cur =>
    if cur.length + 1 = size then (cur ++ [a]) :: splitBlocks size l []
    else splitBlocks size l (cur ++ [a])

/-- The last docid of a group of records, or `prev` for an empty group. -/
def lastDocid (prev : Nat) (rs : List PostingRecord) : Nat :=
  match rs.getLast? with
  | some r => r.docid
  | none => prev

/-- Encoding the records of one block; docid deltas start from the last docid of the previous
block, position deltas start from zero in every record. -/
def encodeBlock (prev_last : Nat) (rs : List PostingRecord) : PostingBlock :=
  { docid_delta := deltaEncode prev_last (rs.map (fun r => r.docid)),
    tf := rs.map (fun r => r.tf),
    positions_blob := rs.flatMap (fun r => deltaEncode 0 r.positions) }

/-- Encoding consecutive groups of records as blocks; the first block starts from zero. -/
def encodeBlocks : Nat → List (List PostingRecord) → List PostingBlock
  | _, [] => []
  | prev_last, rs :: rest => encodeBlock prev_last rs :: encodeBlocks (lastDocid prev_last rs) rest

/-- Modelled from the spec: `PostingWriter::Seal()` finalizes the blocks and emits the skip
list, one entry per block. -/
def PostingWriter.Seal (w : PostingWriter) : SealedPosting :=
  let groups := splitBlocks BLOCK_SIZE w.postingList []
  { skip_list := groups.enum.map (fun g => { last_docid := lastDocid 0 g.2, offset := g.1 }),
    blocks := encodeBlocks 0 groups }

/-- Splitting the positions blob of a block by the term frequencies and decoding each part. -/
def decodePositions : List Nat → List Nat → List (List Nat)
  | [], _ => []
  | tf :: tfs, blob => deltaDecode 0 (blob.take tf) :: decodePositions tfs (blob.drop tf)

/-- Putting the three decoded streams of a block together. -/
def zipRecords : List Nat → List Nat → List (List Nat) → List PostingRecord
  | docid :: docids, tf :: tfs, positions :: rest =>
    { docid := docid, tf := tf, positions := positions } :: zipRecords docids tfs rest
  | _, _, _ => []

/-- Decoding one block, given the last docid of the block before it. -/
def decodeBlock (prev_last : Nat) (b : PostingBlock) : List PostingRecord :=
  zipRecords (deltaDecode prev_last b.docid_delta) b.tf (decodePositions b.tf b.positions_blob)

/-- Decoding consecutive blocks; the first block starts from zero. -/
def decodeBlocks : Nat → List PostingBlock → List PostingRecord
  | _, [] => []
  | prev_last, b :: bs =>
    decodeBlock prev_last b ++ decodeBlocks (lastDocid prev_last (decodeBlock prev_last b)) bs

/-- The records of a sealed posting list. -/
def SealedPosting.decode (p : SealedPosting) : List PostingRecord :=
  decodeBlocks 0 p.blocks

/-- Modelled from the spec: an entry of the term dictionary of a chunk; the postings of a term
are addressed by their index instead of a byte offset. -/
structure TermDictEntry where
  term : List Char
  postings_offset : Nat
  df : Nat
  ttf : Nat
  deriving DecidableEq, Repr

/-- Modelled from the spec: a chunk file: magic, version, the term dictionary sorted by term,
the postings of the terms and the flags of the footer. The checksum of the footer is computed
over bytes and is not part of the embedding. -/
structure ChunkFile where
  magic : String
  version : Nat
  term_dict : List TermDictEntry
  postings : List SealedPosting
  flags : Nat
  deriving DecidableEq, Repr

/-- The two files of a chunk: `<chunk_name>.idx` and the spill sidecar `<chunk_name>.spill`. -/
inductive FileExt where
  | idx
  | spill
  deriving DecidableEq, Repr

/-- What a file holds: a chunk, or the sidecar index of a spilled chunk. -/
inductive FileContent where
  | chunk (c : ChunkFile)
  | sidecar (index : List TermDictEntry)
  deriving DecidableEq, Repr

/-- The persistent file namespace of one segment: the files by chunk name and extension. -/
abbrev FileSystem := List ((String × FileExt) × FileContent)

/-- Reading a file. -/
def FileSystem.read : FileSystem → String × FileExt → Option FileContent
  | [], _ => none
  | (k, v) :: fs, path => if k = path then some v else FileSystem.read fs path

/-- Writing a file, replacing the one that is there. -/
def FileSystem.write : FileSystem → String × FileExt → FileContent → FileSystem
  | [], path, content => [(path, content)]
  | (k, v) :: fs, path, content =>
    if k = path then (k, content) :: fs else (k, v) :: FileSystem.write fs path content

/-- The flags value for an index with all streams present. -/
def OPTION_FLAG_ALL : Nat := 1

/-- The chunk that `Dump` writes for a term dictionary of live writers: the terms in sorted
order, each with the index of its sealed postings and its statistics. -/
def chunkOfPostings (postings : PostingMap) : ChunkFile :=
  let sorted := stdSort (fun a b => decide (a.1 < b.1)) postings
  { magic := "IFTC", version := 1,
    term_dict := sorted.enum.map
      (fun e => { term := e.2.1, postings_offset := e.1, df := e.2.2.df, ttf := e.2.2.ttf }),
    postings := sorted.map (fun e => e.2.Seal),
    flags := OPTION_FLAG_ALL }

/-- Modelled from the spec: `MemoryIndexer::Dump(force, spill)` waits until the ready queue is
drained, seals every writer, writes the chunk file under the chunk name and clears the term
map; with `spill` it also keeps the sidecar index. The spec gives `force` no effect on the
result. -/
def MemoryIndexer.Dump (self : MemoryIndexer) (fs : FileSystem) (_force spill : Bool) :
    Except Exception (MemoryIndexer × FileSystem) :=
  match self.CommitSync with
  | Except.error e => Except.error e
  | Except.ok ix =>
    let chunk := chunkOfPostings ix.postings
    let fs1 := fs.write (ix.chunk_name, FileExt.idx) (FileContent.chunk chunk)
    let fs2 := if spill then
        fs1.write (ix.chunk_name, FileExt.spill) (FileContent.sidecar chunk.term_dict)
      else fs1
    Except.ok ({ ix with postings := [] }, fs2)

/-- A live, unsealed writer holding the given records and statistics. -/
def PostingWriter.ofRecords (rs : List PostingRecord) (df ttf : Nat) : PostingWriter :=
  { flushed := rs.dropLast, current := rs.getLast?, df := df, ttf := ttf }

/-- Modelled from the spec: `MemoryIndexer::Load()` reads a spilled chunk back into live
writers: the sidecar index names the terms and where their postings are, and the postings are
decoded from the chunk file. A missing file is an `IOError`, a wrong magic or version a
`FormatError`. -/
def MemoryIndexer.Load (self : MemoryIndexer) (fs : FileSystem) :
    Except Exception MemoryIndexer :=
  match fs.read (self.chunk_name, FileExt.spill), fs.read (self.chunk_name, FileExt.idx) with
  | some (FileContent.sidecar index), some (FileContent.chunk chunk) =>
    if chunk.magic = "IFTC" ∧ chunk.version = 1 then
      Except.ok { self with postings := index.filterMap (fun e =>
        match chunk.postings[e.postings_offset]? with
        | some p => some (e.term, PostingWriter.ofRecords p.decode e.df e.ttf)
        | none => none) }
    else
      Except.error (Exception.RecoverableException
        { code := ErrorCode.kFormatError, msg := "chunk magic or version mismatch" })
  | _, _ =>
    Except.error (Exception.RecoverableException
      { code := ErrorCode.kIOError, msg := "no spilled chunk" })


/-- Modelled from the spec: a `SegmentPosting`, the reader handle to the postings of one term
in one chunk or memory indexer. -/
structure SegmentPosting where
  base_row_id : Nat
  records : List PostingRecord
  deriving DecidableEq, Repr

/-- The call `SegmentPosting::Init(base_row_id, posting)` on a live writer. -/
def SegmentPosting.Init (base_row_id : Nat) (posting : PostingWriter) : SegmentPosting :=
  { base_row_id := base_row_id, records := posting.postingList }

/-- Modelled from the spec: the `PostingIterator` of one term over a list of segment postings,
declared in the module `posting_iterator`. `current` is the record of the docid returned
last; nothing has been returned when it is `none`. -/
structure PostingIterator where
  segment_postings : List SegmentPosting
  current : Option PostingRecord
  deriving DecidableEq, Repr

/-- The call `PostingIterator::Init(seg_postings, state_pool_size)`. -/
def PostingIterator.Init (seg_postings : List SegmentPosting) : PostingIterator :=
  { segment_postings := seg_postings, current := none }

/-- The records that the iterator decodes, segment after segment. -/
def PostingIterator.records (it : PostingIterator) : List PostingRecord :=
  it.segment_postings.flatMap (fun sp => sp.records)

/-- The docids of the posting list of the iterator. -/
def PostingIterator.docids (it : PostingIterator) : List Nat :=
  it.records.map (fun r => r.docid)

/-- Modelled from the spec: `PostingIterator::SeekDoc(target)` moves to the first record whose
docid is at least `target` and returns that docid, or `INVALID_ROWID` (the parameter `inv`)
at the end. The result is the returned docid together with the iterator after the call. -/
def PostingIterator.SeekDoc (inv : Nat) (it : PostingIterator) (target : Nat) :
    Nat × PostingIterator :=
  match it.records.find? (fun r => decide (target ≤ r.docid)) with
  | some r => (r.docid, { it with current := some r })
  | none => (inv, { it with current := none })

/-- Modelled from the spec: `PostingIterator::GetCurrentTF()` returns the tf of the docid
returned last; it is undefined, here `none`, before a docid has been returned. -/
def PostingIterator.GetCurrentTF (it : PostingIterator) : Option Nat :=
  it.current.map (fun r => r.tf)

/-- Modelled from the spec: `PostingIterator::SeekPosition(from, out)` sets `out` to the first
position of the current record that is at least `from`, or to `INVALID_POSITION` (the
parameter `invp`) when there is none. The result is the value of `out`. -/
def PostingIterator.SeekPosition (invp : Nat) (it : PostingIterator) (pos : Nat) : Nat :=
  match it.current with
  | some r => (r.positions.find? (fun p => decide (pos ≤ p))).getD invp
  | none => invp

/-- The position loop of the unit tests: starting at `pos`, call `SeekPosition(pos, out)` and
continue from `out + 1` until `out` is `INVALID_POSITION`; the result is the sequence of the
positions returned before that. -/
def positionLoop (invp : Nat) (it : PostingIterator) : Nat → Nat → Option (List Nat)
  | 0, _ => none
  | fuel + 1, pos =>
    if it.SeekPosition invp pos = invp then some []
    else
      match positionLoop invp it fuel (it.SeekPosition invp pos + 1) with
      | none => none
      | some rest => some (it.SeekPosition invp pos :: rest)

/-- The steps of the unit test `ColumnInverterTest.Invert`: one inverter per slice
`(row_offset, row_count, row_id_base)`, all merged into the first, sorted, and the postings
generated against an empty term dictionary. Without a slice no posting is generated. -/
def invertSlices (analyzer : List Char → List (List Char × Nat)) (column : List (List Char))
    (slices : List (Nat × Nat × Nat)) : Except Exception PostingMap :=
  let inverters := slices.map (fun s =>
    ColumnInverter.InvertColumn { analyzer := analyzer, tuples := [] } column s.1 s.2.1 s.2.2)
  match mergeReady inverters with
  | none => Except.ok []
  | some merged => merged.Sort.GeneratePosting []

/-- The rows, with their row ids, of a list of slices. -/
def slicesRows (column : List (List Char)) (slices : List (Nat × Nat × Nat)) :
    List (Nat × List Char) :=
  slices.flatMap (fun s => sliceRows column s.1 s.2.1 s.2.2)

/-- The `(docid, pos)` pairs held by a list of records, record after record. -/
def flatRecords (rs : List PostingRecord) : List (Nat × Nat) :=
  rs.flatMap (fun r => r.positions.map (fun p => (r.docid, p)))

/-- The `(docid, pos)` pairs that a writer holds, in the order of its posting list. -/
def PostingWriter.flat (w : PostingWriter) : List (Nat × Nat) :=
  flatRecords w.postingList

/-- The order of `(docid, pos)` pairs: by docid, then by position. -/
def pairLe (x y : Nat × Nat) : Prop := x.1 < y.1 ∨ (x.1 = y.1 ∧ x.2 ≤ y.2)

instance (x y : Nat × Nat) : Decidable (pairLe x y) := by
  unfold pairLe; infer_instance

/-- The invariants of a posting list: docids strictly increasing, and in every record `tf`
is the number of positions, there is a position, and positions do not decrease. -/
def RecordsValid (rs : List PostingRecord) : Prop :=
  (rs.map (fun r => r.docid)).Pairwise (fun a b => a < b) ∧
    ∀ r ∈ rs, r.tf = r.positions.length ∧ r.positions ≠ [] ∧
      r.positions.Pairwise (fun a b => a ≤ b)

instance (rs : List PostingRecord) : Decidable (RecordsValid rs) := by
  unfold RecordsValid; infer_instance

/-- The invariants of a posting writer: its posting list is valid, `df` is the number of
records, `ttf` the number of positions, and only a writer without records has no current
record. -/
def PostingWriter.Valid (w : PostingWriter) : Prop :=
  RecordsValid w.postingList ∧ w.df = w.postingList.length ∧ w.ttf = w.flat.length ∧
    (w.current = none → w.flushed = [])

instance (w : PostingWriter) : Decidable w.Valid := by
  unfold PostingWriter.Valid; infer_instance

/-- The `(docid, pos)` pairs of the tuples of a term, in the order of the tuples. -/
def pairsOf (term : List Char) (ts : List PostingTuple) : List (Nat × Nat) :=
  (ts.filter (fun t => decide (t.term = term))).map (fun t => (t.docid, t.pos))

/-- The invariants of a term dictionary: every term has one entry and every writer is
valid and not empty. -/
def PostingMap.Valid (m : PostingMap) : Prop :=
  (m.map (fun e => e.1)).Nodup ∧ ∀ e ∈ m, e.2.Valid ∧ e.2.postingList ≠ []

instance (m : PostingMap) : Decidable (PostingMap.Valid m) := by
  unfold PostingMap.Valid; infer_instance


/-- Modelled from the spec: `InMemIndexSegmentReader::GetSegmentPosting(term, seg_posting)` on
a memory indexer: the handle to the live writer of the term, if the term has one. -/
def MemoryIndexer.GetSegmentPosting (self : MemoryIndexer) (term : List Char) :
    Option SegmentPosting :=
  match PostingMap.find self.postings term with
  | some w => some (SegmentPosting.Init self.base_row_id w)
  | none => none

/-- The iterator that the unit tests build for a term over a memory indexer: the segment
posting of the term is pushed when there is one, and the iterator is initialized. -/
def MemoryIndexer.termIterator (self : MemoryIndexer) (term : List Char) : PostingIterator :=
  PostingIterator.Init (self.GetSegmentPosting term).toList

/-- The invariants of a memory indexer whose ready queue is drained: the term dictionary is
valid and every docid in it is below the next free row id. -/
def MemoryIndexer.Committed (ix : MemoryIndexer) : Prop :=
  ix.ready = [] ∧ PostingMap.Valid ix.postings ∧
    ∀ e ∈ ix.postings, ∀ x ∈ e.2.flat, x.1 < ix.base_row_id + ix.doc_count

/-- The sequence of `(docid, tf, positions)` that an indexer holds for a term; empty when
the term has no writer. -/
def MemoryIndexer.postingOf (ix : MemoryIndexer) (term : List Char) : List PostingRecord :=
  (GetOrAddPosting ix.postings term).postingList


/-- The tuples in the ready queue of an indexer, inverter after inverter. -/
def MemoryIndexer.readyTuples (ix : MemoryIndexer) : List PostingTuple :=
  ix.ready.flatMap (fun inv => inv.tuples)


/-! ## Definitions: `infinity.cpp`

The statements that the methods of the class `Infinity` build are declared in the parser
modules, which are not among the embedded sources; their embedding keeps the members and the
enumerators that the embedded methods use. A method builds a statement and submits it with
`QueryContext::QueryStatement`, whose result it returns. `QueryStatement` is outside the
embedded sources and is a parameter; `GetQueryContext()` builds the query context in the same
way for every method, so the context is part of that parameter. The types `SetScope` and
`double` are type parameters `S` and `D`. -/

/-- Modelled from the spec: the enumeration `SetVarType` of the module `command_statement`,
with the enumerators that `infinity.cpp` names. -/
inductive SetVarType where
  | kBool
  | kInteger
  | kDouble
  deriving DecidableEq, Repr

/-- The value given to a `SetCmd`; its constructor is overloaded on the C++ type of the value:
`bool`, `i64`, `double` or `String`. -/
inductive SetValue (D : Type) where
  | ofBool (value : Bool)
  | ofI64 (value : Int)
  | ofDouble (value : D)
  | ofString (value : List Char)

/-- Modelled from the spec: the command `SetCmd(scope, value_type, var_name, value)` of the
module `command_statement`, the arguments of its constructor. -/
structure SetCmd (S D : Type) where
  scope_ : S
  var_type_ : SetVarType
  var_name_ : List Char
  value_ : SetValue D

/-- A `CommandStatement`, with its member `command_info_`. -/
structure CommandStatement (S D : Type) where
  command_info_ : SetCmd S D

/-- Modelled from the spec: the enumeration `ShowStmtType` of the module `show_statement`,
with the enumerators that `infinity.cpp` names. -/
inductive ShowStmtType where
  | kDatabases | kDatabase | kGlobalVariable | kSessionVariable | kGlobalVariables
  | kSessionVariables | kConfig | kConfigs | kTables | kTable | kColumns | kIndexes | kIndex
  | kIndexSegment | kIndexChunk | kSegment | kSegments | kBlock | kBlocks | kBlockColumn
  | kBuffer | kProfiles | kMemIndex | kQueries | kLogs | kDeltaLogs | kCatalogs
  | kPersistenceObjects | kPersistenceObject | kPersistenceFiles | kMemory | kMemoryObjects
  | kMemoryAllocation | kFunction
  deriving DecidableEq, Repr

/-- A `ShowStatement`, with the members that `ShowQueries`, `ShowQuery` and `ShowTransactions`
assign. A member is `none` as long as it holds the value that the default constructor gave
it. -/
structure ShowStatement where
  show_type_ : Option ShowStmtType
  session_id_ : Option Nat
  deriving DecidableEq, Repr

/-- The statement that `MakeUnique<ShowStatement>()` returns. -/
def ShowStatement.MakeUnique : ShowStatement := { show_type_ := none, session_id_ := none }

/-- A statement handed to `QueryStatement` through a pointer to its base class. -/
inductive BaseStatement (S D : Type) where
  | ofCommand (statement : CommandStatement S D)
  | ofShow (statement : ShowStatement)

/-- The four overloads of `Infinity::SetVariableOrConfig(name, value, scope)`; the constructor
of `value` is the C++ type that selects the overload. `ToLower`, which turns a string into
lower case in place, is declared outside the embedded sources and is a parameter. -/
def SetVariableOrConfig {S D Q : Type} (QueryStatement : BaseStatement S D → Q)
    (ToLower : List Char → List Char) (name : List Char) (value : SetValue D) (scope : S) : Q :=
  let var_name := ToLower name
  match value with
  | SetValue.ofBool _ =>
    QueryStatement (BaseStatement.ofCommand
      { command_info_ := { scope_ := scope, var_type_ := SetVarType.kBool,
                           var_name_ := var_name, value_ := value } })
  | SetValue.ofI64 _ =>
    QueryStatement (BaseStatement.ofCommand
      { command_info_ := { scope_ := scope, var_type_ := SetVarType.kInteger,
                           var_name_ := var_name, value_ := value } })
  | SetValue.ofDouble _ =>
    QueryStatement (BaseStatement.ofCommand
      { command_info_ := { scope_ := scope, var_type_ := SetVarType.kDouble,
                           var_name_ := var_name, value_ := value } })
  | SetValue.ofString _ =>
    QueryStatement (BaseStatement.ofCommand
      { command_info_ := { scope_ := scope, var_type_ := SetVarType.kDouble,
                           var_name_ := var_name, value_ := value } })

/-- The method `Infinity::ShowQueries()`. -/
def ShowQueries {S D Q : Type} (QueryStatement : BaseStatement S D → Q) : Q :=
  let show_statement := ShowStatement.MakeUnique
  let show_statement := { show_statement with show_type_ := some ShowStmtType.kQueries }
  QueryStatement (BaseStatement.ofShow show_statement)

/-- The method `Infinity::ShowQuery(query_index)`. -/
def ShowQuery {S D Q : Type} (QueryStatement : BaseStatement S D → Q) (query_index : Nat) : Q :=
  let show_statement := ShowStatement.MakeUnique
  let show_statement := { show_statement with show_type_ := some ShowStmtType.kQueries }
  let show_statement := { show_statement with session_id_ := some query_index }
  QueryStatement (BaseStatement.ofShow show_statement)

/-- The method `Infinity::ShowTransactions()`. -/
def ShowTransactions {S D Q : Type} (QueryStatement : BaseStatement S D → Q) : Q :=
  let show_statement := ShowStatement.MakeUnique
  let show_statement := { show_statement with show_type_ := some ShowStmtType.kQueries }
  QueryStatement (BaseStatement.ofShow show_statement)

/-- The method `Infinity::ShowLogs()`. -/
def ShowLogs {S D Q : Type} (QueryStatement : BaseStatement S D → Q) : Q :=
  let show_statement := ShowStatement.MakeUnique
  let show_statement := { show_statement with show_type_ := some ShowStmtType.kLogs }
  QueryStatement (BaseStatement.ofShow show_statement)



/-! ## Concrete data used by the examples -/

/-- The posting lists of the terms `fst`, `automaton` and `transducer` in the seed scenario. -/
def fstIt : DocIterator := { docs := [0, 1, 2], df := 3, doc_id_ := 0 }

/-- The posting list `{0, 3}` of `automaton`. -/
def automatonIt : DocIterator := { docs := [0, 3], df := 2, doc_id_ := 0 }

/-- The posting list `{0, 4}` of `transducer`. -/
def transducerIt : DocIterator := { docs := [0, 4], df := 2, doc_id_ := 0 }

/-- An iterator over `fst` and `automaton` as the constructor leaves it. -/
def fstAndAutomaton : AndIterator :=
  { children_ := [fstIt, automatonIt], sorted_iterators_ := [1, 0], doc_id_ := 0 }


/-- A stand-in for `std::stof` on weights that are integers: it reads a non-empty run of
decimal digits and raises `std::invalid_argument` on anything else. -/
def digitsStof (s : List Char) : Except Exception Int :=
  if s ≠ [] ∧ s.all (fun c => c.isDigit) then
    Except.ok (Int.ofNat (s.foldl (fun n c => 10 * n + (c.toNat - 48)) 0))
  else Except.error Exception.std_invalid_argument

/-- A parser that accepts every query and returns one term node over the default field. -/
def termParser : ParserFn Int :=
  fun default_field query => Except.ok (0, some (QueryNode.TermQueryNode 1 query default_field))

/-- A parser that rejects every query. -/
def rejectParser : ParserFn Int :=
  fun _ _ => Except.ok (1, none)

/-- A parser that accepts a query only when the default field is `title`. -/
def titleParser : ParserFn Int :=
  fun default_field query =>
    if default_field = "title".toList then
      Except.ok (0, some (QueryNode.TermQueryNode 1 query default_field))
    else Except.ok (1, none)

/-- A driver with an analyzer bound to `body` that splits nothing: it returns no term for the
text `the`, the two terms `new` and `york` for `new-york`, and otherwise the text in lower
case as the only term. -/
def demoDriver : SearchDriver :=
  { field2analyzer_ := [("body".toList, "standard".toList), ("raw".toList, [])],
    default_field_ := "body".toList,
    analyze_func_ := fun _ text =>
      if text = "the".toList then Except.ok []
      else if text = "new-york".toList then
        Except.ok [⟨"new".toList, 0⟩, ⟨"york".toList, 1⟩]
      else Except.ok [⟨text.map Char.toLower, 0⟩] }

/-- A driver whose analyzer map has the empty string as a key. -/
def emptyKeyDriver : SearchDriver :=
  { field2analyzer_ := [([], "standard".toList)],
    default_field_ := [],
    analyze_func_ := fun _ text =>
      if text = "the".toList then Except.ok []
      else Except.ok [⟨text.map Char.toLower, 0⟩] }


/-- A driver whose analyzer map has the empty string as a key and whose analyzer splits every
text into the two terms `new` and `york`. -/
def emptyKeySplitDriver : SearchDriver :=
  { field2analyzer_ := [([], "standard".toList)],
    default_field_ := [],
    analyze_func_ := fun _ _ => Except.ok [⟨"new".toList, 0⟩, ⟨"york".toList, 1⟩] }


/-- The five paragraphs of the unit tests, the rows of the test column. -/
def paragraphs : List (List Char) :=
  ["A finite-state transducer (FST) is a finite-state machine with two memory tapes, following the terminology for Turing machines: an input tape and an output tape. This contrasts with an ordinary finite-state automaton, which has a single tape. An FST is a type of finite-state automaton (FSA) that maps between two sets of symbols.[1] An FST is more general than an FSA. An FSA defines a formal language by defining a set of accepted strings, while an FST defines a relation between sets of strings.".toList,
   "An FST will read a set of strings on the input tape and generates a set of relations on the output tape. An FST can be thought of as a translator or relater between strings in a set.".toList,
   "In morphological parsing, an example would be inputting a string of letters into the FST, the FST would then output a string of morphemes.".toList,
   "An automaton can be said to recognize a string if we view the content of its tape as input. In other words, the automaton computes a function that maps strings into the set \x7b0,1\x7d. Alternatively, we can say that an automaton generates strings, which means viewing its tape as an output tape. On this view, the automaton generates a formal language, which is a set of strings. The two views of automata are equivalent: the function that the automaton computes is precisely the indicator function of the set of strings it generates. The class of languages generated by finite automata is known as the class of regular languages.".toList,
   "The two tapes of a transducer are typically viewed as an input tape and an output tape. On this view, a transducer is said to transduce (i.e., translate) the contents of its input tape to its output tape, by accepting a string on its input tape and generating another string on its output tape. It may do so nondeterministically and it may produce more than one output for each input string. A transducer may also produce no output for a given input string, in which case it is said to reject the input. In general, a transducer computes a relation between two formal languages.".toList]

/-- The slices of the unit test `ColumnInverterTest.Invert`: rows 0 to 2 with the row ids from
0, rows 3 and 4 with the row ids from 3. -/
def testSlices : List (Nat × Nat × Nat) := [(0, 3, 0), (3, 2, 3)]


/-- The text `A B C` repeated seven times, the row of the unit test `SeekPosition`. -/
def abcText : List Char := "A B C A B C A B C A B C A B C A B C A B C".toList

/-- A column of two rows for the spill and load round trip. -/
def spillColumn : List (List Char) := ["fst automaton fst".toList, "automaton".toList]

/-- A new indexer after two `Insert` calls of one row each, the inverters not yet committed. -/
def spillIndexer : MemoryIndexer :=
  (MemoryIndexer.new "chunk1" 0 standardAnalyzer).InsertAll spillColumn 0 [1, 1]

/-- The state of `spillIndexer` after its commit. -/
def spillCommitted : MemoryIndexer :=
  { chunk_name := "chunk1", base_row_id := 0, analyzer := standardAnalyzer,
    postings := [("automaton".toList, ⟨[⟨0, 1, [1]⟩], some ⟨1, 1, [0]⟩, 2, 2⟩),
      ("fst".toList, ⟨[], some ⟨0, 2, [0, 2]⟩, 1, 2⟩)],
    doc_count := 2, ready := [] }



/-- The state of a new indexer named `chunk1` after the insertion of three rows that hold
`abcText` and the commit. -/
def abcCommitted : MemoryIndexer :=
  { chunk_name := "chunk1", base_row_id := 0, analyzer := standardAnalyzer,
    postings :=
      [("a".toList, ⟨[⟨0, 7, [0, 3, 6, 9, 12, 15, 18]⟩, ⟨1, 7, [0, 3, 6, 9, 12, 15, 18]⟩],
          some ⟨2, 7, [0, 3, 6, 9, 12, 15, 18]⟩, 3, 21⟩),
       ("b".toList, ⟨[⟨0, 7, [1, 4, 7, 10, 13, 16, 19]⟩, ⟨1, 7, [1, 4, 7, 10, 13, 16, 19]⟩],
          some ⟨2, 7, [1, 4, 7, 10, 13, 16, 19]⟩, 3, 21⟩),
       ("c".toList, ⟨[⟨0, 7, [2, 5, 8, 11, 14, 17, 20]⟩, ⟨1, 7, [2, 5, 8, 11, 14, 17, 20]⟩],
          some ⟨2, 7, [2, 5, 8, 11, 14, 17, 20]⟩, 3, 21⟩)],
    doc_count := 3, ready := [] }


/-! ## Theorems: `and_iterator.cpp` -/

/-- The docid found by a forward scan for the first docid that is at least `t`. -/
theorem Seek_doc (inv : Nat) (c : DocIterator) (t : Nat) :
    (c.Seek inv t).Doc = (c.docs.find? (fun d => decide (t ≤ d))).getD inv := rfl

/-- Seeking changes neither the posting list nor the document frequency. -/
theorem Seek_static (inv : Nat) (c : DocIterator) (t : Nat) :
    (c.Seek inv t).docs = c.docs ∧ (c.Seek inv t).df = c.df := ⟨rfl, rfl⟩

/-- The scan result lies between the target and the sentinel. -/
theorem scan_bounds (inv t : Nat) (l : List Nat) (hb : ∀ d ∈ l, d < inv) (ht : t ≤ inv) :
    t ≤ (l.find? (fun d => decide (t ≤ d))).getD inv ∧
      (l.find? (fun d => decide (t ≤ d))).getD inv ≤ inv := by
  cases h : l.find? (fun d => decide (t ≤ d)) with
  | none => simpa using ht
  | some d =>
    have h1 := List.find?_some h
    have h2 := List.mem_of_find?_eq_some h
    have h3 := hb d h2
    simp only [decide_eq_true_eq] at h1
    simp only [Option.getD_some]
    omega

/-- A scan that stops on its own target found the target in the list, or ran off the end. -/
theorem scan_fix (inv t : Nat) (l : List Nat)
    (h : (l.find? (fun d => decide (t ≤ d))).getD inv = t) : t ∈ l ∨ t = inv := by
  cases hf : l.find? (fun d => decide (t ≤ d)) with
  | none => rw [hf] at h; right; simpa using h.symm
  | some d =>
    rw [hf] at h
    simp only [Option.getD_some] at h
    subst h
    exact Or.inl (List.mem_of_find?_eq_some hf)

/-- On an increasing list the scan stops at or before every listed docid that is at least `t`. -/
theorem scan_le_of_mem (inv t : Nat) (l : List Nat) (hs : l.Pairwise (fun a b => a < b))
    (m : Nat) (hm : m ∈ l) (htm : t ≤ m) :
    (l.find? (fun d => decide (t ≤ d))).getD inv ≤ m := by
  induction l with
  | nil => simp at hm
  | cons a l ih =>
    rw [List.pairwise_cons] at hs
    by_cases hta : t ≤ a
    · rw [List.find?_cons_of_pos _ (by simpa using hta)]
      simp only [Option.getD_some]
      rcases List.mem_cons.mp hm with h | h
      · omega
      · have := hs.1 m h; omega
    · rw [List.find?_cons_of_neg _ (by simpa using hta)]
      rcases List.mem_cons.mp hm with h | h
      · omega
      · exact ih hs.2 h

/-- Replacing a child by the same child after a seek keeps every posting list. -/
theorem map_docs_set_Seek (inv : Nat) (children : List DocIterator) (p : Nat) (c : DocIterator)
    (t : Nat) (hc : children[p]? = some c) :
    (children.set p (c.Seek inv t)).map (fun c => c.docs) = children.map (fun c => c.docs) := by
  apply List.ext_getElem?
  intro i
  rw [List.getElem?_map, List.getElem?_map, List.getElem?_set]
  by_cases hpi : p = i
  · subst hpi
    have hlt : p < children.length := by
      rcases List.getElem?_eq_some_iff.mp hc with ⟨h, _⟩; exact h
    simp [hlt, hc, DocIterator.Seek]
  · simp [hpi]

/-- Replacing a child by the same child after a seek keeps every document frequency. -/
theorem map_df_set_Seek (inv : Nat) (children : List DocIterator) (p : Nat) (c : DocIterator)
    (t : Nat) (hc : children[p]? = some c) :
    (children.set p (c.Seek inv t)).map (fun c => c.df) = children.map (fun c => c.df) := by
  apply List.ext_getElem?
  intro i
  rw [List.getElem?_map, List.getElem?_map, List.getElem?_set]
  by_cases hpi : p = i
  · subst hpi
    have hlt : p < children.length := by
      rcases List.getElem?_eq_some_iff.mp hc with ⟨h, _⟩; exact h
    simp [hlt, hc, DocIterator.Seek]
  · simp [hpi]


/-- The invariant of the loop of `DoSeek`, for children whose posting lists are `D` and whose
document frequencies are `F`: with enough fuel the loop returns; the posting lists and
frequencies are unchanged; the candidate `r` it returns lies between the target `t` and the
sentinel, is at most every docid from `t` on that all the pointed-to lists contain, is in each
pointed-to list unless it is the sentinel, and every pointed-to child ends positioned on it. -/
theorem DoSeekLoop_spec (inv : Nat) (sorted : List Nat) (D : List (List Nat)) (F : List Nat)
    (t : Nat) (hs : ∀ l ∈ D, l.Pairwise (fun a b => a < b)) (hb : ∀ l ∈ D, ∀ d ∈ l, d < inv)
    (hp : ∀ p ∈ sorted, p < D.length) :
    ∀ (fuel : Nat) (children : List DocIterator) (ib doc_id : Nat),
      children.map (fun c => c.docs) = D →
      children.map (fun c => c.df) = F →
      t ≤ doc_id → doc_id ≤ inv →
      (∀ m, t ≤ m → (∀ p ∈ sorted, ∀ l, D[p]? = some l → m ∈ l) → doc_id ≤ m) →
      (∀ k, k < ib → ∀ p, sorted[k]? = some p →
        (∀ l, D[p]? = some l → doc_id ∈ l ∨ doc_id = inv) ∧
        ∃ c, children[p]? = some c ∧ c.Doc = doc_id) →
      (inv - doc_id) * (sorted.length + 1) + (sorted.length - ib) < fuel →
      ∃ children1 r, DoSeekLoop inv sorted fuel children ib doc_id = some (children1, r) ∧
        children1.map (fun c => c.docs) = D ∧ children1.map (fun c => c.df) = F ∧
        t ≤ r ∧ r ≤ inv ∧
        (∀ m, t ≤ m → (∀ p ∈ sorted, ∀ l, D[p]? = some l → m ∈ l) → r ≤ m) ∧
        (∀ p ∈ sorted, (∀ l, D[p]? = some l → r ∈ l ∨ r = inv) ∧
          ∃ c, children1[p]? = some c ∧ c.Doc = r) := by
  intro fuel
  induction fuel with
  | zero => intro _ _ _ _ _ _ _ _ _ hf; omega
  | succ fuel ih =>
    intro children ib doc_id hD hF ht hi hmin hag hf
    rw [DoSeekLoop]
    cases hsib : sorted[ib]? with
    | none =>
      refine ⟨children, doc_id, rfl, hD, hF, ht, hi, hmin, ?_⟩
      intro p hpm
      obtain ⟨k, hkp⟩ := List.getElem?_of_mem hpm
      have hk : k < sorted.length := (List.getElem?_eq_some_iff.mp hkp).1
      have hge : sorted.length ≤ ib := by
        by_contra hlt
        rw [List.getElem?_eq_getElem (by omega)] at hsib
        simp at hsib
      exact hag k (by omega) p hkp
    | some p =>
      have hib : ib < sorted.length := by
        rcases List.getElem?_eq_some_iff.mp hsib with ⟨h, _⟩; exact h
      have hpm : p ∈ sorted := List.getElem?_mem hsib
      have hpl := hp p hpm
      have hlen : children.length = D.length := by rw [← hD, List.length_map]
      have hpc : p < children.length := by omega
      have hc : children[p]? = some children[p] := List.getElem?_eq_getElem hpc
      generalize children[p] = c at hc
      have hDp : D[p]? = some c.docs := by rw [← hD, List.getElem?_map, hc]; rfl
      have hcD : c.docs ∈ D := List.getElem?_mem hDp
      have hbnd := scan_bounds inv doc_id c.docs (hb _ hcD) hi
      have hD1 := (map_docs_set_Seek inv children p c doc_id hc).trans hD
      have hF1 := (map_df_set_Seek inv children p c doc_id hc).trans hF
      have hget : (children.set p (c.Seek inv doc_id))[p]? = some (c.Seek inv doc_id) := by
        rw [List.getElem?_set]; simp; omega
      simp only [hc, Seek_doc]
      by_cases hne : (c.docs.find? (fun d => decide (doc_id ≤ d))).getD inv = doc_id
      · rw [if_neg (by simpa using hne)]
        apply ih _ (ib + 1) doc_id hD1 hF1 ht hi hmin
        · intro k hk q hq
          by_cases hkib : k = ib
          · subst hkib
            rw [hsib] at hq
            cases hq
            refine ⟨?_, c.Seek inv doc_id, hget, by rw [Seek_doc]; exact hne⟩
            intro l hl
            rw [hDp] at hl
            cases hl
            exact scan_fix inv doc_id c.docs hne
          · obtain ⟨h1, c2, hc2, hd2⟩ := hag k (by omega) q hq
            refine ⟨h1, ?_⟩
            by_cases hqp : q = p
            · subst hqp
              exact ⟨c.Seek inv doc_id, hget, by rw [Seek_doc]; exact hne⟩
            · refine ⟨c2, ?_, hd2⟩
              rw [List.getElem?_set]; simp [Ne.symm hqp, hc2]
        · omega
      · rw [if_pos (by simpa using hne)]
        have hgt : doc_id < (c.docs.find? (fun d => decide (doc_id ≤ d))).getD inv := by omega
        apply ih _ 0 _ hD1 hF1 (by omega) hbnd.2
        · intro m htm hcm
          exact scan_le_of_mem inv doc_id c.docs (hs _ hcD) m (hcm p hpm _ hDp) (hmin m htm hcm)
        · intro k hk; omega
        · generalize (c.docs.find? (fun d => decide (doc_id ≤ d))).getD inv = d1 at hgt hbnd
          have h1 : inv - doc_id = (inv - d1) + (d1 - doc_id) := by omega
          rw [h1, Nat.add_mul] at hf
          have h2 : sorted.length + 1 ≤ (d1 - doc_id) * (sorted.length + 1) :=
            Nat.le_mul_of_pos_left _ (by omega)
          omega


/-- Membership in every child is a property of the posting lists alone. -/
theorem Common_iff_lists (children : List DocIterator) (d : Nat) :
    Common children d ↔ ∀ l ∈ children.map (fun c => c.docs), d ∈ l := by
  unfold Common
  simp only [List.mem_map, forall_exists_index, and_imp, forall_apply_eq_imp_iff₂]

/-- Well-formedness of all children is a property of the posting lists alone. -/
theorem WellFormed_iff_lists (inv : Nat) (children : List DocIterator) :
    (∀ c ∈ children, c.WellFormed inv) ↔
      ∀ l ∈ children.map (fun c => c.docs),
        l.Pairwise (fun a b => a < b) ∧ ∀ d ∈ l, d < inv := by
  unfold DocIterator.WellFormed
  simp only [List.mem_map, forall_exists_index, and_imp, forall_apply_eq_imp_iff₂]

/-- What `DoSeek(t)` does on a valid iterator: with `seekFuel` fuel it returns; pointers,
posting lists and frequencies are kept; the new `doc_id_` lies between `t` and the sentinel,
is at most every common docid from `t` on, is itself common unless it is the sentinel, and
every child is positioned on it. -/
theorem DoSeek_spec (inv : Nat) (it : AndIterator) (t : Nat) (hv : it.Valid inv) (ht : t ≤ inv)
    (fuel : Nat) (hf : seekFuel inv it.children_.length ≤ fuel) :
    ∃ it1, it.DoSeek inv fuel t = some it1 ∧
      it1.sorted_iterators_ = it.sorted_iterators_ ∧
      it1.children_.map (fun c => c.docs) = it.children_.map (fun c => c.docs) ∧
      it1.children_.map (fun c => c.df) = it.children_.map (fun c => c.df) ∧
      t ≤ it1.doc_id_ ∧ it1.doc_id_ ≤ inv ∧
      (∀ m, t ≤ m → Common it.children_ m → it1.doc_id_ ≤ m) ∧
      (Common it.children_ it1.doc_id_ ∨ it1.doc_id_ = inv) ∧
      (∀ c ∈ it1.children_, c.Doc = it1.doc_id_) := by
  obtain ⟨hwf, hperm⟩ := hv
  have hwl := (WellFormed_iff_lists inv it.children_).mp hwf
  have hlenD : (it.children_.map (fun c => c.docs)).length = it.children_.length :=
    List.length_map _ _
  have hmemS : ∀ p, p ∈ it.sorted_iterators_ ↔ p < it.children_.length := by
    intro p; rw [hperm.mem_iff, List.mem_range]
  have hlenS : it.sorted_iterators_.length = it.children_.length := by
    rw [hperm.length_eq, List.length_range]
  have hfuel : (inv - t) * (it.sorted_iterators_.length + 1) +
      (it.sorted_iterators_.length - 0) < fuel := by
    rw [hlenS]
    unfold seekFuel at hf
    have h1 : (inv - t) * (it.children_.length + 1) ≤ inv * (it.children_.length + 1) :=
      Nat.mul_le_mul_right _ (by omega)
    rw [Nat.add_mul] at hf
    omega
  have hcomm : ∀ m, Common it.children_ m →
      ∀ p ∈ it.sorted_iterators_, ∀ l,
        (it.children_.map (fun c => c.docs))[p]? = some l → m ∈ l := by
    intro m hm p _ l hl
    exact (Common_iff_lists it.children_ m).mp hm l (List.getElem?_mem hl)
  obtain ⟨children1, r, hrun, hD1, hF1, htr, hri, hmin, hfin⟩ :=
    DoSeekLoop_spec inv it.sorted_iterators_ (it.children_.map (fun c => c.docs))
      (it.children_.map (fun c => c.df)) t (fun l hl => (hwl l hl).1) (fun l hl => (hwl l hl).2)
      (fun p hp => by rw [hlenD]; exact (hmemS p).mp hp)
      fuel it.children_ 0 t rfl rfl (le_refl t) ht
      (fun m htm _ => htm) (fun k hk => by omega) hfuel
  refine ⟨⟨children1, it.sorted_iterators_, r⟩, ?_, rfl, hD1, hF1, htr, hri, ?_, ?_, ?_⟩
  · simp only [AndIterator.DoSeek, hrun]
  · intro m htm hm
    exact hmin m htm (hcomm m hm)
  · by_cases hr : r = inv
    · exact Or.inr hr
    · left
      rw [Common_iff_lists]
      intro l hl
      obtain ⟨p, hpl⟩ := List.getElem?_of_mem hl
      have hp : p < it.children_.length := by
        rw [← hlenD]; exact (List.getElem?_eq_some_iff.mp hpl).1
      rcases (hfin p ((hmemS p).mpr hp)).1 l hpl with h | h
      · exact h
      · exact absurd h hr
  · intro c hc
    obtain ⟨p, hpc⟩ := List.getElem?_of_mem hc
    have hp : p < it.children_.length := by
      have h1 : p < children1.length := (List.getElem?_eq_some_iff.mp hpc).1
      have h2 : children1.length = it.children_.length := by
        rw [← List.length_map children1 (fun c => c.docs), hD1, hlenD]
      omega
    obtain ⟨c2, hc2, hd2⟩ := (hfin p ((hmemS p).mpr hp)).2
    rw [hpc] at hc2
    cases hc2
    exact hd2

/-- The invariant `Valid` is kept by `DoSeek`. -/
theorem Valid_of_same (inv : Nat) (it it1 : AndIterator) (hv : it.Valid inv)
    (hs : it1.sorted_iterators_ = it.sorted_iterators_)
    (hd : it1.children_.map (fun c => c.docs) = it.children_.map (fun c => c.docs)) :
    it1.Valid inv := by
  obtain ⟨hwf, hperm⟩ := hv
  refine ⟨?_, ?_⟩
  · rw [WellFormed_iff_lists, hd, ← WellFormed_iff_lists]
    exact hwf
  · have hlen : it1.children_.length = it.children_.length := by
      rw [← List.length_map it1.children_ (fun c => c.docs), hd, List.length_map]
    rw [hs, hlen]
    exact hperm


/-- Inserting an element adds exactly that element. -/
theorem linearInsert_perm {α : Type} (comp : α → α → Bool) (a : α) (l : List α) :
    (linearInsert comp a l).Perm (a :: l) := by
  induction l with
  | nil => exact List.Perm.refl _
  | cons b l ih =>
    unfold linearInsert
    split
    · exact List.Perm.refl _
    · exact (List.Perm.cons b ih).trans (List.Perm.swap a b l)

/-- The insertion loop of `stdSort` permutes the sorted prefix together with the rest. -/
theorem foldl_linearInsert_perm {α : Type} (comp : α → α → Bool) (l acc : List α) :
    (l.foldl (fun acc a => linearInsert comp a acc) acc).Perm (acc ++ l) := by
  induction l generalizing acc with
  | nil => simp
  | cons a l ih =>
    rw [List.foldl_cons]
    refine (ih (linearInsert comp a acc)).trans ?_
    refine ((linearInsert_perm comp a acc).append_right l).trans ?_
    have hmid : (acc ++ a :: l).Perm (a :: (acc ++ l)) := List.perm_middle
    simpa using hmid.symm

/-- The result of `stdSort` is a permutation of its input. -/
theorem stdSort_perm {α : Type} (comp : α → α → Bool) (l : List α) :
    (stdSort comp l).Perm l := by
  simpa [stdSort] using foldl_linearInsert_perm comp l []

/-- Inserting into a range ordered by a key keeps it ordered by that key. -/
theorem linearInsert_sorted {α : Type} (key : α → Nat) (a : α) (l : List α)
    (hl : l.Pairwise (fun x y => key x ≤ key y)) :
    (linearInsert (fun x y => decide (key x < key y)) a l).Pairwise
      (fun x y => key x ≤ key y) := by
  induction l with
  | nil => simp [linearInsert]
  | cons b l ih =>
    rw [List.pairwise_cons] at hl
    unfold linearInsert
    split
    · rename_i hab
      simp only [decide_eq_true_eq] at hab
      refine List.Pairwise.cons ?_ (List.Pairwise.cons hl.1 hl.2)
      intro x hx
      rcases List.mem_cons.mp hx with h | h
      · subst h; omega
      · have := hl.1 x h; omega
    · rename_i hab
      simp only [decide_eq_true_eq] at hab
      refine List.Pairwise.cons ?_ (ih hl.2)
      intro x hx
      rcases List.mem_cons.mp ((linearInsert_perm _ a l).mem_iff.mp hx) with h | h
      · subst h; omega
      · exact hl.1 x h

/-- The insertion loop of `stdSort` keeps the sorted prefix ordered. -/
theorem foldl_linearInsert_sorted {α : Type} (key : α → Nat) (l acc : List α)
    (hacc : acc.Pairwise (fun x y => key x ≤ key y)) :
    (l.foldl (fun acc a => linearInsert (fun x y => decide (key x < key y)) a acc) acc).Pairwise
      (fun x y => key x ≤ key y) := by
  induction l generalizing acc with
  | nil => simpa using hacc
  | cons a l ih =>
    rw [List.foldl_cons]
    exact ih _ (linearInsert_sorted key a acc hacc)

/-- With the comparison `key x < key y`, the result of `stdSort` is in non-decreasing key
order. -/
theorem stdSort_sorted {α : Type} (key : α → Nat) (l : List α) :
    (stdSort (fun x y => decide (key x < key y)) l).Pairwise (fun x y => key x ≤ key y) :=
  foldl_linearInsert_sorted key l [] List.Pairwise.nil

/-- The frequency read through a pointer depends on the frequencies of the children only. -/
theorem GetDFAt_eq (children : List DocIterator) (p : Nat) :
    GetDFAt children p = ((children.map (fun c => c.df))[p]?).getD 0 := by
  unfold GetDFAt
  rw [List.getElem?_map]
  cases children[p]? <;> rfl

/-- Dereferencing the pointers `0, 1, ..., n - 1` yields the children in order. -/
theorem filterMap_getElem?_range {α : Type} (l : List α) :
    (List.range l.length).filterMap (fun p => l[p]?) = l := by
  induction l using List.reverseRecOn with
  | nil => rfl
  | append_singleton l a ih =>
    rw [List.length_append, List.length_singleton, List.range_succ, List.filterMap_append]
    have h1 : (List.range l.length).filterMap (fun p => (l ++ [a])[p]?) =
        (List.range l.length).filterMap (fun p => l[p]?) := by
      apply List.filterMap_congr
      intro p hp
      rw [List.mem_range] at hp
      rw [List.getElem?_append_left hp]
    rw [h1, ih]
    simp

/-- Whatever the loop of `DoSeek` returns, it has kept every posting list and frequency. -/
theorem DoSeekLoop_static (inv : Nat) (sorted : List Nat) :
    ∀ (fuel : Nat) (children : List DocIterator) (ib doc_id : Nat)
      (res : List DocIterator × Nat),
      DoSeekLoop inv sorted fuel children ib doc_id = some res →
      res.1.map (fun c => c.docs) = children.map (fun c => c.docs) ∧
        res.1.map (fun c => c.df) = children.map (fun c => c.df) := by
  intro fuel
  induction fuel with
  | zero => intro _ _ _ _ h; simp [DoSeekLoop] at h
  | succ fuel ih =>
    intro children ib doc_id res h
    rw [DoSeekLoop] at h
    cases hsib : sorted[ib]? with
    | none =>
      rw [hsib] at h
      simp only [Option.some.injEq] at h
      subst h
      exact ⟨rfl, rfl⟩
    | some p =>
      simp only [hsib] at h
      cases hc : children[p]? with
      | none => simp [hc] at h
      | some c =>
        simp only [hc] at h
        have hD1 := map_docs_set_Seek inv children p c doc_id hc
        have hF1 := map_df_set_Seek inv children p c doc_id hc
        split at h
        · obtain ⟨h1, h2⟩ := ih _ _ _ _ h
          exact ⟨h1.trans hD1, h2.trans hF1⟩
        · obtain ⟨h1, h2⟩ := ih _ _ _ _ h
          exact ⟨h1.trans hD1, h2.trans hF1⟩


/-- The constructor on well-formed children: with `seekFuel` fuel it returns a valid iterator
over the same posting lists and frequencies, positioned on the least common docid or, if that
is not below the sentinel, on the sentinel. -/
theorem new_spec (inv : Nat) (iterators : List DocIterator)
    (hwf : ∀ c ∈ iterators, c.WellFormed inv) (fuel : Nat)
    (hf : seekFuel inv iterators.length ≤ fuel) :
    ∃ it, AndIterator.new inv fuel iterators = some it ∧ it.Valid inv ∧
      it.children_.map (fun c => c.docs) = iterators.map (fun c => c.docs) ∧
      it.children_.map (fun c => c.df) = iterators.map (fun c => c.df) ∧
      it.doc_id_ ≤ inv ∧
      (∀ m, Common iterators m → it.doc_id_ ≤ m) ∧
      (Common iterators it.doc_id_ ∨ it.doc_id_ = inv) := by
  have hv0 : AndIterator.Valid inv
      { children_ := iterators,
        sorted_iterators_ := stdSort
          (fun lhs rhs => decide (GetDFAt iterators lhs < GetDFAt iterators rhs))
          (List.range iterators.length),
        doc_id_ := 0 } := ⟨hwf, stdSort_perm _ _⟩
  obtain ⟨it1, hrun, hs, hd, hdf, _, hle, hmin, hfix, _⟩ :=
    DoSeek_spec inv _ 0 hv0 (Nat.zero_le inv) fuel hf
  exact ⟨it1, hrun, Valid_of_same inv _ it1 hv0 hs hd, hd, hdf, hle,
    fun m hm => hmin m (Nat.zero_le m) hm, hfix⟩

/-- The enumeration loop on a valid iterator positioned on a common docid or on the sentinel:
with enough fuel it returns the common docids from `doc_id_` up to the sentinel, in
increasing order. -/
theorem emitLoop_spec (inv : Nat) (fuel : Nat) (D : List (List Nat)) :
    ∀ (k : Nat) (it : AndIterator), it.Valid inv →
      it.children_.map (fun c => c.docs) = D →
      seekFuel inv D.length ≤ fuel →
      it.doc_id_ ≤ inv → ((∀ l ∈ D, it.doc_id_ ∈ l) ∨ it.doc_id_ = inv) →
      inv - it.doc_id_ < k →
      ∃ L, emitLoop inv fuel k it = some L ∧ L.Pairwise (fun a b => a < b) ∧
        ∀ x, x ∈ L ↔ it.doc_id_ ≤ x ∧ x < inv ∧ ∀ l ∈ D, x ∈ l := by
  intro k
  induction k with
  | zero => intro _ _ _ _ _ _ hk; omega
  | succ k ih =>
    intro it hv hD hf hle hfix hk
    rw [emitLoop]
    by_cases hinv : it.doc_id_ = inv
    · rw [if_pos hinv]
      refine ⟨[], rfl, List.Pairwise.nil, ?_⟩
      intro x
      simp only [List.not_mem_nil, false_iff, not_and]
      intro h1 h2
      omega
    · rw [if_neg hinv]
      have hcur : ∀ l ∈ D, it.doc_id_ ∈ l := by
        rcases hfix with h | h
        · exact h
        · exact absurd h hinv
      have hlen : it.children_.length = D.length := by rw [← hD, List.length_map]
      obtain ⟨it1, hrun, hs1, hd1, _, hge1, hle1, hmin1, hfix1, _⟩ :=
        DoSeek_spec inv it (it.doc_id_ + 1) hv (by omega) fuel (by rw [hlen]; exact hf)
      have hv1 := Valid_of_same inv it it1 hv hs1 hd1
      have hfix1D : (∀ l ∈ D, it1.doc_id_ ∈ l) ∨ it1.doc_id_ = inv := by
        rcases hfix1 with h | h
        · left; rw [← hD, ← Common_iff_lists]; exact h
        · exact Or.inr h
      obtain ⟨L, hL, hsorted, hmem⟩ :=
        ih it1 hv1 (hd1.trans hD) hf hle1 hfix1D (by omega)
      refine ⟨it.doc_id_ :: L, ?_, ?_, ?_⟩
      · simp only [hrun, hL]
      · refine List.Pairwise.cons ?_ hsorted
        intro x hx
        have := ((hmem x).mp hx).1
        omega
      · intro x
        rw [List.mem_cons, hmem x]
        constructor
        · rintro (h | ⟨h1, h2, h3⟩)
          · subst h
            exact ⟨le_refl _, by omega, hcur⟩
          · exact ⟨by omega, h2, h3⟩
        · rintro ⟨h1, h2, h3⟩
          by_cases hx : x = it.doc_id_
          · exact Or.inl hx
          · right
            refine ⟨?_, h2, h3⟩
            apply hmin1 x (by omega)
            rw [Common_iff_lists, hD]
            exact h3

/-- The docids taken by an `AndIterator` over well-formed children: with enough fuel the
enumeration returns, in increasing order, exactly the docids below the sentinel that every
child contains. -/
theorem emitted_spec (inv : Nat) (iterators : List DocIterator)
    (hwf : ∀ c ∈ iterators, c.WellFormed inv) (fuel : Nat)
    (hf : seekFuel inv iterators.length + inv + 1 ≤ fuel) :
    ∃ L, emitted inv fuel iterators = some L ∧ L.Pairwise (fun a b => a < b) ∧
      ∀ d, d ∈ L ↔ d < inv ∧ Common iterators d := by
  obtain ⟨it, hnew, hv, hd, _, hle, hmin, hfix⟩ :=
    new_spec inv iterators hwf fuel (by omega)
  have hfixD : (∀ l ∈ iterators.map (fun c => c.docs), it.doc_id_ ∈ l) ∨ it.doc_id_ = inv := by
    rcases hfix with h | h
    · left; rw [← Common_iff_lists]; exact h
    · exact Or.inr h
  obtain ⟨L, hL, hsorted, hmem⟩ :=
    emitLoop_spec inv fuel (iterators.map (fun c => c.docs)) fuel it hv hd
      (by rw [List.length_map]; omega) hle hfixD (by omega)
  refine ⟨L, ?_, hsorted, ?_⟩
  · simp only [emitted, hnew, hL]
  · intro d
    rw [hmem d, ← Common_iff_lists]
    constructor
    · rintro ⟨_, h2, h3⟩; exact ⟨h2, h3⟩
    · rintro ⟨h2, h3⟩; exact ⟨hmin d h3, h2, h3⟩


/-- The running minimum of `GetDF`: it is below its start value and below every frequency
folded in, and it is the start value or one of the frequencies. -/
theorem foldl_min_spec (l : List DocIterator) (a : Nat) :
    l.foldl (fun min_df c => min min_df c.GetDF) a ≤ a ∧
      (∀ c ∈ l, l.foldl (fun min_df c => min min_df c.GetDF) a ≤ c.GetDF) ∧
      (l.foldl (fun min_df c => min min_df c.GetDF) a = a ∨
        ∃ c ∈ l, l.foldl (fun min_df c => min min_df c.GetDF) a = c.GetDF) := by
  induction l generalizing a with
  | nil => simp
  | cons b l ih =>
    rw [List.foldl_cons]
    obtain ⟨h1, h2, h3⟩ := ih (min a b.GetDF)
    refine ⟨by omega, ?_, ?_⟩
    · intro c hc
      rcases List.mem_cons.mp hc with h | h
      · subst h; omega
      · exact h2 c h
    · rcases h3 with h | ⟨c, hc, h⟩
      · rcases Nat.le_total a b.GetDF with hab | hab
        · left; rw [h]; exact Nat.min_eq_left hab
        · right; exact ⟨b, List.mem_cons_self _ _, by rw [h]; exact Nat.min_eq_right hab⟩
      · right; exact ⟨c, List.mem_cons_of_mem _ hc, h⟩

/-- For a non-empty vector of children with `u32` frequencies, `GetDF()` is the least of the
children's frequencies. -/
theorem GetDF_isLeast (it : AndIterator) (hty : ∀ c ∈ it.children_, c.GetDF ≤ U32_MAX)
    (hne : it.children_ ≠ []) :
    IsLeast {x | ∃ c ∈ it.children_, c.GetDF = x} it.GetDF := by
  obtain ⟨h1, h2, h3⟩ := foldl_min_spec it.children_ U32_MAX
  constructor
  · rcases h3 with h | ⟨c, hc, h⟩
    · obtain ⟨c0, hc0⟩ := List.exists_mem_of_ne_nil _ hne
      refine ⟨c0, hc0, ?_⟩
      have := h2 c0 hc0
      have := hty c0 hc0
      unfold AndIterator.GetDF
      omega
    · exact ⟨c, hc, h.symm⟩
  · rintro x ⟨c, hc, rfl⟩
    exact h2 c hc

/-- `GetDF()` depends on the frequencies of the children only. -/
theorem GetDF_congr (it it1 : AndIterator)
    (h : it1.children_.map (fun c => c.df) = it.children_.map (fun c => c.df)) :
    it1.GetDF = it.GetDF := by
  have key : ∀ (l : List DocIterator) (a : Nat),
      l.foldl (fun min_df c => min min_df c.GetDF) a =
        (l.map (fun c => c.df)).foldl (fun min_df x => min min_df x) a := by
    intro l
    induction l with
    | nil => intro a; rfl
    | cons b l ih => intro a; simp only [List.foldl_cons, List.map_cons, ih]; rfl
  unfold AndIterator.GetDF
  rw [key, key, h]


/-! ### Claims on `AndIterator` -/

/-- Claim C1. For every list of children that are strictly increasing docid lists below
`INVALID_ROWID`, the enumeration `DoSeek(0)`, `DoSeek(doc_id_ + 1)`, ... returns for every
large enough fuel, and the docids it takes are in strictly increasing order and are exactly the
docids below the sentinel that every child contains; for a non-empty list of children these
are exactly the members of the intersection of the children's docid sets. -/
theorem AndIterator_emits_intersection (inv : Nat) (iterators : List DocIterator)
    (hwf : ∀ c ∈ iterators, c.WellFormed inv) :
    ∃ N, ∀ fuel, N ≤ fuel → ∃ L, emitted inv fuel iterators = some L ∧
      L.Pairwise (fun a b => a < b) ∧
      (∀ d, d ∈ L ↔ d < inv ∧ Common iterators d) ∧
      (iterators ≠ [] → ∀ d, d ∈ L ↔ Common iterators d) := by
  refine ⟨seekFuel inv iterators.length + inv + 1, fun fuel hf => ?_⟩
  obtain ⟨L, hL, hsorted, hmem⟩ := emitted_spec inv iterators hwf fuel hf
  refine ⟨L, hL, hsorted, hmem, ?_⟩
  intro hne d
  rw [hmem d]
  constructor
  · exact fun h => h.2
  · intro h
    obtain ⟨c, hc⟩ := List.exists_mem_of_ne_nil _ hne
    exact ⟨(hwf c hc).2 d (h c hc), h⟩

/-- The example of claim C1: the children `{0,1,2}` and `{0,3}` are well formed, the
enumeration over them takes the docid `0` only, and the general statement applies to them. -/
theorem AndIterator_emits_intersection_witness :
    (∀ c ∈ [fstIt, automatonIt], c.WellFormed 4294967295) ∧
      emitted 4294967295 16 [fstIt, automatonIt] = some [0] ∧
      ∃ N, ∀ fuel, N ≤ fuel → ∃ L, emitted 4294967295 fuel [fstIt, automatonIt] = some L ∧
        L.Pairwise (fun a b => a < b) ∧
        (∀ d, d ∈ L ↔ d < 4294967295 ∧ Common [fstIt, automatonIt] d) ∧
        ([fstIt, automatonIt] ≠ [] → ∀ d, d ∈ L ↔ Common [fstIt, automatonIt] d) :=
  ⟨by decide, by decide,
    AndIterator_emits_intersection 4294967295 [fstIt, automatonIt] (by decide)⟩

/-- Claim C2. On a valid iterator with at least one child and for every target `t` that is a
`docid_t` value, `DoSeek(t)` returns for every large enough fuel, and the `doc_id_` it sets is
the least docid from `t` on that every child contains, or `INVALID_ROWID` when no docid from
`t` on is contained in every child. -/
theorem DoSeek_least_common (inv : Nat) (it : AndIterator) (t : Nat)
    (hne : it.children_ ≠ []) (hv : it.Valid inv) (ht : t ≤ inv) :
    ∃ N, ∀ fuel, N ≤ fuel → ∃ it1, it.DoSeek inv fuel t = some it1 ∧
      (IsLeast {m | t ≤ m ∧ Common it.children_ m} it1.doc_id_ ∨
        (it1.doc_id_ = inv ∧ ∀ m, t ≤ m → ¬ Common it.children_ m)) := by
  refine ⟨seekFuel inv it.children_.length, fun fuel hf => ?_⟩
  obtain ⟨it1, hrun, _, _, _, hge, _, hmin, hfix, _⟩ := DoSeek_spec inv it t hv ht fuel hf
  refine ⟨it1, hrun, ?_⟩
  rcases hfix with h | h
  · exact Or.inl ⟨⟨hge, h⟩, fun m hm => hmin m hm.1 hm.2⟩
  · right
    refine ⟨h, fun m htm hm => ?_⟩
    obtain ⟨c, hc⟩ := List.exists_mem_of_ne_nil _ hne
    have h1 := (hv.1 c hc).2 m (hm c hc)
    have h2 := hmin m htm hm
    omega

/-- Claim C2 at the iterator over `{0,1,2}` and `{0,3}` with target `1`: the hypotheses hold,
the seek ends on `INVALID_ROWID`, and the general statement applies. -/
theorem DoSeek_least_common_witness :
    fstAndAutomaton.children_ ≠ [] ∧ fstAndAutomaton.Valid 4294967295 ∧
      (fstAndAutomaton.DoSeek 4294967295 16 1).map (fun it => it.doc_id_) = some 4294967295 ∧
      ∃ N, ∀ fuel, N ≤ fuel → ∃ it1, fstAndAutomaton.DoSeek 4294967295 fuel 1 = some it1 ∧
        (IsLeast {m | 1 ≤ m ∧ Common fstAndAutomaton.children_ m} it1.doc_id_ ∨
          (it1.doc_id_ = 4294967295 ∧ ∀ m, 1 ≤ m → ¬ Common fstAndAutomaton.children_ m)) :=
  ⟨by decide, by decide, by decide,
    DoSeek_least_common 4294967295 fstAndAutomaton 1 (by decide) (by decide) (by decide)⟩

/-- Claim C3. For every vector of children whose frequencies are `u32` values, `GetDF()`
returns `2^32 - 1` when there are no children and otherwise the least of the children's
`GetDF()` values. -/
theorem GetDF_min_of_children (it : AndIterator)
    (hty : ∀ c ∈ it.children_, c.GetDF ≤ U32_MAX) :
    (it.children_ = [] → it.GetDF = 2 ^ 32 - 1) ∧
      (it.children_ ≠ [] → IsLeast {x | ∃ c ∈ it.children_, c.GetDF = x} it.GetDF) := by
  refine ⟨fun h => ?_, GetDF_isLeast it hty⟩
  unfold AndIterator.GetDF
  rw [h]
  rfl

/-- Claim C3 at the iterator over `fst` (frequency 3) and `automaton` (frequency 2): the
frequencies are `u32` values, `GetDF()` is 2, and the general statement applies. -/
theorem GetDF_min_of_children_witness :
    (∀ c ∈ fstAndAutomaton.children_, c.GetDF ≤ U32_MAX) ∧ fstAndAutomaton.GetDF = 2 ∧
      ((fstAndAutomaton.children_ = [] → fstAndAutomaton.GetDF = 2 ^ 32 - 1) ∧
        (fstAndAutomaton.children_ ≠ [] →
          IsLeast {x | ∃ c ∈ fstAndAutomaton.children_, c.GetDF = x} fstAndAutomaton.GetDF)) :=
  ⟨by decide, by decide, GetDF_min_of_children fstAndAutomaton (by decide)⟩


/-- Claim C4. For every non-empty list of well-formed children whose `GetDF()` is a `u32` value
equal to the number of docids the child contains, the constructor and the enumeration return
for every large enough fuel, the docids taken are pairwise distinct, and their number is at
most `GetDF()` of the iterator. -/
theorem GetDF_bounds_emitted (inv : Nat) (iterators : List DocIterator)
    (hne : iterators ≠ []) (hwf : ∀ c ∈ iterators, c.WellFormed inv)
    (hdf : ∀ c ∈ iterators, c.GetDF = c.docs.length)
    (hty : ∀ c ∈ iterators, c.GetDF ≤ U32_MAX) :
    ∃ N, ∀ fuel, N ≤ fuel → ∃ it L, AndIterator.new inv fuel iterators = some it ∧
      emitted inv fuel iterators = some L ∧ L.Nodup ∧ L.length ≤ it.GetDF := by
  refine ⟨seekFuel inv iterators.length + inv + 1, fun fuel hf => ?_⟩
  obtain ⟨it, hnew, _, _, hF, _, _, _⟩ := new_spec inv iterators hwf fuel (by omega)
  obtain ⟨L, hL, hsorted, hmem⟩ := emitted_spec inv iterators hwf fuel hf
  have hnd : L.Nodup := hsorted.imp (fun h => Nat.ne_of_lt h)
  refine ⟨it, L, hnew, hL, hnd, ?_⟩
  have hG : it.GetDF = AndIterator.GetDF ⟨iterators, [], 0⟩ := GetDF_congr ⟨iterators, [], 0⟩ it hF
  obtain ⟨⟨c, hc, hcx⟩, _⟩ := GetDF_isLeast ⟨iterators, [], 0⟩ hty hne
  rw [hG, ← hcx, hdf c hc]
  apply (hnd.subperm ?_).length_le
  intro d hd
  exact ((hmem d).mp hd).2 c hc

/-- Claim C4 at the children `{0,1,2}` and `{0,3}`: the hypotheses hold, one docid is taken
while `GetDF()` is 2, and the general statement applies. -/
theorem GetDF_bounds_emitted_witness :
    [fstIt, automatonIt] ≠ [] ∧ (∀ c ∈ [fstIt, automatonIt], c.WellFormed 4294967295) ∧
      (∀ c ∈ [fstIt, automatonIt], c.GetDF = c.docs.length) ∧
      (∀ c ∈ [fstIt, automatonIt], c.GetDF ≤ U32_MAX) ∧
      (AndIterator.new 4294967295 16 [fstIt, automatonIt]).map AndIterator.GetDF = some 2 ∧
      ∃ N, ∀ fuel, N ≤ fuel → ∃ it L,
        AndIterator.new 4294967295 fuel [fstIt, automatonIt] = some it ∧
        emitted 4294967295 fuel [fstIt, automatonIt] = some L ∧ L.Nodup ∧
        L.length ≤ it.GetDF :=
  ⟨by decide, by decide, by decide, by decide, by decide,
    GetDF_bounds_emitted 4294967295 [fstIt, automatonIt] (by decide) (by decide) (by decide)
      (by decide)⟩

/-- Claim C5. Whenever the constructor returns, `sorted_iterators_` holds exactly one pointer
to each child, so the children in seek order are a permutation of `children_` and there are
as many of them, and they are in non-decreasing order of `GetDF()`; the children are the
given ones up to their positions. On well-formed children the constructor returns for every
large enough fuel. -/
theorem constructor_sorts_by_df (inv : Nat) (iterators : List DocIterator) :
    (∀ fuel it, AndIterator.new inv fuel iterators = some it →
      it.children_.map (fun c => (c.docs, c.df)) = iterators.map (fun c => (c.docs, c.df)) ∧
      it.sorted_iterators_.Perm (List.range it.children_.length) ∧
      it.sortedChildren.Perm it.children_ ∧
      it.sortedChildren.length = it.children_.length ∧
      it.sortedChildren.Pairwise (fun a b => a.GetDF ≤ b.GetDF)) ∧
    ((∀ c ∈ iterators, c.WellFormed inv) →
      ∃ N, ∀ fuel, N ≤ fuel → ∃ it, AndIterator.new inv fuel iterators = some it) := by
  constructor
  · intro fuel it hnew
    unfold AndIterator.new AndIterator.DoSeek at hnew
    simp only at hnew
    split at hnew
    · simp at hnew
    · rename_i children d hrun
      simp only [Option.some.injEq] at hnew
      subst hnew
      obtain ⟨hD, hF⟩ := DoSeekLoop_static inv _ fuel iterators 0 0 (children, d) hrun
      have hlen : children.length = iterators.length := by
        rw [← List.length_map children (fun c => c.docs), hD, List.length_map]
      have hperm : (stdSort
          (fun lhs rhs => decide (GetDFAt iterators lhs < GetDFAt iterators rhs))
          (List.range iterators.length)).Perm (List.range children.length) := by
        rw [hlen]; exact stdSort_perm _ _
      have hsc : (AndIterator.sortedChildren ⟨children, stdSort
          (fun lhs rhs => decide (GetDFAt iterators lhs < GetDFAt iterators rhs))
          (List.range iterators.length), d⟩).Perm children := by
        unfold AndIterator.sortedChildren
        have := hperm.filterMap (fun p => children[p]?)
        rwa [filterMap_getElem?_range] at this
      refine ⟨?_, hperm, hsc, hsc.length_eq, ?_⟩
      · have h1 : ∀ l : List DocIterator, l.map (fun c => (c.docs, c.df)) =
            List.zip (l.map (fun c => c.docs)) (l.map (fun c => c.df)) := by
          intro l
          induction l with
          | nil => rfl
          | cons a l ih => simp [ih]
        simp only at hD hF
        rw [h1, h1, hD, hF]
      · unfold AndIterator.sortedChildren
        apply List.Pairwise.filterMap (fun p => children[p]?) ?_
          (stdSort_sorted (GetDFAt iterators) (List.range iterators.length))
        intro p q hpq a ha b hb
        simp only [Option.mem_def] at ha hb
        have hp : GetDFAt iterators p = a.GetDF := by
          rw [GetDFAt_eq, ← hF, ← GetDFAt_eq]; unfold GetDFAt; simp only [ha]
        have hq : GetDFAt iterators q = b.GetDF := by
          rw [GetDFAt_eq, ← hF, ← GetDFAt_eq]; unfold GetDFAt; simp only [hb]
        omega
  · intro hwf
    refine ⟨seekFuel inv iterators.length, fun fuel hf => ?_⟩
    obtain ⟨it, hnew, _⟩ := new_spec inv iterators hwf fuel hf
    exact ⟨it, hnew⟩

/-- Claim C5 at the children `fst` (frequency 3) and `automaton` (frequency 2): they are well
formed, the constructor returns with the pointer to `automaton` first, and both parts of the
general statement apply. -/
theorem constructor_sorts_by_df_witness :
    (∀ c ∈ [fstIt, automatonIt], c.WellFormed 4294967295) ∧
      AndIterator.new 4294967295 16 [fstIt, automatonIt] = some fstAndAutomaton ∧
      fstAndAutomaton.sorted_iterators_ = [1, 0] ∧
      fstAndAutomaton.sortedChildren.Perm fstAndAutomaton.children_ ∧
      fstAndAutomaton.sortedChildren.length = fstAndAutomaton.children_.length ∧
      fstAndAutomaton.sortedChildren.Pairwise (fun a b => a.GetDF ≤ b.GetDF) ∧
      ∃ N, ∀ fuel, N ≤ fuel →
        ∃ it, AndIterator.new 4294967295 fuel [fstIt, automatonIt] = some it :=
  ⟨by decide, by decide, by decide,
    ((constructor_sorts_by_df 4294967295 [fstIt, automatonIt]).1 16 fstAndAutomaton
      (by decide)).2.2.1,
    ((constructor_sorts_by_df 4294967295 [fstIt, automatonIt]).1 16 fstAndAutomaton
      (by decide)).2.2.2.1,
    ((constructor_sorts_by_df 4294967295 [fstIt, automatonIt]).1 16 fstAndAutomaton
      (by decide)).2.2.2.2,
    (constructor_sorts_by_df 4294967295 [fstIt, automatonIt]).2 (by decide)⟩

/-- What the constructor leaves whenever it returns: the frequencies of the given children,
the pointers as `std::sort` ordered them, one pointer to each child, and the children in seek
order in non-decreasing order of `GetDF()`. -/
theorem new_sorted (inv fuel : Nat) (iterators : List DocIterator) (it : AndIterator)
    (hnew : AndIterator.new inv fuel iterators = some it) :
    it.children_.map (fun c => c.df) = iterators.map (fun c => c.df) ∧
      it.children_.length = iterators.length ∧
      it.sorted_iterators_ = stdSort
        (fun lhs rhs => decide (GetDFAt iterators lhs < GetDFAt iterators rhs))
        (List.range iterators.length) ∧
      it.sorted_iterators_.Perm (List.range it.children_.length) ∧
      it.sortedChildren.Pairwise (fun a b => a.GetDF ≤ b.GetDF) := by
  unfold AndIterator.new AndIterator.DoSeek at hnew
  simp only at hnew
  split at hnew
  · simp at hnew
  · rename_i children d hrun
    simp only [Option.some.injEq] at hnew
    subst hnew
    obtain ⟨hD, hF⟩ := DoSeekLoop_static inv _ fuel iterators 0 0 (children, d) hrun
    have hlen : children.length = iterators.length := by
      rw [← List.length_map children (fun c => c.docs), hD, List.length_map]
    refine ⟨hF, hlen, rfl, ?_, ?_⟩
    · simp only [hlen]
      exact stdSort_perm _ _
    · unfold AndIterator.sortedChildren
      apply List.Pairwise.filterMap (fun p => children[p]?) ?_
        (stdSort_sorted (GetDFAt iterators) (List.range iterators.length))
      intro p q hpq a ha b hb
      simp only [Option.mem_def] at ha hb
      have hp : GetDFAt iterators p = a.GetDF := by
        rw [GetDFAt_eq, ← hF, ← GetDFAt_eq]; unfold GetDFAt; simp only [ha]
      have hq : GetDFAt iterators q = b.GetDF := by
        rw [GetDFAt_eq, ← hF, ← GetDFAt_eq]; unfold GetDFAt; simp only [hb]
      omega

/-- On an iterator with at least one child, one pointer to each child and the children in
seek order in non-decreasing order of `GetDF()`, the first pointer points to a child whose
`GetDF()` is the `GetDF()` of the iterator. -/
theorem GetDF_first_of_sorted (it : AndIterator) (hne : it.children_ ≠ [])
    (hty : ∀ c ∈ it.children_, c.GetDF ≤ U32_MAX)
    (hperm : it.sorted_iterators_.Perm (List.range it.children_.length))
    (hsorted : it.sortedChildren.Pairwise (fun a b => a.GetDF ≤ b.GetDF)) :
    ∃ p c, it.sorted_iterators_.head? = some p ∧ it.children_[p]? = some c ∧
      it.sortedChildren.head? = some c ∧ it.GetDF = c.GetDF := by
  have hpos : 0 < it.children_.length := List.length_pos.mpr hne
  have hsc : it.sortedChildren.Perm it.children_ := by
    unfold AndIterator.sortedChildren
    have := hperm.filterMap (fun p => it.children_[p]?)
    rwa [filterMap_getElem?_range] at this
  cases hs : it.sorted_iterators_ with
  | nil =>
    rw [hs] at hperm
    have := hperm.length_eq
    simp only [List.length_nil, List.length_range] at this
    omega
  | cons p ps =>
    have hp : p < it.children_.length := by
      have : p ∈ it.sorted_iterators_ := by rw [hs]; exact List.mem_cons_self _ _
      exact List.mem_range.mp (hperm.mem_iff.mp this)
    have hc : it.children_[p]? = some it.children_[p] := List.getElem?_eq_getElem hp
    generalize it.children_[p] = c at hc
    have hhead : it.sortedChildren =
        c :: ps.filterMap (fun p => it.children_[p]?) := by
      unfold AndIterator.sortedChildren
      rw [hs, List.filterMap_cons, hc]
    refine ⟨p, c, rfl, hc, by rw [hhead]; rfl, ?_⟩
    obtain ⟨⟨c1, hc1, hc1x⟩, hlow⟩ := GetDF_isLeast it hty hne
    have hcmem : c ∈ it.children_ := List.getElem?_mem hc
    have h1 : it.GetDF ≤ c.GetDF := hlow ⟨c, hcmem, rfl⟩
    have h2 : c.GetDF ≤ c1.GetDF := by
      have hc1s : c1 ∈ it.sortedChildren := hsc.mem_iff.mpr hc1
      rw [hhead] at hc1s hsorted
      rcases List.mem_cons.mp hc1s with h | h
      · rw [h]
      · exact (List.pairwise_cons.mp hsorted).1 c1 h
    omega

/-- Claim C29. For every non-empty list of children whose frequencies are `u32` values,
whenever the constructor returns: the first pointer in `sorted_iterators_` points to a child,
the one that `DoSeek` seeks first, and `GetDF()` of the iterator, the minimum over the unsorted
`children_`, equals `GetDF()` of that child. On well-formed children the constructor returns
for every large enough fuel. -/
theorem GetDF_eq_first_sorted (inv : Nat) (iterators : List DocIterator)
    (hne : iterators ≠ []) (hty : ∀ c ∈ iterators, c.GetDF ≤ U32_MAX) :
    (∀ fuel it, AndIterator.new inv fuel iterators = some it →
      ∃ p c, it.sorted_iterators_.head? = some p ∧ it.children_[p]? = some c ∧
        it.sortedChildren.head? = some c ∧ it.GetDF = c.GetDF) ∧
    ((∀ c ∈ iterators, c.WellFormed inv) →
      ∃ N, ∀ fuel, N ≤ fuel → ∃ it, AndIterator.new inv fuel iterators = some it) := by
  constructor
  · intro fuel it hnew
    obtain ⟨hF, hlen, _, hperm, hsorted⟩ := new_sorted inv fuel iterators it hnew
    have hne1 : it.children_ ≠ [] := by
      intro h
      rw [h] at hlen
      exact hne (List.length_eq_zero.mp hlen.symm)
    have hty1 : ∀ c ∈ it.children_, c.GetDF ≤ U32_MAX := by
      intro c hc
      have hm : c.df ∈ it.children_.map (fun c => c.df) := List.mem_map_of_mem _ hc
      rw [hF, List.mem_map] at hm
      obtain ⟨c0, hc0, h0⟩ := hm
      have := hty c0 hc0
      unfold DocIterator.GetDF at this ⊢
      omega
    exact GetDF_first_of_sorted it hne1 hty1 hperm hsorted
  · intro hwf
    refine ⟨seekFuel inv iterators.length, fun fuel hf => ?_⟩
    obtain ⟨it, hnew, _⟩ := new_spec inv iterators hwf fuel hf
    exact ⟨it, hnew⟩

/-- Claim C29 at the children `fst` (frequency 3) and `automaton` (frequency 2): the
constructor returns `fstAndAutomaton`, whose first pointer is 1, the pointer to `automaton`,
its `GetDF()` is 2, and the general statement applies. -/
theorem GetDF_eq_first_sorted_witness :
    [fstIt, automatonIt] ≠ [] ∧ (∀ c ∈ [fstIt, automatonIt], c.GetDF ≤ U32_MAX) ∧
      AndIterator.new 4294967295 16 [fstIt, automatonIt] = some fstAndAutomaton ∧
      fstAndAutomaton.sorted_iterators_.head? = some 1 ∧
      fstAndAutomaton.GetDF = 2 ∧
      ∃ p c, fstAndAutomaton.sorted_iterators_.head? = some p ∧
        fstAndAutomaton.children_[p]? = some c ∧
        fstAndAutomaton.sortedChildren.head? = some c ∧ fstAndAutomaton.GetDF = c.GetDF :=
  ⟨by decide, by decide, by decide, by decide, by decide,
    (GetDF_eq_first_sorted 4294967295 [fstIt, automatonIt] (by decide) (by decide)).1 16
      fstAndAutomaton (by decide)⟩


/-- Two docids that both pass for the result of a seek to `t` are equal: each is between `t`
and the sentinel, at most every common docid from `t` on, and itself common or the
sentinel. -/
theorem seek_result_unique (inv t r1 r2 : Nat) (children : List DocIterator)
    (ht1 : t ≤ r1) (hi1 : r1 ≤ inv) (hmin1 : ∀ m, t ≤ m → Common children m → r1 ≤ m)
    (hfix1 : Common children r1 ∨ r1 = inv)
    (ht2 : t ≤ r2) (hi2 : r2 ≤ inv) (hmin2 : ∀ m, t ≤ m → Common children m → r2 ≤ m)
    (hfix2 : Common children r2 ∨ r2 = inv) : r1 = r2 := by
  have h12 : r1 ≤ r2 := by
    rcases hfix2 with h | h
    · exact hmin1 r2 ht2 h
    · omega
  have h21 : r2 ≤ r1 := by
    rcases hfix1 with h | h
    · exact hmin2 r1 ht1 h
    · omega
  omega

/-- Claim C28. For every list of children that are strictly increasing docid lists below
`INVALID_ROWID`, every target that is a `docid_t` value and every two orders of the pointers in
`sorted_iterators_`, each holding one pointer to each child: `DoSeek` returns for every large
enough fuel under both orders and sets the same `doc_id_`. In particular the docid on which the
constructor leaves the iterator is the one that `DoSeek(0)` sets under any other order of the
pointers, whatever order `std::sort` gives to children with equal `GetDF()`. -/
theorem DoSeek_order_independent (inv : Nat) (children : List DocIterator)
    (sorted1 sorted2 : List Nat) (d1 d2 t : Nat)
    (hwf : ∀ c ∈ children, c.WellFormed inv)
    (hp1 : sorted1.Perm (List.range children.length)) (hp2 : sorted2.Perm sorted1)
    (ht : t ≤ inv) :
    (∃ N, ∀ fuel, N ≤ fuel → ∃ it1 it2,
      AndIterator.DoSeek inv fuel
          { children_ := children, sorted_iterators_ := sorted1, doc_id_ := d1 } t = some it1 ∧
        AndIterator.DoSeek inv fuel
          { children_ := children, sorted_iterators_ := sorted2, doc_id_ := d2 } t = some it2 ∧
        it1.doc_id_ = it2.doc_id_) ∧
    (∃ N, ∀ fuel, N ≤ fuel → ∃ it it2,
      AndIterator.new inv fuel children = some it ∧
        AndIterator.DoSeek inv fuel
          { children_ := children, sorted_iterators_ := sorted2, doc_id_ := d2 } 0 = some it2 ∧
        it.doc_id_ = it2.doc_id_) := by
  have hv1 : AndIterator.Valid inv
      { children_ := children, sorted_iterators_ := sorted1, doc_id_ := d1 } := ⟨hwf, hp1⟩
  have hv2 : AndIterator.Valid inv
      { children_ := children, sorted_iterators_ := sorted2, doc_id_ := d2 } :=
    ⟨hwf, hp2.trans hp1⟩
  constructor
  · refine ⟨seekFuel inv children.length, fun fuel hf => ?_⟩
    obtain ⟨it1, hrun1, _, _, _, hge1, hle1, hmin1, hfix1, _⟩ :=
      DoSeek_spec inv _ t hv1 ht fuel hf
    obtain ⟨it2, hrun2, _, _, _, hge2, hle2, hmin2, hfix2, _⟩ :=
      DoSeek_spec inv _ t hv2 ht fuel hf
    exact ⟨it1, it2, hrun1, hrun2,
      seek_result_unique inv t _ _ children hge1 hle1 hmin1 hfix1 hge2 hle2 hmin2 hfix2⟩
  · refine ⟨seekFuel inv children.length, fun fuel hf => ?_⟩
    obtain ⟨it, hnew, _, _, _, hle1, hmin1, hfix1⟩ := new_spec inv children hwf fuel hf
    obtain ⟨it2, hrun2, _, _, _, hge2, hle2, hmin2, hfix2, _⟩ :=
      DoSeek_spec inv _ 0 hv2 (Nat.zero_le inv) fuel hf
    exact ⟨it, it2, hnew, hrun2,
      seek_result_unique inv 0 _ _ children (Nat.zero_le _) hle1 (fun m _ hm => hmin1 m hm)
        hfix1 hge2 hle2 hmin2 hfix2⟩

/-- Claim C28 at the children `fst`, `automaton` and `transducer`, the last two with equal
`GetDF()`, and the target 1: the hypotheses hold, the seek ends on `INVALID_ROWID` under the
orders `[1, 2, 0]` and `[2, 1, 0]` of the pointers, and the general statement applies. -/
theorem DoSeek_order_independent_witness :
    (∀ c ∈ [fstIt, automatonIt, transducerIt], c.WellFormed 4294967295) ∧
      automatonIt.GetDF = transducerIt.GetDF ∧
      (AndIterator.DoSeek 4294967295 16
        { children_ := [fstIt, automatonIt, transducerIt], sorted_iterators_ := [1, 2, 0],
          doc_id_ := 0 } 1).map (fun it => it.doc_id_) = some 4294967295 ∧
      (AndIterator.DoSeek 4294967295 16
        { children_ := [fstIt, automatonIt, transducerIt], sorted_iterators_ := [2, 1, 0],
          doc_id_ := 0 } 1).map (fun it => it.doc_id_) = some 4294967295 ∧
      ∃ N, ∀ fuel, N ≤ fuel → ∃ it1 it2,
        AndIterator.DoSeek 4294967295 fuel
            { children_ := [fstIt, automatonIt, transducerIt], sorted_iterators_ := [1, 2, 0],
              doc_id_ := 0 } 1 = some it1 ∧
          AndIterator.DoSeek 4294967295 fuel
            { children_ := [fstIt, automatonIt, transducerIt], sorted_iterators_ := [2, 1, 0],
              doc_id_ := 0 } 1 = some it2 ∧
          it1.doc_id_ = it2.doc_id_ :=
  ⟨by decide, by decide, by decide, by decide,
    (DoSeek_order_independent 4294967295 [fstIt, automatonIt, transducerIt] [1, 2, 0]
      [2, 1, 0] 0 0 1 (by decide) (by decide) (by decide) (by decide)).1⟩


/-- The loop of `DoSeek` over posting lists is the loop over children of any class, taken at
the methods of the children that scan a posting list. -/
theorem DoSeekLoop_eq_virtual (inv : Nat) (sorted : List Nat) :
    ∀ (fuel : Nat) (children : List DocIterator) (ib doc_id : Nat) (candidates : List Nat),
      DoSeekLoop inv sorted fuel children ib doc_id =
        (DoSeekLoopVirtual (DocIterator.Seek inv) DocIterator.Doc sorted fuel children ib doc_id
          candidates).map (fun res => (res.1, res.2.1)) := by
  intro fuel
  induction fuel with
  | zero => intro _ _ _ _; rfl
  | succ fuel ih =>
    intro children ib doc_id candidates
    rw [DoSeekLoop, DoSeekLoopVirtual]
    cases sorted[ib]? with
    | none => rfl
    | some p =>
      simp only
      cases children[p]? with
      | none => rfl
      | some c =>
        simp only
        split
        · exact ih _ _ _ _
        · exact ih _ _ _ _

/-- The invariant of the loop of `DoSeek` that makes the children agree, for children of any
class: the children behind the pointers before `ib` are positioned on the candidate. When the
loop returns, it has kept the number of children and every pointed-to child is positioned on
the docid it returns. -/
theorem DoSeekLoopVirtual_agree {σ : Type} (Seek : σ → Nat → σ) (Doc : σ → Nat)
    (sorted : List Nat) :
    ∀ (fuel : Nat) (children : List σ) (ib doc_id : Nat) (candidates : List Nat)
      (res : List σ × Nat × List Nat),
      (∀ k, k < ib → ∀ p, sorted[k]? = some p → ∃ c, children[p]? = some c ∧ Doc c = doc_id) →
      DoSeekLoopVirtual Seek Doc sorted fuel children ib doc_id candidates = some res →
      res.1.length = children.length ∧
        ∀ p ∈ sorted, ∃ c, res.1[p]? = some c ∧ Doc c = res.2.1 := by
  intro fuel
  induction fuel with
  | zero => intro _ _ _ _ _ _ h; simp [DoSeekLoopVirtual] at h
  | succ fuel ih =>
    intro children ib doc_id candidates res hag h
    rw [DoSeekLoopVirtual] at h
    cases hsib : sorted[ib]? with
    | none =>
      rw [hsib] at h
      simp only [Option.some.injEq] at h
      subst h
      refine ⟨rfl, fun p hpm => ?_⟩
      obtain ⟨k, hkp⟩ := List.getElem?_of_mem hpm
      have hk : k < sorted.length := (List.getElem?_eq_some_iff.mp hkp).1
      have hge : sorted.length ≤ ib := by
        by_contra hlt
        rw [List.getElem?_eq_getElem (by omega)] at hsib
        simp at hsib
      exact hag k (by omega) p hkp
    | some p =>
      simp only [hsib] at h
      cases hc : children[p]? with
      | none => simp [hc] at h
      | some c =>
        simp only [hc] at h
        have hpc : p < children.length := (List.getElem?_eq_some_iff.mp hc).1
        have hget : (children.set p (Seek c doc_id))[p]? = some (Seek c doc_id) := by
          rw [List.getElem?_set]; simp; omega
        have hlen : (children.set p (Seek c doc_id)).length = children.length :=
          List.length_set _ _ _
        by_cases hne : Doc (Seek c doc_id) = doc_id
        · rw [if_neg (by simpa using hne)] at h
          have := ih _ (ib + 1) doc_id candidates res ?_ h
          · exact ⟨this.1.trans hlen, this.2⟩
          · intro k hk q hq
            by_cases hkib : k = ib
            · subst hkib
              rw [hsib] at hq
              cases hq
              exact ⟨Seek c doc_id, hget, hne⟩
            · obtain ⟨c2, hc2, hd2⟩ := hag k (by omega) q hq
              by_cases hqp : q = p
              · subst hqp
                exact ⟨Seek c doc_id, hget, hne⟩
              · refine ⟨c2, ?_, hd2⟩
                rw [List.getElem?_set]; simp [Ne.symm hqp, hc2]
        · rw [if_pos (by simpa using hne)] at h
          have := ih _ 0 _ _ res (fun k hk => by omega) h
          exact ⟨this.1.trans hlen, this.2⟩

/-- Claim C21. For children of any class derived from `DocIterator`, every list of children,
every list of pointers that holds a pointer to each child, and every target: whenever the
loop of `DoSeek` returns, `Doc()` of every child equals the docid that the loop returns, the
new `doc_id_`. In the embedding a seek on one child leaves the other children as they are, and
nothing is asked of `Seek`. In particular, whenever `AndIterator::DoSeek` returns on an
iterator over posting lists with one pointer to each child, every child is positioned on
`doc_id_`. -/
theorem DoSeek_children_agree {σ : Type} (Seek : σ → Nat → σ) (Doc : σ → Nat)
    (sorted : List Nat) (children : List σ)
    (hcover : ∀ p, p < children.length → p ∈ sorted) :
    (∀ (fuel doc_id : Nat) (candidates : List Nat) (res : List σ × Nat × List Nat),
      DoSeekLoopVirtual Seek Doc sorted fuel children 0 doc_id candidates = some res →
      ∀ c ∈ res.1, Doc c = res.2.1) ∧
    (∀ (inv fuel t : Nat) (it it1 : AndIterator),
      it.sorted_iterators_.Perm (List.range it.children_.length) →
      it.DoSeek inv fuel t = some it1 → ∀ c ∈ it1.children_, c.Doc = it1.doc_id_) := by
  have key : ∀ {τ : Type} (Seek : τ → Nat → τ) (Doc : τ → Nat) (sorted : List Nat)
      (children : List τ), (∀ p, p < children.length → p ∈ sorted) →
      ∀ (fuel doc_id : Nat) (candidates : List Nat) (res : List τ × Nat × List Nat),
      DoSeekLoopVirtual Seek Doc sorted fuel children 0 doc_id candidates = some res →
      ∀ c ∈ res.1, Doc c = res.2.1 := by
    intro τ Seek Doc sorted children hcover fuel doc_id candidates res hrun c hc
    obtain ⟨hlen, hall⟩ := DoSeekLoopVirtual_agree Seek Doc sorted fuel children 0 doc_id
      candidates res (fun k hk => by omega) hrun
    obtain ⟨p, hpc⟩ := List.getElem?_of_mem hc
    have hp : p < children.length := by
      have := (List.getElem?_eq_some_iff.mp hpc).1
      omega
    obtain ⟨c2, hc2, hd2⟩ := hall p (hcover p hp)
    rw [hpc] at hc2
    cases hc2
    exact hd2
  refine ⟨key Seek Doc sorted children hcover, ?_⟩
  intro inv fuel t it it1 hperm hrun
  unfold AndIterator.DoSeek at hrun
  rw [DoSeekLoop_eq_virtual inv it.sorted_iterators_ fuel it.children_ 0 t [t]] at hrun
  cases hv : DoSeekLoopVirtual (DocIterator.Seek inv) DocIterator.Doc it.sorted_iterators_ fuel
      it.children_ 0 t [t] with
  | none => rw [hv] at hrun; simp at hrun
  | some res =>
    rw [hv] at hrun
    simp only [Option.map_some', Option.some.injEq] at hrun
    subst hrun
    exact key (DocIterator.Seek inv) DocIterator.Doc it.sorted_iterators_ it.children_
      (fun p hp => hperm.mem_iff.mpr (List.mem_range.mpr hp)) fuel t [t] res hv

/-- Claim C21 at the iterator over `{0,1,2}` and `{0,3}` with the target 1: each child has a
pointer, the seek returns with `doc_id_` on `INVALID_ROWID`, and both children are positioned
there. -/
theorem DoSeek_children_agree_witness :
    (∀ p, p < fstAndAutomaton.children_.length → p ∈ fstAndAutomaton.sorted_iterators_) ∧
      fstAndAutomaton.sorted_iterators_.Perm (List.range fstAndAutomaton.children_.length) ∧
      fstAndAutomaton.DoSeek 4294967295 16 1 =
        some { children_ := [{ docs := [0, 1, 2], df := 3, doc_id_ := 4294967295 },
                             { docs := [0, 3], df := 2, doc_id_ := 4294967295 }],
               sorted_iterators_ := [1, 0], doc_id_ := 4294967295 } ∧
      ∀ c ∈ [({ docs := [0, 1, 2], df := 3, doc_id_ := 4294967295 } : DocIterator),
             { docs := [0, 3], df := 2, doc_id_ := 4294967295 }],
        c.Doc = 4294967295 :=
  ⟨by decide, by decide, by decide,
    (DoSeek_children_agree (DocIterator.Seek 4294967295) DocIterator.Doc
      fstAndAutomaton.sorted_iterators_ fstAndAutomaton.children_ (by decide)).2
      4294967295 16 1 fstAndAutomaton
      { children_ := [{ docs := [0, 1, 2], df := 3, doc_id_ := 4294967295 },
                      { docs := [0, 3], df := 2, doc_id_ := 4294967295 }],
        sorted_iterators_ := [1, 0], doc_id_ := 4294967295 } (by decide) (by decide)⟩


/-- The loop of `DoSeek` returns, for children of any class that keep an invariant `ok` under
which a seek to a target up to the sentinel leaves `Doc()` between the target and the
sentinel: with fuel above the measure it returns a docid between the candidate and the
sentinel, and the recorded candidates stay strictly increasing and end on the docid
returned. -/
theorem DoSeekLoopVirtual_returns {σ : Type} (Seek : σ → Nat → σ) (Doc : σ → Nat)
    (sorted : List Nat) (inv : Nat) (ok : σ → Prop)
    (hseek : ∀ c t, ok c → t ≤ inv →
      ok (Seek c t) ∧ t ≤ Doc (Seek c t) ∧ Doc (Seek c t) ≤ inv) :
    ∀ (fuel : Nat) (children : List σ) (ib doc_id : Nat) (candidates : List Nat),
      (∀ c ∈ children, ok c) → (∀ p ∈ sorted, p < children.length) → doc_id ≤ inv →
      candidates.Pairwise (fun a b => a < b) → candidates.getLast? = some doc_id →
      (∀ x ∈ candidates, x ≤ doc_id) →
      (inv - doc_id) * (sorted.length + 1) + (sorted.length - ib) < fuel →
      ∃ children1 r candidates1,
        DoSeekLoopVirtual Seek Doc sorted fuel children ib doc_id candidates =
          some (children1, r, candidates1) ∧
        doc_id ≤ r ∧ r ≤ inv ∧ candidates1.Pairwise (fun a b => a < b) ∧
        candidates1.getLast? = some r ∧ candidates <+: candidates1 := by
  intro fuel
  induction fuel with
  | zero => intro _ _ _ _ _ _ _ _ _ _ hf; omega
  | succ fuel ih =>
    intro children ib doc_id candidates hok hp hi hpw hlast hle hf
    rw [DoSeekLoopVirtual]
    cases hsib : sorted[ib]? with
    | none =>
      exact ⟨children, doc_id, candidates, rfl, le_refl _, hi, hpw, hlast,
        List.prefix_refl _⟩
    | some p =>
      have hib : ib < sorted.length := (List.getElem?_eq_some_iff.mp hsib).1
      have hpc : p < children.length := hp p (List.getElem?_mem hsib)
      have hc : children[p]? = some children[p] := List.getElem?_eq_getElem hpc
      generalize children[p] = c at hc
      obtain ⟨hok1, hge, hbd⟩ := hseek c doc_id (hok c (List.getElem?_mem hc)) hi
      have hokset : ∀ x ∈ children.set p (Seek c doc_id), ok x := by
        intro x hx
        rcases List.mem_or_eq_of_mem_set hx with h | h
        · exact hok x h
        · rw [h]; exact hok1
      have hpset : ∀ q ∈ sorted, q < (children.set p (Seek c doc_id)).length := by
        intro q hq
        rw [List.length_set]
        exact hp q hq
      simp only [hc]
      by_cases hne : Doc (Seek c doc_id) = doc_id
      · rw [if_neg (by simpa using hne)]
        exact ih _ (ib + 1) doc_id candidates hokset hpset hi hpw hlast hle (by omega)
      · rw [if_pos (by simpa using hne)]
        have hgt : doc_id < Doc (Seek c doc_id) := by omega
        generalize Doc (Seek c doc_id) = d1 at hgt hbd
        have hpw1 : (candidates ++ [d1]).Pairwise (fun a b => a < b) := by
          rw [List.pairwise_append]
          refine ⟨hpw, List.pairwise_singleton _ _, ?_⟩
          intro a ha b hb
          rw [List.mem_singleton] at hb
          have := hle a ha
          omega
        have hle1 : ∀ x ∈ candidates ++ [d1], x ≤ d1 := by
          intro x hx
          rcases List.mem_append.mp hx with h | h
          · have := hle x h; omega
          · rw [List.mem_singleton] at h; omega
        have hfuel : (inv - d1) * (sorted.length + 1) + (sorted.length - 0) < fuel := by
          have h1 : inv - doc_id = (inv - d1) + (d1 - doc_id) := by omega
          rw [h1, Nat.add_mul] at hf
          have h2 : sorted.length + 1 ≤ (d1 - doc_id) * (sorted.length + 1) :=
            Nat.le_mul_of_pos_left _ (by omega)
          omega
        obtain ⟨children1, r, candidates1, hrun, hr1, hr2, hr3, hr4, hr5⟩ :=
          ih _ 0 d1 (candidates ++ [d1]) hokset hpset hbd hpw1
            (by rw [List.getLast?_append]; rfl) hle1 hfuel
        exact ⟨children1, r, candidates1, hrun, by omega, hr2, hr3, hr4,
          (List.prefix_append candidates [d1]).trans hr5⟩

/-- A scan of a posting list whose docids are below the sentinel, for a target up to the
sentinel, keeps the list and stops between the target and the sentinel. -/
theorem Seek_between (inv : Nat) (c : DocIterator) (t : Nat)
    (hb : ∀ d ∈ c.docs, d < inv) (ht : t ≤ inv) :
    (∀ d ∈ (c.Seek inv t).docs, d < inv) ∧ t ≤ (c.Seek inv t).Doc ∧
      (c.Seek inv t).Doc ≤ inv :=
  ⟨hb, scan_bounds inv t c.docs hb ht⟩

/-- Claim C22. For children of any class derived from `DocIterator` that keep an invariant
under which a seek to a target up to `INVALID_ROWID` leaves `Doc()` at least the target and at
most `INVALID_ROWID` (so a seek to `INVALID_ROWID` leaves it there), every finite list of such
children, every list of pointers into it and every target that is a `docid_t` value: the loop
of `DoSeek` returns for every large enough fuel, and the values that the candidate takes, the
target first and then one value per restart of the scan, are strictly increasing and end on
the docid returned. In particular `AndIterator::DoSeek` returns on every iterator over posting
lists whose docids are below `INVALID_ROWID`. -/
theorem DoSeek_terminates {σ : Type} (Seek : σ → Nat → σ) (Doc : σ → Nat) (inv : Nat)
    (ok : σ → Prop) (sorted : List Nat) (children : List σ) (t : Nat)
    (hseek : ∀ c t, ok c → t ≤ inv →
      ok (Seek c t) ∧ t ≤ Doc (Seek c t) ∧ Doc (Seek c t) ≤ inv)
    (hok : ∀ c ∈ children, ok c) (hp : ∀ p ∈ sorted, p < children.length) (ht : t ≤ inv) :
    (∃ N, ∀ fuel, N ≤ fuel → ∃ children1 r candidates,
      DoSeekLoopVirtual Seek Doc sorted fuel children 0 t [t] =
          some (children1, r, candidates) ∧
        candidates.Pairwise (fun a b => a < b) ∧ candidates.head? = some t ∧
        candidates.getLast? = some r ∧ t ≤ r ∧ r ≤ inv) ∧
    (∀ (it : AndIterator) (target : Nat),
      (∀ c ∈ it.children_, ∀ d ∈ c.docs, d < inv) →
      (∀ p ∈ it.sorted_iterators_, p < it.children_.length) → target ≤ inv →
      ∃ N, ∀ fuel, N ≤ fuel → ∃ it1, it.DoSeek inv fuel target = some it1) := by
  have hmeasure : ∀ (n d : Nat), d ≤ inv →
      (inv - d) * (n + 1) + (n - 0) < (inv + 1) * (n + 1) := by
    intro n d _
    have h1 : (inv - d) * (n + 1) ≤ inv * (n + 1) := Nat.mul_le_mul_right _ (by omega)
    rw [Nat.add_mul]
    omega
  constructor
  · refine ⟨(inv + 1) * (sorted.length + 1), fun fuel hf => ?_⟩
    obtain ⟨children1, r, candidates, hrun, hr1, hr2, hr3, hr4, hr5⟩ :=
      DoSeekLoopVirtual_returns Seek Doc sorted inv ok hseek fuel children 0 t [t] hok hp ht
        (List.pairwise_singleton _ _) rfl
        (fun x hx => by rw [List.mem_singleton] at hx; omega)
        (lt_of_lt_of_le (hmeasure sorted.length t ht) hf)
    refine ⟨children1, r, candidates, hrun, hr3, ?_, hr4, hr1, hr2⟩
    obtain ⟨rest, hrest⟩ := hr5
    rw [← hrest]
    rfl
  · intro it target hb hpt htarget
    refine ⟨(inv + 1) * (it.sorted_iterators_.length + 1), fun fuel hf => ?_⟩
    obtain ⟨children1, r, candidates, hrun, _⟩ :=
      DoSeekLoopVirtual_returns (DocIterator.Seek inv) DocIterator.Doc it.sorted_iterators_ inv
        (fun c => ∀ d ∈ c.docs, d < inv) (fun c t hc ht => Seek_between inv c t hc ht)
        fuel it.children_ 0 target [target] hb hpt htarget
        (List.pairwise_singleton _ _) rfl
        (fun x hx => by rw [List.mem_singleton] at hx; omega)
        (lt_of_lt_of_le (hmeasure it.sorted_iterators_.length target htarget) hf)
    refine ⟨⟨children1, it.sorted_iterators_, r⟩, ?_⟩
    unfold AndIterator.DoSeek
    rw [DoSeekLoop_eq_virtual inv it.sorted_iterators_ fuel it.children_ 0 target [target],
      hrun]
    rfl

/-- Claim C22 at the children `{0,1,2}` and `{0,3}`, seen through the methods that scan a
posting list, with the pointers `[1, 0]` and the target 1: the docids are below the sentinel,
the loop returns after two restarts with the candidates 1, 3 and `INVALID_ROWID`, and the
general statement applies. -/
theorem DoSeek_terminates_witness :
    (∀ c ∈ [fstIt, automatonIt], ∀ d ∈ c.docs, d < 4294967295) ∧
      (∀ p ∈ [1, 0], p < [fstIt, automatonIt].length) ∧
      (DoSeekLoopVirtual (DocIterator.Seek 4294967295) DocIterator.Doc [1, 0] 16
        [fstIt, automatonIt] 0 1 [1]).map (fun res => res.2) =
        some (4294967295, [1, 3, 4294967295]) ∧
      ∃ N, ∀ fuel, N ≤ fuel → ∃ children1 r candidates,
        DoSeekLoopVirtual (DocIterator.Seek 4294967295) DocIterator.Doc [1, 0] fuel
            [fstIt, automatonIt] 0 1 [1] = some (children1, r, candidates) ∧
          candidates.Pairwise (fun a b => a < b) ∧ candidates.head? = some 1 ∧
          candidates.getLast? = some r ∧ 1 ≤ r ∧ r ≤ 4294967295 :=
  ⟨by decide, by decide, by decide,
    (DoSeek_terminates (DocIterator.Seek 4294967295) DocIterator.Doc 4294967295
      (fun c => ∀ d ∈ c.docs, d < 4294967295) [1, 0] [fstIt, automatonIt] 1
      (fun c t hc ht => Seek_between 4294967295 c t hc ht) (by decide) (by decide)
      (by decide)).1⟩


/-! ## Theorems: `search_driver.cpp` -/

/-- `MultiplyWeight` replaces the weight of the root by its product with the factor and
changes nothing else. -/
theorem MultiplyWeight_eq {F : Type} [Mul F] (factor : F) (t : QueryNode F) :
    t.MultiplyWeight factor = t.withWeight (t.weight_ * factor) := by
  cases t <;> rfl

/-- The weight of the root after `MultiplyWeight`. -/
theorem MultiplyWeight_weight {F : Type} [Mul F] (factor : F) (t : QueryNode F) :
    (t.MultiplyWeight factor).weight_ = t.weight_ * factor := by
  cases t <;> rfl

/-- `ParseFields` on the empty string leaves the output vector empty. -/
theorem ParseFields_nil {F : Type} [One F] (stof : List Char → Except Exception F)
    (fields : List (List Char × F)) : ParseFields stof [] fields = Except.ok [] := rfl

/-- The loop over the fields, when every per-field parse returns: the boosted non-null
results are appended to `or_children` in the order of the fields. -/
theorem orChildrenLoop_spec {F : Type} [Mul F] (drv : SearchDriver) (parser : ParserFn F)
    (query : List Char) :
    ∀ (fields : List (List Char × F)) (results : List (Option (QueryNode F)))
      (or_children : List (QueryNode F)),
      fields.map (fun f => drv.ParseSingle parser query (some f.1)) = results.map Except.ok →
      orChildrenLoop drv parser query fields or_children =
        Except.ok (or_children ++ (List.zip fields results).filterMap
          (fun fr => fr.2.map (QueryNode.MultiplyWeight fr.1.2))) := by
  intro fields
  induction fields with
  | nil =>
    intro results or_children _
    simp [orChildrenLoop]
  | cons f fields ih =>
    intro results or_children h
    cases results with
    | nil => simp at h
    | cons r results =>
      simp only [List.map_cons, List.cons.injEq] at h
      obtain ⟨h1, h2⟩ := h
      obtain ⟨default_field, boost⟩ := f
      simp only at h1
      cases r with
      | none =>
        simp only [orChildrenLoop, h1]
        rw [ih results or_children h2]
        simp
      | some t =>
        simp only [orChildrenLoop, h1]
        rw [ih results _ h2]
        simp


/-- The fields string `title,body` parses to two entries with boost `1.0F`. -/
theorem ParseFields_title_body :
    ParseFields digitsStof "title,body".toList [] =
      Except.ok [("title".toList, 1), ("body".toList, 1)] := by
  simp [ParseFields, vectorClear, ParseFieldsLoop, ParseField, find_first_of, substr]

/-- The fields string `title^2` parses to the single entry `(title, 2)`. -/
theorem ParseFields_title_boost :
    ParseFields digitsStof "title^2".toList [] = Except.ok [("title".toList, 2)] := by
  simp [ParseFields, vectorClear, ParseFieldsLoop, ParseField, find_first_of, substr, digitsStof]

/-- The fields string `title^2,body^3` parses to the entries `(title, 2)` and `(body, 3)`. -/
theorem ParseFields_two_boosts :
    ParseFields digitsStof "title^2,body^3".toList [] =
      Except.ok [("title".toList, 2), ("body".toList, 3)] := by
  simp [ParseFields, vectorClear, ParseFieldsLoop, ParseField, find_first_of, substr, digitsStof]


/-! ### Claims on `SearchDriver` -/

/-- Claim C6, as stated, fails. The fields string `title,body` parses to two entries. With a
parser that rejects the query for every default field, every per-field parse is null and
`ParseSingleWithFields` returns null rather than an `OrQueryNode` without children; with a
parser that accepts the query for `title` only, it returns the term node of that one parse
and not an `OrQueryNode` around it. -/
theorem ParseSingleWithFields_not_always_or :
    ParseFields digitsStof "title,body".toList [] =
        Except.ok [("title".toList, 1), ("body".toList, 1)] ∧
      (∀ f, demoDriver.ParseSingle rejectParser "q".toList (some f) = Except.ok none) ∧
      demoDriver.ParseSingleWithFields rejectParser digitsStof "title,body".toList "q".toList
        = Except.ok none ∧
      demoDriver.ParseSingle titleParser "q".toList (some "title".toList) =
        Except.ok (some (QueryNode.TermQueryNode 1 "q".toList "title".toList)) ∧
      demoDriver.ParseSingle titleParser "q".toList (some "body".toList) = Except.ok none ∧
      demoDriver.ParseSingleWithFields titleParser digitsStof "title,body".toList "q".toList
        = Except.ok (some (QueryNode.TermQueryNode 1 "q".toList "title".toList)) ∧
      (∀ r, demoDriver.ParseSingleWithFields titleParser digitsStof "title,body".toList
        "q".toList = Except.ok (some r) → r.isOr = false) := by
  have h2 : demoDriver.ParseSingleWithFields titleParser digitsStof "title,body".toList
      "q".toList = Except.ok (some (QueryNode.TermQueryNode 1 "q".toList "title".toList)) := by
    simp only [SearchDriver.ParseSingleWithFields, ParseFields_title_body]
    rfl
  refine ⟨ParseFields_title_body, fun f => rfl, ?_, rfl, rfl, h2, ?_⟩
  · simp only [SearchDriver.ParseSingleWithFields, ParseFields_title_body]
    rfl
  · intro r hr
    rw [h2] at hr
    simp only [Except.ok.injEq, Option.some.injEq] at hr
    subst hr
    rfl

/-- Claim C6, amended. For a fields string that parses to more than one entry, when every
per-field `ParseSingle` returns, let `or_children` be the non-null results in the order of
the fields list, each with its weight multiplied by the boost of its field. Then
`ParseSingleWithFields` returns an `OrQueryNode` with exactly these children when there are at
least two of them, the single child itself when there is one, and null when there is
none. -/
theorem ParseSingleWithFields_multi {F : Type} [Mul F] [One F] (drv : SearchDriver)
    (parser : ParserFn F) (stof : List Char → Except Exception F)
    (fields_str query : List Char) (fields : List (List Char × F))
    (results : List (Option (QueryNode F)))
    (hfields : ParseFields stof fields_str [] = Except.ok fields) (hN : 1 < fields.length)
    (hres : fields.map (fun f => drv.ParseSingle parser query (some f.1)) =
      results.map Except.ok) :
    (2 ≤ ((List.zip fields results).filterMap
        (fun fr => fr.2.map (QueryNode.MultiplyWeight fr.1.2))).length →
      drv.ParseSingleWithFields parser stof fields_str query =
        Except.ok (some (QueryNode.OrQueryNode 1 ((List.zip fields results).filterMap
          (fun fr => fr.2.map (QueryNode.MultiplyWeight fr.1.2)))))) ∧
    (∀ child, (List.zip fields results).filterMap
        (fun fr => fr.2.map (QueryNode.MultiplyWeight fr.1.2)) = [child] →
      drv.ParseSingleWithFields parser stof fields_str query = Except.ok (some child)) ∧
    ((List.zip fields results).filterMap
        (fun fr => fr.2.map (QueryNode.MultiplyWeight fr.1.2)) = [] →
      drv.ParseSingleWithFields parser stof fields_str query = Except.ok none) := by
  have hloop := orChildrenLoop_spec drv parser query fields results [] hres
  rw [List.nil_append] at hloop
  have hrun : drv.ParseSingleWithFields parser stof fields_str query =
      match (List.zip fields results).filterMap
          (fun fr => fr.2.map (QueryNode.MultiplyWeight fr.1.2)) with
      | [] => Except.ok none
      | [child] => Except.ok (some child)
      | cs => Except.ok (some (QueryNode.OrQueryNode 1 cs)) := by
    unfold SearchDriver.ParseSingleWithFields
    rw [hfields]
    match fields, hN, hloop with
    | f1 :: f2 :: rest, _, hloop =>
      simp only [hloop]
      split <;> rfl
  rw [hrun]
  refine ⟨?_, ?_, ?_⟩
  · intro h2
    split
    · rename_i h; rw [h] at h2; simp at h2
    · rename_i c h; rw [h] at h2; simp at h2
    · rfl
  · intro child h
    rw [h]
  · intro h
    rw [h]

/-- Claim C6, amended, at the fields string `title^2,body^3` with a parser that accepts the
query for both fields: the result is an `OrQueryNode` over the two term nodes, with the
weights 2 and 3. -/
theorem ParseSingleWithFields_multi_witness :
    ParseFields digitsStof "title^2,body^3".toList [] =
        Except.ok [("title".toList, 2), ("body".toList, 3)] ∧
      demoDriver.ParseSingleWithFields termParser digitsStof "title^2,body^3".toList "q".toList
        = Except.ok (some (QueryNode.OrQueryNode 1
            [QueryNode.TermQueryNode 2 "q".toList "title".toList,
             QueryNode.TermQueryNode 3 "q".toList "body".toList])) :=
  ⟨ParseFields_two_boosts,
    (ParseSingleWithFields_multi demoDriver termParser digitsStof "title^2,body^3".toList
      "q".toList [("title".toList, 2), ("body".toList, 3)]
      [some (QueryNode.TermQueryNode 1 "q".toList "title".toList),
       some (QueryNode.TermQueryNode 1 "q".toList "body".toList)]
      ParseFields_two_boosts (by decide) rfl).1 (by decide)⟩


/-- Claim C7. For a fields string that parses to exactly one entry `(field, boost)`:
when `ParseSingle(query, field)` returns a tree, `ParseSingleWithFields` returns that tree
with the weight of its root multiplied by `boost` and nothing else changed; when it returns
null, so does `ParseSingleWithFields`; and an exception of `ParseSingle` is passed on. -/
theorem ParseSingleWithFields_single {F : Type} [Mul F] [One F] (drv : SearchDriver)
    (parser : ParserFn F) (stof : List Char → Except Exception F)
    (fields_str query field : List Char) (boost : F)
    (hfields : ParseFields stof fields_str [] = Except.ok [(field, boost)]) :
    (∀ t, drv.ParseSingle parser query (some field) = Except.ok (some t) →
      drv.ParseSingleWithFields parser stof fields_str query =
        Except.ok (some (t.withWeight (t.weight_ * boost)))) ∧
    (drv.ParseSingle parser query (some field) = Except.ok none →
      drv.ParseSingleWithFields parser stof fields_str query = Except.ok none) ∧
    (∀ e, drv.ParseSingle parser query (some field) = Except.error e →
      drv.ParseSingleWithFields parser stof fields_str query = Except.error e) := by
  refine ⟨fun t h => ?_, fun h => ?_, fun e h => ?_⟩
  · simp only [SearchDriver.ParseSingleWithFields, hfields, h, MultiplyWeight_eq]
  · simp only [SearchDriver.ParseSingleWithFields, hfields, h]
  · simp only [SearchDriver.ParseSingleWithFields, hfields, h]

/-- Claim C7 at the fields string `title^2`: it parses to the one entry `(title, 2)` and the
result is the term node of the parse over `title` with weight 2. -/
theorem ParseSingleWithFields_single_witness :
    ParseFields digitsStof "title^2".toList [] = Except.ok [("title".toList, 2)] ∧
      demoDriver.ParseSingle termParser "q".toList (some "title".toList) =
        Except.ok (some (QueryNode.TermQueryNode 1 "q".toList "title".toList)) ∧
      demoDriver.ParseSingleWithFields termParser digitsStof "title^2".toList "q".toList =
        Except.ok (some (QueryNode.TermQueryNode 2 "q".toList "title".toList)) :=
  ⟨ParseFields_title_boost, rfl,
    (ParseSingleWithFields_single demoDriver termParser digitsStof "title^2".toList "q".toList
      "title".toList 2 ParseFields_title_boost).1
      (QueryNode.TermQueryNode 1 "q".toList "title".toList) rfl⟩

/-- Claim C8. With an empty fields string, `ParseSingleWithFields` returns exactly what
`ParseSingle(query)` returns, and that is the parse of the query with `default_field_` as the
default field: the outcome of the parser on `default_field_` and the query, null when the
parser does not accept, with no weight changed. -/
theorem ParseSingleWithFields_empty {F : Type} [Mul F] [One F] (drv : SearchDriver)
    (parser : ParserFn F) (stof : List Char → Except Exception F) (query : List Char) :
    drv.ParseSingleWithFields parser stof [] query = drv.ParseSingle parser query none ∧
      drv.ParseSingle parser query none =
        drv.ParseSingle parser query (some drv.default_field_) ∧
      drv.ParseSingle parser query none =
        (match parser drv.default_field_ query with
          | Except.error e => Except.error e
          | Except.ok (rc, result) => if rc ≠ 0 then Except.ok none else Except.ok result) := by
  refine ⟨?_, rfl, rfl⟩
  simp only [SearchDriver.ParseSingleWithFields, ParseFields_nil]

/-- Claim C9, as stated, fails. In `emptyKeyDriver` the empty field name is bound to the
analyzer `standard`, which returns no term for the text `the`; the text is not empty, yet
`AnalyzeAndBuildQueryNode` does not consult the analyzer for an empty field and returns a
term node over the text instead of failing. -/
theorem AnalyzeAndBuildQueryNode_empty_field_no_error :
    "the".toList ≠ [] ∧
      emptyKeyDriver.field2analyzer_.lookup [] = some "standard".toList ∧
      "standard".toList ≠ [] ∧
      emptyKeyDriver.analyze_func_ "standard".toList "the".toList = Except.ok [] ∧
      emptyKeyDriver.AnalyzeAndBuildQueryNode (F := Int) [] "the".toList =
        Except.ok (some (QueryNode.TermQueryNode 1 "the".toList [])) := by
  refine ⟨by decide, by decide, by decide, rfl, rfl⟩

/-- Claim C9, amended. For every non-empty text and every non-empty field that is bound in
`field2analyzer_` to a non-empty analyzer name, if the analyzer returns an empty term list then
`AnalyzeAndBuildQueryNode` fails with `SyntaxError("Empty terms after analyzing")` and yields
no query node. -/
theorem AnalyzeAndBuildQueryNode_empty_terms {F : Type} [One F] (drv : SearchDriver)
    (field text analyzer_name : List Char) (htext : text ≠ []) (hfield : field ≠ [])
    (hbound : drv.field2analyzer_.lookup field = some analyzer_name)
    (hname : analyzer_name ≠ [])
    (hterms : drv.analyze_func_ analyzer_name text = Except.ok []) :
    drv.AnalyzeAndBuildQueryNode (F := F) field text =
      Except.error (Exception.RecoverableException
        (Status.SyntaxError "Empty terms after analyzing")) := by
  have h1 : text.isEmpty = false := by cases text <;> simp_all
  have h2 : field.isEmpty = false := by cases field <;> simp_all
  have h3 : analyzer_name.isEmpty = false := by cases analyzer_name <;> simp_all
  simp [SearchDriver.AnalyzeAndBuildQueryNode, h1, h2, h3, hbound, hterms, RecoverableError]

/-- Claim C9, amended, at `demoDriver`: the field `body` is bound to `standard`, the analyzer
returns no term for the text `the`, and the call fails with the syntax error. -/
theorem AnalyzeAndBuildQueryNode_empty_terms_witness :
    demoDriver.field2analyzer_.lookup "body".toList = some "standard".toList ∧
      demoDriver.analyze_func_ "standard".toList "the".toList = Except.ok [] ∧
      demoDriver.AnalyzeAndBuildQueryNode (F := Int) "body".toList "the".toList =
        Except.error (Exception.RecoverableException
          (Status.SyntaxError "Empty terms after analyzing")) :=
  ⟨by decide, rfl,
    AnalyzeAndBuildQueryNode_empty_terms demoDriver "body".toList "the".toList
      "standard".toList (by decide) (by decide) (by decide) (by decide) rfl⟩

/-- Claim C10, as stated, fails. In `emptyKeyDriver` the empty field name is bound to the
analyzer `standard`, which returns the one term `fst` for the text `FST`; for the empty field
`AnalyzeAndBuildQueryNode` does not consult the analyzer, and the term node it returns
carries the original text `FST`, not the analyzed term. -/
theorem AnalyzeAndBuildQueryNode_empty_field_keeps_text :
    "FST".toList ≠ [] ∧
      emptyKeyDriver.field2analyzer_.lookup [] = some "standard".toList ∧
      "standard".toList ≠ [] ∧
      emptyKeyDriver.analyze_func_ "standard".toList "FST".toList =
        Except.ok [⟨"fst".toList, 0⟩] ∧
      emptyKeyDriver.AnalyzeAndBuildQueryNode (F := Int) [] "FST".toList =
        Except.ok (some (QueryNode.TermQueryNode 1 "FST".toList [])) ∧
      "FST".toList ≠ "fst".toList := by
  refine ⟨by decide, by decide, by decide, rfl, rfl, by decide⟩

/-- Claim C10, amended. For every non-empty text and every non-empty field bound to a
non-empty analyzer name, if the analyzer returns exactly one term then
`AnalyzeAndBuildQueryNode` returns a `TermQueryNode` whose `term_` is the text of that term
and whose `column_` is the field. -/
theorem AnalyzeAndBuildQueryNode_one_term {F : Type} [One F] (drv : SearchDriver)
    (field text analyzer_name : List Char) (term : Term) (htext : text ≠ [])
    (hfield : field ≠ []) (hbound : drv.field2analyzer_.lookup field = some analyzer_name)
    (hname : analyzer_name ≠ [])
    (hterms : drv.analyze_func_ analyzer_name text = Except.ok [term]) :
    drv.AnalyzeAndBuildQueryNode (F := F) field text =
      Except.ok (some (QueryNode.TermQueryNode 1 term.Text field)) := by
  have h1 : text.isEmpty = false := by cases text <;> simp_all
  have h2 : field.isEmpty = false := by cases field <;> simp_all
  have h3 : analyzer_name.isEmpty = false := by cases analyzer_name <;> simp_all
  simp [SearchDriver.AnalyzeAndBuildQueryNode, h1, h2, h3, hbound, hterms, Term.Text]

/-- Claim C10, amended, at `demoDriver`: for the field `body` and the text `FST` the analyzer
returns the one term `fst`, and the node built is the term node over `fst`. -/
theorem AnalyzeAndBuildQueryNode_one_term_witness :
    demoDriver.field2analyzer_.lookup "body".toList = some "standard".toList ∧
      demoDriver.analyze_func_ "standard".toList "FST".toList = Except.ok [⟨"fst".toList, 0⟩] ∧
      demoDriver.AnalyzeAndBuildQueryNode (F := Int) "body".toList "FST".toList =
        Except.ok (some (QueryNode.TermQueryNode 1 "fst".toList "body".toList)) :=
  ⟨by decide, rfl,
    AnalyzeAndBuildQueryNode_one_term demoDriver "body".toList "FST".toList
      "standard".toList ⟨"fst".toList, 0⟩ (by decide) (by decide) (by decide) (by decide)
      rfl⟩


/-- Claim C11, as stated, fails. In `emptyKeySplitDriver` the empty field name is bound to the
analyzer `standard`, which returns the two terms `new` and `york`; for the empty field
`AnalyzeAndBuildQueryNode` does not consult the analyzer and returns a term node over the
original text, not a phrase node. -/
theorem AnalyzeAndBuildQueryNode_empty_field_no_phrase :
    "new-york".toList ≠ [] ∧
      emptyKeySplitDriver.field2analyzer_.lookup [] = some "standard".toList ∧
      "standard".toList ≠ [] ∧
      emptyKeySplitDriver.analyze_func_ "standard".toList "new-york".toList =
        Except.ok [⟨"new".toList, 0⟩, ⟨"york".toList, 1⟩] ∧
      emptyKeySplitDriver.AnalyzeAndBuildQueryNode (F := Int) [] "new-york".toList =
        Except.ok (some (QueryNode.TermQueryNode 1 "new-york".toList [])) := by
  refine ⟨by decide, by decide, by decide, rfl, rfl⟩

/-- Claim C11, amended. For every non-empty text and every non-empty field bound to a
non-empty analyzer name, if the analyzer returns two or more terms then
`AnalyzeAndBuildQueryNode` returns a `PhraseQueryNode`, which is not an `OrQueryNode`, whose
terms are the texts of the analyzed terms, as many and in the same order, and whose `column_`
is the field. -/
theorem AnalyzeAndBuildQueryNode_many_terms {F : Type} [One F] (drv : SearchDriver)
    (field text analyzer_name : List Char) (terms : List Term) (htext : text ≠ [])
    (hfield : field ≠ []) (hbound : drv.field2analyzer_.lookup field = some analyzer_name)
    (hname : analyzer_name ≠ [])
    (hterms : drv.analyze_func_ analyzer_name text = Except.ok terms)
    (hmany : 2 ≤ terms.length) :
    drv.AnalyzeAndBuildQueryNode (F := F) field text =
        Except.ok (some (QueryNode.PhraseQueryNode 1 (terms.map Term.Text) field)) ∧
      (QueryNode.PhraseQueryNode (1 : F) (terms.map Term.Text) field).isOr = false ∧
      (terms.map Term.Text).length = terms.length := by
  have h1 : text.isEmpty = false := by cases text <;> simp_all
  have h2 : field.isEmpty = false := by cases field <;> simp_all
  have h3 : analyzer_name.isEmpty = false := by cases analyzer_name <;> simp_all
  refine ⟨?_, rfl, List.length_map _ _⟩
  match terms, hmany, hterms with
  | t1 :: t2 :: rest, _, hterms =>
    simp [SearchDriver.AnalyzeAndBuildQueryNode, h1, h2, h3, hbound, hterms]

/-- Claim C11, amended, at `demoDriver`: for the field `body` and the text `new-york` the
analyzer returns the terms `new` and `york`, and the node built is the phrase node over
them. -/
theorem AnalyzeAndBuildQueryNode_many_terms_witness :
    demoDriver.field2analyzer_.lookup "body".toList = some "standard".toList ∧
      demoDriver.analyze_func_ "standard".toList "new-york".toList =
        Except.ok [⟨"new".toList, 0⟩, ⟨"york".toList, 1⟩] ∧
      demoDriver.AnalyzeAndBuildQueryNode (F := Int) "body".toList "new-york".toList =
        Except.ok (some (QueryNode.PhraseQueryNode 1 ["new".toList, "york".toList]
          "body".toList)) :=
  ⟨by decide, rfl,
    (AnalyzeAndBuildQueryNode_many_terms demoDriver "body".toList "new-york".toList
      "standard".toList [⟨"new".toList, 0⟩, ⟨"york".toList, 1⟩] (by decide) (by decide)
      (by decide) (by decide) rfl (by decide)).1⟩


/-- Searching from the end of a consumed prefix finds the first `c` behind a segment that has
no `c`. -/
theorem find_first_of_segment (pre seg rest : List Char) (c : Char) (hc : c ∉ seg) :
    find_first_of (pre ++ (seg ++ c :: rest)) c pre.length = some (pre.length + seg.length) := by
  unfold find_first_of
  rw [List.drop_left]
  have h1 : (seg ++ c :: rest).indexOf c = seg.length := by
    rw [List.indexOf_append_of_not_mem hc]
    simp
  rw [h1, if_pos (by simp)]

/-- Searching from the end of a consumed prefix finds nothing in a segment that has no `c`. -/
theorem find_first_of_last (pre seg : List Char) (c : Char) (hc : c ∉ seg) :
    find_first_of (pre ++ seg) c pre.length = none := by
  unfold find_first_of
  rw [List.drop_left, if_neg]
  rw [List.indexOf_lt_length]
  exact hc

/-- `ParseField` on an entry without `^`: the entry itself with boost `1.0F`. -/
theorem ParseField_plain {F : Type} [One F] (stof : List Char → Except Exception F)
    (name : List Char) (hn : '^' ∉ name) : ParseField stof name = Except.ok (name, 1) := by
  have h := find_first_of_last [] name '^' hn
  simp only [List.nil_append, List.length_nil] at h
  simp only [ParseField, h]

/-- `ParseField` on an entry `name^b`, where `name` has no `^`: the name before the first `^`
and the boost that `std::stof` reads from all the text after it. -/
theorem ParseField_boost {F : Type} [One F] (stof : List Char → Except Exception F)
    (name b : List Char) (hn : '^' ∉ name) :
    ParseField stof (name ++ '^' :: b) =
      match stof b with
      | Except.error e => Except.error e
      | Except.ok boost => Except.ok (name, boost) := by
  have h := find_first_of_segment [] name b '^' hn
  simp only [List.nil_append, List.length_nil, Nat.zero_add] at h
  simp only [ParseField, h, substr, List.drop_zero, List.take_left]
  have h2 : List.drop (name.length + 1) (name ++ '^' :: b) = b := by
    rw [← List.drop_drop, List.drop_left]
    rfl
  rw [h2]

/-- The loop of `ParseFields` behind a consumed prefix, on comma-free entries joined by commas
of which the last is not empty: each entry goes through `ParseField`, in order. -/
theorem ParseFieldsLoop_join {F : Type} [One F] (stof : List Char → Except Exception F) :
    ∀ (entries : List (List Char)) (fields : List (List Char × F)) (pre : List Char)
      (acc : List (List Char × F)),
      entries ≠ [] → (∀ e ∈ entries, ',' ∉ e) → (∀ h : entries ≠ [], entries.getLast h ≠ []) →
      List.Forall₂ (fun e f => ParseField stof e = Except.ok f) entries fields →
      ParseFieldsLoop stof (pre ++ joinFields entries) pre.length acc =
        Except.ok (acc ++ fields) := by
  intro entries
  induction entries with
  | nil => intro _ _ _ h; exact absurd rfl h
  | cons e es ih =>
    intro fields pre acc _ hnc hlast hpar
    cases hpar with
    | cons hf hrest =>
      rename_i f fs
      cases es with
      | nil =>
        cases hrest
        have he : e ≠ [] := hlast (by simp)
        have hlen : pre.length < (pre ++ joinFields [e]).length := by
          simp only [joinFields, List.length_append]
          have : 0 < e.length := List.length_pos.mpr he
          omega
        rw [ParseFieldsLoop]
        simp only [hlen, if_true]
        have hfind := find_first_of_last pre e ',' (hnc e (by simp))
        simp only [joinFields]
        split
        · rename_i hnone
          simp only [substr, List.drop_left, hf]
        · rename_i ci hsome
          rw [hfind] at hsome
          cases hsome
      | cons e2 es2 =>
        have hlen : pre.length < (pre ++ joinFields (e :: e2 :: es2)).length := by
          simp only [joinFields, List.length_append, List.length_cons]
          omega
        rw [ParseFieldsLoop]
        simp only [hlen, if_true]
        have hfind := find_first_of_segment pre e (joinFields (e2 :: es2)) ','
          (hnc e (by simp))
        have hjoin : joinFields (e :: e2 :: es2) = e ++ ',' :: joinFields (e2 :: es2) := rfl
        split
        · rename_i hnone
          rw [hjoin, hfind] at hnone
          cases hnone
        · rename_i ci hsome
          rw [hjoin, hfind] at hsome
          cases hsome
          have hsub : substr (pre ++ joinFields (e :: e2 :: es2)) pre.length
              (some (pre.length + e.length - pre.length)) = e := by
            simp only [substr, hjoin, List.drop_left, Nat.add_sub_cancel_left, List.take_left]
          simp only [hsub, hf]
          have hpre : pre ++ joinFields (e :: e2 :: es2) =
              (pre ++ e ++ [',']) ++ joinFields (e2 :: es2) := by
            rw [hjoin]; simp
          have hlen2 : pre.length + e.length + 1 = (pre ++ e ++ [',']).length := by
            simp only [List.length_append, List.length_singleton]
          rw [hpre, hlen2]
          rw [ih fs (pre ++ e ++ [',']) (acc ++ [f]) (by simp)
            (fun x hx => hnc x (List.mem_cons_of_mem _ hx))
            (fun h => by
              have := hlast (by simp)
              rwa [List.getLast_cons h] at this)
            hrest]
          simp


/-- Claim C12. For every non-empty list of field names that are non-empty and contain neither
`,` nor `^`, `ParseFields` on the names joined by `,` returns exactly those names in the same
order, each with boost `1.0F`, whatever the output vector held before; `ParseField` on an
entry `name^b`, where `name` has no `^`, returns `name` and the boost that `std::stof` reads
from `b`, or passes on its exception; and for every fields string the result does not depend
on the previous content of the output vector. -/
theorem ParseFields_joined_names {F : Type} [One F] (stof : List Char → Except Exception F)
    (names : List (List Char)) (prev : List (List Char × F)) (hne : names ≠ [])
    (hnames : ∀ n ∈ names, n ≠ [] ∧ ',' ∉ n ∧ '^' ∉ n) :
    ParseFields stof (joinFields names) prev = Except.ok (names.map (fun n => (n, 1))) ∧
    (∀ name b : List Char, '^' ∉ name →
      ParseField stof (name ++ '^' :: b) =
        match stof b with
        | Except.error e => Except.error e
        | Except.ok boost => Except.ok (name, boost)) ∧
    (∀ (fields_str : List Char) (prev1 prev2 : List (List Char × F)),
      ParseFields stof fields_str prev1 = ParseFields stof fields_str prev2) := by
  refine ⟨?_, fun name b hn => ParseField_boost stof name b hn, fun _ _ _ => rfl⟩
  have hlast : ∀ h : names ≠ [], names.getLast h ≠ [] :=
    fun h => (hnames _ (List.getLast_mem h)).1
  have hpar : List.Forall₂ (fun e f => ParseField stof e = Except.ok f) names
      (names.map (fun n => ((n, 1) : List Char × F))) := by
    rw [List.forall₂_map_right_iff]
    exact List.forall₂_same.mpr (fun n hn => ParseField_plain stof n (hnames n hn).2.2)
  have hloop := ParseFieldsLoop_join stof names _ [] [] hne (fun n hn => (hnames n hn).2.1)
    hlast hpar
  simp only [List.nil_append, List.length_nil] at hloop
  have hjoin : (joinFields names).isEmpty = false := by
    match names, hne, hnames with
    | [n], _, hnames =>
      have := (hnames n (by simp)).1
      cases n with
      | nil => exact absurd rfl this
      | cons c cs => rfl
    | n :: n2 :: ns, _, hnames =>
      have := (hnames n (by simp)).1
      cases n with
      | nil => exact absurd rfl this
      | cons c cs => rfl
  unfold ParseFields
  simp only [hjoin, vectorClear]
  exact hloop

/-- Claim C12 at the names `title` and `body` with a non-empty output vector: the joined
string is `title,body` and the result is the two names with boost 1. -/
theorem ParseFields_joined_names_witness :
    joinFields ["title".toList, "body".toList] = "title,body".toList ∧
      ParseFields digitsStof (joinFields ["title".toList, "body".toList])
        [("stale".toList, 7)] = Except.ok [("title".toList, 1), ("body".toList, 1)] :=
  ⟨by decide,
    (ParseFields_joined_names digitsStof ["title".toList, "body".toList]
      [("stale".toList, 7)] (by decide) (by decide)).1⟩

/-- When the analyzer is not consulted, the node built is the term node over the text. -/
theorem AnalyzeAndBuildQueryNode_skip {F : Type} [One F] (drv : SearchDriver)
    (field text : List Char) (htext : text ≠ [])
    (hskip : field = [] ∨ drv.field2analyzer_.lookup field = none ∨
      drv.field2analyzer_.lookup field = some []) :
    drv.AnalyzeAndBuildQueryNode (F := F) field text =
      Except.ok (some (QueryNode.TermQueryNode 1 text field)) := by
  have h1 : text.isEmpty = false := by cases text <;> simp_all
  rcases hskip with h | h | h
  · subst h
    simp [SearchDriver.AnalyzeAndBuildQueryNode, h1]
  · cases hf : field.isEmpty <;>
      simp [SearchDriver.AnalyzeAndBuildQueryNode, h1, h, hf]
  · cases hf : field.isEmpty <;>
      simp [SearchDriver.AnalyzeAndBuildQueryNode, h1, h, hf]

/-- Claim C23. For every non-empty text and every field that is empty, or is not a key of
`field2analyzer_`, or is bound there to an empty analyzer name, `AnalyzeAndBuildQueryNode`
returns a `TermQueryNode` whose `term_` is the text unchanged and whose `column_` is the field,
with the default weight; and it does so whatever the analyzer is, also one that raises on
every call, so the analyzer is not invoked. -/
theorem AnalyzeAndBuildQueryNode_not_analyzed {F : Type} [One F] (drv : SearchDriver)
    (field text : List Char) (htext : text ≠ [])
    (hskip : field = [] ∨ drv.field2analyzer_.lookup field = none ∨
      drv.field2analyzer_.lookup field = some []) :
    drv.AnalyzeAndBuildQueryNode (F := F) field text =
        Except.ok (some (QueryNode.TermQueryNode 1 text field)) ∧
      ∀ analyze_func : List Char → List Char → Except Exception (List Term),
        SearchDriver.AnalyzeAndBuildQueryNode (F := F)
            { field2analyzer_ := drv.field2analyzer_, default_field_ := drv.default_field_,
              analyze_func_ := analyze_func } field text =
          Except.ok (some (QueryNode.TermQueryNode 1 text field)) :=
  ⟨AnalyzeAndBuildQueryNode_skip drv field text htext hskip,
    fun analyze_func => AnalyzeAndBuildQueryNode_skip
      { field2analyzer_ := drv.field2analyzer_, default_field_ := drv.default_field_,
        analyze_func_ := analyze_func } field text htext hskip⟩

/-- Claim C23 at `demoDriver` and the text `FST`: the field `raw` is bound to the empty
analyzer name, and the node built is the term node over `FST` in the column `raw`. -/
theorem AnalyzeAndBuildQueryNode_not_analyzed_witness :
    "FST".toList ≠ [] ∧
      demoDriver.field2analyzer_.lookup "raw".toList = some [] ∧
      demoDriver.AnalyzeAndBuildQueryNode (F := Int) "raw".toList "FST".toList =
        Except.ok (some (QueryNode.TermQueryNode 1 "FST".toList "raw".toList)) :=
  ⟨by decide, by decide,
    (AnalyzeAndBuildQueryNode_not_analyzed demoDriver "raw".toList "FST".toList (by decide)
      (Or.inr (Or.inr (by decide)))).1⟩

/-- Claim C24. For every driver, whatever its analyzer map and its analyzer, and every field,
`AnalyzeAndBuildQueryNode` called with the empty text fails with the `RecoverableException`
of `SyntaxError("Empty query text")`; it returns no query node and no null either. -/
theorem AnalyzeAndBuildQueryNode_empty_text {F : Type} [One F] (drv : SearchDriver)
    (field : List Char) :
    drv.AnalyzeAndBuildQueryNode (F := F) field [] =
        Except.error (Exception.RecoverableException
          { code := ErrorCode.kSyntaxError, msg := "Empty query text" }) ∧
      ∀ r : Option (QueryNode F), drv.AnalyzeAndBuildQueryNode (F := F) field [] ≠ Except.ok r := by
  have h : drv.AnalyzeAndBuildQueryNode (F := F) field [] =
      Except.error (Exception.RecoverableException
        { code := ErrorCode.kSyntaxError, msg := "Empty query text" }) := rfl
  refine ⟨h, fun r hr => ?_⟩
  rw [h] at hr
  cases hr


/-- `ParseSingleWithFields` on a fields string with more than one entry, when every per-field
`ParseSingle` returns: the outcome is decided by the boosted non-null results alone. -/
theorem ParseSingleWithFields_run {F : Type} [Mul F] [One F] (drv : SearchDriver)
    (parser : ParserFn F) (stof : List Char → Except Exception F)
    (fields_str query : List Char) (fields : List (List Char × F))
    (results : List (Option (QueryNode F)))
    (hfields : ParseFields stof fields_str [] = Except.ok fields) (hN : 1 < fields.length)
    (hres : fields.map (fun f => drv.ParseSingle parser query (some f.1)) =
      results.map Except.ok) :
    drv.ParseSingleWithFields parser stof fields_str query =
      match (List.zip fields results).filterMap
          (fun fr => fr.2.map (QueryNode.MultiplyWeight fr.1.2)) with
      | [] => Except.ok none
      | [child] => Except.ok (some child)
      | cs => Except.ok (some (QueryNode.OrQueryNode 1 cs)) := by
  have hloop := orChildrenLoop_spec drv parser query fields results [] hres
  rw [List.nil_append] at hloop
  unfold SearchDriver.ParseSingleWithFields
  rw [hfields]
  match fields, hN, hloop with
  | f1 :: f2 :: rest, _, hloop =>
    simp only [hloop]
    split <;> rfl

/-- The boosted non-null results are as many as the non-null results. -/
theorem length_boosted {F : Type} [Mul F] :
    ∀ (fields : List (List Char × F)) (results : List (Option (QueryNode F))),
      fields.length = results.length →
      ((List.zip fields results).filterMap
        (fun fr => fr.2.map (QueryNode.MultiplyWeight fr.1.2))).length =
        (results.filter (fun r => r.isSome)).length := by
  intro fields
  induction fields with
  | nil =>
    intro results h
    cases results with
    | nil => rfl
    | cons r rs => simp at h
  | cons f fields ih =>
    intro results h
    cases results with
    | nil => simp at h
    | cons r rs =>
      simp only [List.length_cons, Nat.add_right_cancel_iff] at h
      have := ih rs h
      cases r with
      | none => simpa using this
      | some t => simpa using this

/-- Every boosted non-null result is the parse of one field, multiplied by the boost of that
field. -/
theorem mem_boosted {F : Type} [Mul F] (fields : List (List Char × F))
    (results : List (Option (QueryNode F))) (child : QueryNode F)
    (h : child ∈ (List.zip fields results).filterMap
      (fun fr => fr.2.map (QueryNode.MultiplyWeight fr.1.2))) :
    ∃ field boost t, ((field, boost), some t) ∈ List.zip fields results ∧
      child = t.MultiplyWeight boost := by
  rw [List.mem_filterMap] at h
  obtain ⟨⟨⟨field, boost⟩, r⟩, hmem, hr⟩ := h
  cases r with
  | none => simp at hr
  | some t =>
    simp only [Option.map_some', Option.some.injEq] at hr
    exact ⟨field, boost, t, hmem, hr.symm⟩

/-- The kind of the root is kept by `MultiplyWeight`. -/
theorem MultiplyWeight_isOr {F : Type} [Mul F] (factor : F) (t : QueryNode F) :
    (t.MultiplyWeight factor).isOr = t.isOr := by
  cases t <;> rfl

/-- Claim C27. For every query and every fields string that parses to more than one entry,
when every per-field `ParseSingle` returns: if exactly one of the results is non-null,
`ParseSingleWithFields` returns that parse itself with its weight multiplied by the boost of
its field, a node of the same kind as the parse and so not a new `OrQueryNode` around it; if
all results are null it returns null; with fewer than two non-null results no node is made,
whatever is returned is one of the boosted parses; and with at least two non-null results it
returns a new `OrQueryNode` whose children are as many as the non-null results. -/
theorem ParseSingleWithFields_or_only_for_two {F : Type} [Mul F] [One F] (drv : SearchDriver)
    (parser : ParserFn F) (stof : List Char → Except Exception F)
    (fields_str query : List Char) (fields : List (List Char × F))
    (results : List (Option (QueryNode F)))
    (hfields : ParseFields stof fields_str [] = Except.ok fields) (hN : 1 < fields.length)
    (hres : fields.map (fun f => drv.ParseSingle parser query (some f.1)) =
      results.map Except.ok) :
    ((results.filter (fun r => r.isSome)).length = 1 →
      ∃ field boost t, ((field, boost), some t) ∈ List.zip fields results ∧
        drv.ParseSingleWithFields parser stof fields_str query =
          Except.ok (some (t.MultiplyWeight boost)) ∧
        (t.MultiplyWeight boost).isOr = t.isOr ∧
        t.MultiplyWeight boost = t.withWeight (t.weight_ * boost)) ∧
    ((∀ r ∈ results, r = none) →
      drv.ParseSingleWithFields parser stof fields_str query = Except.ok none) ∧
    ((results.filter (fun r => r.isSome)).length < 2 →
      ∀ node, drv.ParseSingleWithFields parser stof fields_str query = Except.ok (some node) →
        ∃ field boost t, ((field, boost), some t) ∈ List.zip fields results ∧
          node = t.MultiplyWeight boost) ∧
    (2 ≤ (results.filter (fun r => r.isSome)).length →
      ∃ children, children.length = (results.filter (fun r => r.isSome)).length ∧
        drv.ParseSingleWithFields parser stof fields_str query =
          Except.ok (some (QueryNode.OrQueryNode 1 children))) := by
  have hrun := ParseSingleWithFields_run drv parser stof fields_str query fields results
    hfields hN hres
  have hlen : fields.length = results.length := by
    have := congrArg List.length hres
    simpa using this
  have hcount := length_boosted fields results hlen
  have hmem := mem_boosted fields results
  generalize (List.zip fields results).filterMap
    (fun fr => fr.2.map (QueryNode.MultiplyWeight fr.1.2)) = cs at hrun hcount hmem
  rw [← hcount]
  refine ⟨?_, ?_, ?_, ?_⟩
  · intro h1
    match cs, h1, hrun, hmem with
    | [child], _, hrun, hmem =>
      obtain ⟨field, boost, t, hz, hc⟩ := hmem child (List.mem_singleton.mpr rfl)
      refine ⟨field, boost, t, hz, ?_, MultiplyWeight_isOr boost t, MultiplyWeight_eq boost t⟩
      rw [hrun, hc]
  · intro hall
    have h0 : results.filter (fun r => r.isSome) = [] := by
      rw [List.filter_eq_nil_iff]
      intro r hr
      rw [hall r hr]
      simp
    rw [h0] at hcount
    have hcs : cs = [] := List.length_eq_zero.mp hcount
    rw [hrun, hcs]
  · intro hlt node hnode
    match cs, hlt, hrun, hmem with
    | [], _, hrun, _ =>
      rw [hrun] at hnode
      simp at hnode
    | [child], _, hrun, hmem =>
      rw [hrun] at hnode
      simp only [Except.ok.injEq, Option.some.injEq] at hnode
      subst hnode
      exact hmem child (List.mem_singleton.mpr rfl)
    | c1 :: c2 :: rest, hlt, _, _ =>
      simp only [List.length_cons] at hlt
      omega
  · intro h2
    match cs, h2, hrun with
    | [], h2, _ => simp at h2
    | [child], h2, _ => simp at h2
    | c1 :: c2 :: rest, _, hrun =>
      exact ⟨c1 :: c2 :: rest, rfl, hrun⟩

/-- Claim C27 at the fields string `title,body` with a parser that accepts the query for
`title` only: the fields string parses to two entries, one result is non-null, and what is
returned is the term node of that parse and not an `OrQueryNode`. -/
theorem ParseSingleWithFields_or_only_for_two_witness :
    ParseFields digitsStof "title,body".toList [] =
        Except.ok [("title".toList, 1), ("body".toList, 1)] ∧
      [("title".toList, (1 : Int)), ("body".toList, 1)].map
          (fun f => demoDriver.ParseSingle titleParser "q".toList (some f.1)) =
        [some (QueryNode.TermQueryNode 1 "q".toList "title".toList), none].map Except.ok ∧
      ∃ field boost t, ((field, boost), some t) ∈
          List.zip [("title".toList, (1 : Int)), ("body".toList, 1)]
            [some (QueryNode.TermQueryNode 1 "q".toList "title".toList), none] ∧
        demoDriver.ParseSingleWithFields titleParser digitsStof "title,body".toList "q".toList =
          Except.ok (some (t.MultiplyWeight boost)) ∧
        (t.MultiplyWeight boost).isOr = t.isOr ∧
        t.MultiplyWeight boost = t.withWeight (t.weight_ * boost) :=
  ⟨ParseFields_title_body, rfl,
    (ParseSingleWithFields_or_only_for_two demoDriver titleParser digitsStof
      "title,body".toList "q".toList [("title".toList, 1), ("body".toList, 1)]
      [some (QueryNode.TermQueryNode 1 "q".toList "title".toList), none]
      ParseFields_title_body (by decide) rfl).1 rfl⟩


/-- Splitting at commas, one character at a time. -/
theorem splitOn_comma_cons (c : Char) (cs : List Char) :
    (c :: cs).splitOn ',' =
      if c = ',' then [] :: cs.splitOn ',' else (cs.splitOn ',').modifyHead (List.cons c) := by
  unfold List.splitOn
  rw [List.splitOnP_cons]
  by_cases h : c = ','
  · simp [h]
  · simp [h]

/-- The comma-separated segments of a string: there is at least one, joined by commas they
give the string back, none of them has a comma, and their characters are characters of the
string. -/
theorem splitOn_comma_spec (s : List Char) :
    s.splitOn ',' ≠ [] ∧ joinFields (s.splitOn ',') = s ∧
      (∀ seg ∈ s.splitOn ',', ',' ∉ seg) ∧
      ∀ seg ∈ s.splitOn ',', ∀ x ∈ seg, x ∈ s := by
  induction s with
  | nil =>
    have h : ([] : List Char).splitOn ',' = [[]] := List.splitOn_nil ','
    rw [h]
    refine ⟨by simp, rfl, ?_, ?_⟩
    · intro seg hseg
      rw [List.mem_singleton] at hseg
      subst hseg
      exact List.not_mem_nil _
    · intro seg hseg x hx
      rw [List.mem_singleton] at hseg
      subst hseg
      exact absurd hx (List.not_mem_nil _)
  | cons c cs ih =>
    obtain ⟨hne, hjoin, hcomma, hsub⟩ := ih
    rw [splitOn_comma_cons]
    cases hL : cs.splitOn ',' with
    | nil => exact absurd hL hne
    | cons l0 ls =>
      rw [hL] at hjoin hcomma hsub
      by_cases h : c = ','
      · rw [if_pos h]
        refine ⟨by simp, ?_, ?_, ?_⟩
        · show [] ++ ',' :: joinFields (l0 :: ls) = c :: cs
          rw [hjoin, h]
          rfl
        · intro seg hseg
          rcases List.mem_cons.mp hseg with hs | hs
          · rw [hs]; exact List.not_mem_nil _
          · exact hcomma seg hs
        · intro seg hseg x hx
          rcases List.mem_cons.mp hseg with hs | hs
          · rw [hs] at hx; exact absurd hx (List.not_mem_nil _)
          · exact List.mem_cons_of_mem _ (hsub seg hs x hx)
      · rw [if_neg h]
        have hmod : List.modifyHead (List.cons c) (l0 :: ls) = (c :: l0) :: ls := rfl
        rw [hmod]
        refine ⟨by simp, ?_, ?_, ?_⟩
        · cases ls with
          | nil =>
            show c :: l0 = c :: cs
            rw [← hjoin]
            rfl
          | cons l1 ls1 =>
            show (c :: l0) ++ ',' :: joinFields (l1 :: ls1) = c :: cs
            rw [← hjoin]
            rfl
        · intro seg hseg
          rcases List.mem_cons.mp hseg with hs | hs
          · rw [hs]
            intro hmem
            rcases List.mem_cons.mp hmem with h1 | h1
            · exact h h1.symm
            · exact hcomma l0 (List.mem_cons_self _ _) h1
          · exact hcomma seg (List.mem_cons_of_mem _ hs)
        · intro seg hseg x hx
          rcases List.mem_cons.mp hseg with hs | hs
          · rw [hs] at hx
            rcases List.mem_cons.mp hx with h1 | h1
            · rw [h1]; exact List.mem_cons_self _ _
            · exact List.mem_cons_of_mem _ (hsub l0 (List.mem_cons_self _ _) x h1)
          · exact List.mem_cons_of_mem _ (hsub seg (List.mem_cons_of_mem _ hs) x hx)

/-- The loop of `ParseFields` behind a consumed prefix, on entries without `,` and `^` joined
by commas: every entry gets the boost `1.0F`, in order, and an empty last entry is left
out. -/
theorem ParseFieldsLoop_entries {F : Type} [One F] (stof : List Char → Except Exception F) :
    ∀ (entries : List (List Char)) (pre : List Char) (acc : List (List Char × F)),
      (∀ e ∈ entries, ',' ∉ e ∧ '^' ∉ e) →
      ParseFieldsLoop stof (pre ++ joinFields entries) pre.length acc =
        Except.ok (acc ++
          (if entries.getLast? = some [] then entries.dropLast else entries).map
            (fun e => (e, 1))) := by
  intro entries
  induction entries with
  | nil =>
    intro pre acc _
    rw [ParseFieldsLoop, if_neg (by simp [joinFields])]
    simp
  | cons e es ih =>
    intro pre acc hent
    have he := hent e (List.mem_cons_self _ _)
    cases es with
    | nil =>
      cases e with
      | nil =>
        rw [ParseFieldsLoop, if_neg (by simp [joinFields])]
        simp
      | cons c cs =>
        have hlen : pre.length < (pre ++ joinFields [c :: cs]).length := by
          simp only [joinFields, List.length_append, List.length_cons]
          omega
        rw [ParseFieldsLoop]
        simp only [hlen, if_true]
        have hfind := find_first_of_last pre (c :: cs) ',' he.1
        simp only [joinFields]
        split
        · simp only [substr, List.drop_left, ParseField_plain stof (c :: cs) he.2]
          simp
        · rename_i ci hsome
          rw [hfind] at hsome
          cases hsome
    | cons e2 es2 =>
      have hlen : pre.length < (pre ++ joinFields (e :: e2 :: es2)).length := by
        simp only [joinFields, List.length_append, List.length_cons]
        omega
      rw [ParseFieldsLoop]
      simp only [hlen, if_true]
      have hfind := find_first_of_segment pre e (joinFields (e2 :: es2)) ',' he.1
      have hjoin : joinFields (e :: e2 :: es2) = e ++ ',' :: joinFields (e2 :: es2) := rfl
      split
      · rename_i hnone
        rw [hjoin, hfind] at hnone
        cases hnone
      · rename_i ci hsome
        rw [hjoin, hfind] at hsome
        cases hsome
        have hsub : substr (pre ++ joinFields (e :: e2 :: es2)) pre.length
            (some (pre.length + e.length - pre.length)) = e := by
          simp only [substr, hjoin, List.drop_left, Nat.add_sub_cancel_left, List.take_left]
        simp only [hsub, ParseField_plain stof e he.2]
        have hpre : pre ++ joinFields (e :: e2 :: es2) =
            (pre ++ e ++ [',']) ++ joinFields (e2 :: es2) := by
          rw [hjoin]; simp
        have hlen2 : pre.length + e.length + 1 = (pre ++ e ++ [',']).length := by
          simp only [List.length_append, List.length_singleton]
        rw [hpre, hlen2]
        rw [ih (pre ++ e ++ [',']) (acc ++ [(e, 1)])
          (fun x hx => hent x (List.mem_cons_of_mem _ hx))]
        rw [List.getLast?_cons_cons]
        by_cases hl : (e2 :: es2).getLast? = some []
        · simp only [hl, if_true, List.dropLast_cons₂, List.map_cons, List.append_assoc,
            List.singleton_append]
        · simp only [hl, if_false, List.map_cons, List.append_assoc, List.singleton_append]

/-- Claim C30. For every fields string `s` without `^`, whatever the output vector held,
`ParseFields` returns one entry per comma-separated segment of `s`, in order and each with the
boost `1.0F`, except that the final segment is left out when it is empty; a segment that is
empty and not the final one gives an entry with the empty field name. -/
theorem ParseFields_segments {F : Type} [One F] (stof : List Char → Except Exception F)
    (s : List Char) (prev : List (List Char × F)) (hs : '^' ∉ s) :
    ParseFields stof s prev = Except.ok ((fieldSegments s).map (fun seg => (seg, 1))) := by
  obtain ⟨_, hjoin, hcomma, hsub⟩ := splitOn_comma_spec s
  have hloop := ParseFieldsLoop_entries stof (s.splitOn ',') [] []
    (fun e he => ⟨hcomma e he, fun hx => hs (hsub e he _ hx)⟩)
  simp only [List.nil_append, List.length_nil, hjoin] at hloop
  unfold ParseFields fieldSegments
  simp only [vectorClear]
  cases s with
  | nil =>
    have h : ([] : List Char).splitOn ',' = [[]] := List.splitOn_nil ','
    rw [h]
    rfl
  | cons c cs =>
    rw [if_neg (by simp)]
    exact hloop

/-- Claim C30 at the fields strings `a,`, `a`, `,a` and `a,,b`: none has a `^`; the entries of
`a,` are those of `a`, the one name `a`; `,a` and `a,,b` have an entry with the empty name;
and the general statement gives the result of `ParseFields` on each of them. -/
theorem ParseFields_segments_witness :
    '^' ∉ "a,".toList ∧ '^' ∉ "a".toList ∧ '^' ∉ ",a".toList ∧ '^' ∉ "a,,b".toList ∧
      fieldSegments "a,".toList = ["a".toList] ∧
      fieldSegments "a".toList = ["a".toList] ∧
      fieldSegments ",a".toList = [[], "a".toList] ∧
      fieldSegments "a,,b".toList = ["a".toList, [], "b".toList] ∧
      ParseFields digitsStof "a,".toList [] =
        Except.ok ((fieldSegments "a,".toList).map (fun seg => (seg, 1))) ∧
      ParseFields digitsStof "a".toList [] =
        Except.ok ((fieldSegments "a".toList).map (fun seg => (seg, 1))) ∧
      ParseFields digitsStof ",a".toList [] =
        Except.ok ((fieldSegments ",a".toList).map (fun seg => (seg, 1))) ∧
      ParseFields digitsStof "a,,b".toList [] =
        Except.ok ((fieldSegments "a,,b".toList).map (fun seg => (seg, 1))) :=
  ⟨by decide, by decide, by decide, by decide, by decide, by decide, by decide, by decide,
    ParseFields_segments digitsStof "a,".toList [] (by decide),
    ParseFields_segments digitsStof "a".toList [] (by decide),
    ParseFields_segments digitsStof ",a".toList [] (by decide),
    ParseFields_segments digitsStof "a,,b".toList [] (by decide)⟩


/-! ## Theorems: the inverted index -/

/-- The pairs held by records followed by more records. -/
theorem flatRecords_append (rs1 rs2 : List PostingRecord) :
    flatRecords (rs1 ++ rs2) = flatRecords rs1 ++ flatRecords rs2 := by
  simp [flatRecords]

/-- The pairs held by one record. -/
theorem flatRecords_singleton (r : PostingRecord) :
    flatRecords [r] = r.positions.map (fun p => (r.docid, p)) := by
  simp [flatRecords]

/-- The docids of the pairs held by valid records are the docids of the records. -/
theorem mem_flatRecords_docid (rs : List PostingRecord) (hv : RecordsValid rs) (d : Nat) :
    d ∈ (flatRecords rs).map Prod.fst ↔ d ∈ rs.map (fun r => r.docid) := by
  simp only [flatRecords, List.mem_map, List.mem_flatMap, Prod.exists, exists_and_right,
    exists_eq_right]
  constructor
  · rintro ⟨p, r, hr, p2, _, h⟩
    simp only [Prod.mk.injEq] at h
    exact ⟨r, hr, h.1⟩
  · rintro ⟨r, hr, hd⟩
    obtain ⟨p, hp⟩ := List.exists_mem_of_ne_nil _ (hv.2 r hr).2.1
    exact ⟨p, r, hr, p, hp, by rw [hd]⟩

/-- The posting list of a writer with a current record. -/
theorem postingList_some (w : PostingWriter) (r : PostingRecord) (h : w.current = some r) :
    w.postingList = w.flushed ++ [r] := by
  simp [PostingWriter.postingList, h]

/-- What `AddPosition` does to a valid writer when the pair added is not below the pairs it
holds: it succeeds, the writer stays valid and holds one more pair, at the end. -/
theorem AddPosition_spec (w : PostingWriter) (hv : w.Valid) (d p : Nat)
    (hle : ∀ x ∈ w.flat, pairLe x (d, p)) :
    ∃ w1, w.AddPosition d p = Except.ok w1 ∧ w1.Valid ∧ w1.flat = w.flat ++ [(d, p)] := by
  obtain ⟨⟨hdoc, hrec⟩, hdf, httf, hnone⟩ := hv
  unfold PostingWriter.AddPosition
  cases hcur : w.current with
  | none =>
    have hfl : w.flushed = [] := hnone hcur
    have hpl : w.postingList = [] := by simp [PostingWriter.postingList, hcur, hfl]
    have hflat : w.flat = [] := by simp [PostingWriter.flat, hpl, flatRecords]
    have hdf0 : w.df = 0 := by rw [hdf, hpl]; rfl
    have httf0 : w.ttf = 0 := by rw [httf, hflat]; rfl
    refine ⟨_, rfl, ⟨⟨?_, ?_⟩, ?_, ?_, ?_⟩, ?_⟩
    · simp [PostingWriter.postingList, hfl]
    · intro r hr
      simp only [PostingWriter.postingList, hfl, Option.toList, List.nil_append,
        List.mem_singleton] at hr
      subst hr
      simp
    · simp [PostingWriter.postingList, hfl, hdf0]
    · simp [PostingWriter.flat, PostingWriter.postingList, hfl, flatRecords, httf0]
    · simp
    · rw [hflat]
      simp [PostingWriter.flat, PostingWriter.postingList, hfl, flatRecords]
  | some r =>
    have hpl := postingList_some w r hcur
    have hflat : w.flat = flatRecords w.flushed ++ r.positions.map (fun q => (r.docid, q)) := by
      rw [PostingWriter.flat, hpl, flatRecords_append, flatRecords_singleton]
    have hdf1 : w.df = w.flushed.length + 1 := by rw [hdf, hpl]; simp
    have httf1 : w.ttf = (flatRecords w.flushed).length + r.positions.length := by
      rw [httf, hflat]; simp
    have hr := hrec r (by rw [hpl]; simp)
    rw [hpl, List.map_append, List.pairwise_append] at hdoc
    have hpos : ∀ q ∈ r.positions, pairLe (r.docid, q) (d, p) := by
      intro q hq
      apply hle
      rw [hflat]
      exact List.mem_append_right _ (List.mem_map.mpr ⟨q, hq, rfl⟩)
    simp only
    by_cases hd : d = r.docid
    · rw [if_pos hd]
      refine ⟨_, rfl, ⟨⟨?_, ?_⟩, ?_, ?_, ?_⟩, ?_⟩
      · simp only [PostingWriter.postingList, Option.toList, List.map_append, List.map_cons,
          List.map_nil]
        rw [List.pairwise_append]
        exact hdoc
      · intro r2 hr2
        simp only [PostingWriter.postingList, Option.toList, List.mem_append,
          List.mem_singleton] at hr2
        rcases hr2 with h | h
        · exact hrec r2 (by rw [hpl]; simp [h])
        · subst h
          refine ⟨by simp [hr.1], by simp, ?_⟩
          rw [List.pairwise_append]
          refine ⟨hr.2.2, by simp, ?_⟩
          intro a ha b hb
          simp only [List.mem_singleton] at hb
          subst hb
          rcases hpos a ha with h | ⟨_, h⟩
          · simp only at h; omega
          · exact h
      · simp [PostingWriter.postingList, hdf1]
      · simp only [PostingWriter.flat, PostingWriter.postingList, Option.toList,
          flatRecords_append, flatRecords_singleton, httf1, List.length_append,
          List.length_map, List.length_singleton]
        omega
      · simp
      · rw [hflat]
        simp only [PostingWriter.flat, PostingWriter.postingList, Option.toList,
          flatRecords_append, flatRecords_singleton, List.map_append, List.map_cons,
          List.map_nil, List.append_assoc, hd]
    · rw [if_neg hd]
      obtain ⟨q, hq⟩ := List.exists_mem_of_ne_nil _ hr.2.1
      have hlt : r.docid < d := by
        rcases hpos q hq with h | ⟨h, _⟩
        · exact h
        · simp only at h; exact absurd h.symm hd
      rw [if_pos hlt]
      refine ⟨_, rfl, ⟨⟨?_, ?_⟩, ?_, ?_, ?_⟩, ?_⟩
      · simp only [PostingWriter.postingList, Option.toList, List.map_append, List.map_cons,
          List.map_nil]
        rw [List.pairwise_append]
        refine ⟨by rw [List.pairwise_append]; exact hdoc, by simp, ?_⟩
        intro a ha b hb
        simp only [List.mem_singleton] at hb
        subst hb
        rcases List.mem_append.mp ha with h | h
        · have := hdoc.2.2 a h r.docid (by simp)
          omega
        · simp only [List.mem_singleton] at h
          omega
      · intro r2 hr2
        simp only [PostingWriter.postingList, Option.toList, List.mem_append,
          List.mem_singleton] at hr2
        rcases hr2 with h | h
        · exact hrec r2 (by rw [hpl]; simpa using h)
        · subst h
          simp
      · simp [PostingWriter.postingList, hdf1]
      · simp only [PostingWriter.flat, PostingWriter.postingList, Option.toList,
          flatRecords_append, flatRecords_singleton, httf1, List.length_append,
          List.length_map, List.length_singleton]
      · simp
      · rw [hflat]
        simp only [PostingWriter.flat, PostingWriter.postingList, Option.toList,
          flatRecords_append, flatRecords_singleton, List.map_cons, List.map_nil]

/-- Feeding a valid writer pairs in non-decreasing order, none below the pairs it holds: it
succeeds, the writer stays valid and holds the pairs fed behind those it held. -/
theorem feed_spec (L : List (Nat × Nat)) :
    ∀ (w : PostingWriter), w.Valid → L.Pairwise pairLe →
      (∀ x ∈ w.flat, ∀ y ∈ L, pairLe x y) →
      ∃ w1, w.feed L = Except.ok w1 ∧ w1.Valid ∧ w1.flat = w.flat ++ L := by
  induction L with
  | nil => intro w hv _ _; exact ⟨w, rfl, hv, by simp⟩
  | cons y L ih =>
    intro w hv hs hle
    obtain ⟨d, p⟩ := y
    rw [List.pairwise_cons] at hs
    obtain ⟨w1, h1, hv1, hf1⟩ :=
      AddPosition_spec w hv d p (fun x hx => hle x hx (d, p) (List.mem_cons_self _ _))
    obtain ⟨w2, h2, hv2, hf2⟩ := ih w1 hv1 hs.2 (by
      intro x hx z hz
      rw [hf1] at hx
      rcases List.mem_append.mp hx with h | h
      · exact hle x h z (List.mem_cons_of_mem _ hz)
      · simp only [List.mem_singleton] at h
        subst h
        exact hs.1 z hz)
    refine ⟨w2, ?_, hv2, ?_⟩
    · simp only [PostingWriter.feed, h1, h2]
    · rw [hf2, hf1]; simp

/-- Feeding pairs in two parts. -/
theorem feed_append (L1 L2 : List (Nat × Nat)) :
    ∀ (w w1 : PostingWriter), w.feed L1 = Except.ok w1 → w.feed (L1 ++ L2) = w1.feed L2 := by
  induction L1 with
  | nil =>
    intro w w1 h
    simp only [PostingWriter.feed, Except.ok.injEq] at h
    subst h
    rfl
  | cons y L1 ih =>
    intro w w1 h
    obtain ⟨d, p⟩ := y
    simp only [List.cons_append, PostingWriter.feed] at h ⊢
    cases hadd : w.AddPosition d p with
    | error e => rw [hadd] at h; simp at h
    | ok w0 =>
      rw [hadd] at h
      simp only at h ⊢
      exact ih w0 w1 h

/-- Looking up the term just stored. -/
theorem find_set_self (m : PostingMap) (term : List Char) (w : PostingWriter) :
    PostingMap.find (PostingMap.set m term w) term = some w := by
  induction m with
  | nil => simp [PostingMap.set, PostingMap.find]
  | cons e m ih =>
    obtain ⟨k, v⟩ := e
    by_cases hk : k = term
    · simp [PostingMap.set, PostingMap.find, hk]
    · simp [PostingMap.set, PostingMap.find, hk, ih]

/-- Looking up another term than the one just stored. -/
theorem find_set_other (m : PostingMap) (term other : List Char) (w : PostingWriter)
    (h : other ≠ term) :
    PostingMap.find (PostingMap.set m term w) other = PostingMap.find m other := by
  induction m with
  | nil => simp only [PostingMap.set, PostingMap.find, Ne.symm h, if_false]
  | cons e m ih =>
    obtain ⟨k, v⟩ := e
    by_cases hk : k = term
    · subst hk
      simp only [PostingMap.set, PostingMap.find, if_true, Ne.symm h, if_false]
    · by_cases hko : k = other
      · subst hko
        simp only [PostingMap.set, PostingMap.find, hk, if_false, if_true]
      · simp only [PostingMap.set, PostingMap.find, hk, hko, if_false, ih]

/-- The terms of a map after storing a writer: those it had, and the term stored. -/
theorem keys_set (m : PostingMap) (term : List Char) (w : PostingWriter) :
    (PostingMap.set m term w).map (fun e => e.1) =
      if term ∈ m.map (fun e => e.1) then m.map (fun e => e.1)
      else m.map (fun e => e.1) ++ [term] := by
  induction m with
  | nil => rfl
  | cons e m ih =>
    obtain ⟨k, v⟩ := e
    by_cases hk : k = term
    · subst hk
      simp only [PostingMap.set, if_true, List.map_cons, List.mem_cons, true_or]
    · have hmem : (term ∈ k :: List.map (fun e => e.1) m) ↔
          term ∈ List.map (fun e => e.1) m := by
        rw [List.mem_cons]
        constructor
        · rintro (h | h)
          · exact absurd h.symm hk
          · exact h
        · exact Or.inr
      simp only [PostingMap.set, hk, if_false, List.map_cons, ih]
      by_cases hm : term ∈ List.map (fun e => e.1) m
      · rw [if_pos hm, if_pos (hmem.mpr hm)]
      · rw [if_neg hm, if_neg (fun h => hm (hmem.mp h))]
        rfl

/-- A term has a writer in the map exactly when it is among the terms of the map. -/
theorem find_isSome_iff (m : PostingMap) (term : List Char) :
    (∃ w, PostingMap.find m term = some w) ↔ term ∈ m.map (fun e => e.1) := by
  induction m with
  | nil =>
    simp only [PostingMap.find, List.map_nil, List.not_mem_nil, iff_false, not_exists]
    intro w h
    cases h
  | cons e m ih =>
    obtain ⟨k, v⟩ := e
    by_cases hk : k = term
    · subst hk
      simp only [PostingMap.find, if_true, List.map_cons, List.mem_cons, true_or, iff_true]
      exact ⟨v, rfl⟩
    · simp only [PostingMap.find, hk, if_false, List.map_cons, List.mem_cons, ih]
      constructor
      · exact Or.inr
      · rintro (h | h)
        · exact absurd h.symm hk
        · exact h

/-- The writer found for a term is an entry of the map. -/
theorem find_mem (m : PostingMap) (term : List Char) (w : PostingWriter)
    (h : PostingMap.find m term = some w) : (term, w) ∈ m := by
  induction m with
  | nil => simp [PostingMap.find] at h
  | cons e m ih =>
    obtain ⟨k, v⟩ := e
    by_cases hk : k = term
    · simp only [PostingMap.find, hk, if_true, Option.some.injEq] at h
      subst h; subst hk
      exact List.mem_cons_self _ _
    · simp only [PostingMap.find, hk, if_false] at h
      exact List.mem_cons_of_mem _ (ih h)

/-- In a map in which every term has one entry, every entry is found under its term. -/
theorem find_of_mem (m : PostingMap) (hnd : (m.map (fun e => e.1)).Nodup) (term : List Char)
    (w : PostingWriter) (h : (term, w) ∈ m) : PostingMap.find m term = some w := by
  induction m with
  | nil => simp at h
  | cons e m ih =>
    obtain ⟨k, v⟩ := e
    rw [List.map_cons, List.nodup_cons] at hnd
    rcases List.mem_cons.mp h with h1 | h1
    · simp only [Prod.mk.injEq] at h1
      simp [PostingMap.find, h1.1, h1.2]
    · have hk : k ≠ term := by
        intro hk
        apply hnd.1
        rw [hk]
        exact List.mem_map.mpr ⟨(term, w), h1, rfl⟩
      simp only [PostingMap.find, hk, if_false]
      exact ih hnd.2 h1


/-- The pairs of a term when the first tuple has that term. -/
theorem pairsOf_cons_same (t : PostingTuple) (ts : List PostingTuple) :
    pairsOf t.term (t :: ts) = (t.docid, t.pos) :: pairsOf t.term ts := by
  simp [pairsOf]

/-- The pairs of a term when the first tuple has another term. -/
theorem pairsOf_cons_other (term : List Char) (t : PostingTuple) (ts : List PostingTuple)
    (h : t.term ≠ term) : pairsOf term (t :: ts) = pairsOf term ts := by
  simp [pairsOf, h]

/-- The provider after storing a writer, for the term stored. -/
theorem GetOrAddPosting_set_self (m : PostingMap) (term : List Char) (w : PostingWriter) :
    GetOrAddPosting (PostingMap.set m term w) term = w := by
  simp only [GetOrAddPosting, find_set_self]

/-- The provider after storing a writer, for another term. -/
theorem GetOrAddPosting_set_other (m : PostingMap) (term other : List Char)
    (w : PostingWriter) (h : other ≠ term) :
    GetOrAddPosting (PostingMap.set m term w) other = GetOrAddPosting m other := by
  simp only [GetOrAddPosting, find_set_other m term other w h]

/-- The walk of `GeneratePosting`, seen from one term: the writer of the term is fed the
pairs of the tuples of that term, in their order. -/
theorem generateLoop_find (ts : List PostingTuple) :
    ∀ (m m1 : PostingMap), generateLoop m ts = Except.ok m1 →
      ∀ term, (GetOrAddPosting m term).feed (pairsOf term ts) =
        Except.ok (GetOrAddPosting m1 term) := by
  induction ts with
  | nil =>
    intro m m1 h term
    simp only [generateLoop, Except.ok.injEq] at h
    subst h
    rfl
  | cons t ts ih =>
    intro m m1 h term
    simp only [generateLoop] at h
    cases hadd : (GetOrAddPosting m t.term).AddPosition t.docid t.pos with
    | error e => rw [hadd] at h; simp at h
    | ok w =>
      rw [hadd] at h
      simp only at h
      have hrest := ih _ m1 h term
      by_cases ht : t.term = term
      · subst ht
        rw [pairsOf_cons_same]
        simp only [PostingWriter.feed, hadd]
        rw [GetOrAddPosting_set_self] at hrest
        exact hrest
      · rw [pairsOf_cons_other term t ts ht]
        rw [GetOrAddPosting_set_other m t.term term w (Ne.symm ht)] at hrest
        exact hrest

/-- The walk of `GeneratePosting` succeeds when feeding succeeds for every term. -/
theorem generateLoop_ok (ts : List PostingTuple) :
    ∀ (m : PostingMap),
      (∀ term, ∃ w, (GetOrAddPosting m term).feed (pairsOf term ts) = Except.ok w) →
      ∃ m1, generateLoop m ts = Except.ok m1 := by
  induction ts with
  | nil => intro m _; exact ⟨m, rfl⟩
  | cons t ts ih =>
    intro m hall
    obtain ⟨w1, hw1⟩ := hall t.term
    rw [pairsOf_cons_same] at hw1
    simp only [PostingWriter.feed] at hw1
    cases hadd : (GetOrAddPosting m t.term).AddPosition t.docid t.pos with
    | error e => rw [hadd] at hw1; simp at hw1
    | ok w =>
      rw [hadd] at hw1
      simp only at hw1
      simp only [generateLoop, hadd]
      apply ih
      intro term
      by_cases ht : t.term = term
      · subst ht
        rw [GetOrAddPosting_set_self]
        exact ⟨w1, hw1⟩
      · rw [GetOrAddPosting_set_other m t.term term w (Ne.symm ht)]
        obtain ⟨w2, hw2⟩ := hall term
        rw [pairsOf_cons_other term t ts ht] at hw2
        exact ⟨w2, hw2⟩

/-- The terms of the map after the walk of `GeneratePosting`: every term keeps its one
entry, and the terms are those the map had and those of the tuples. -/
theorem generateLoop_keys (ts : List PostingTuple) :
    ∀ (m m1 : PostingMap), generateLoop m ts = Except.ok m1 →
      ((m.map (fun e => e.1)).Nodup → (m1.map (fun e => e.1)).Nodup) ∧
      ∀ term, term ∈ m1.map (fun e => e.1) ↔
        term ∈ m.map (fun e => e.1) ∨ ∃ t ∈ ts, t.term = term := by
  induction ts with
  | nil =>
    intro m m1 h
    simp only [generateLoop, Except.ok.injEq] at h
    subst h
    refine ⟨id, fun term => ⟨Or.inl, ?_⟩⟩
    rintro (h1 | ⟨t, ht, _⟩)
    · exact h1
    · exact absurd ht (List.not_mem_nil t)
  | cons t ts ih =>
    intro m m1 h
    simp only [generateLoop] at h
    cases hadd : (GetOrAddPosting m t.term).AddPosition t.docid t.pos with
    | error e => rw [hadd] at h; simp at h
    | ok w =>
      rw [hadd] at h
      simp only at h
      obtain ⟨hnd, hmem⟩ := ih _ m1 h
      have hkeys := keys_set m t.term w
      constructor
      · intro hm
        apply hnd
        rw [hkeys]
        split
        · exact hm
        · rename_i hnot
          rw [List.nodup_append]
          refine ⟨hm, List.nodup_singleton _, ?_⟩
          intro a ha hb
          simp only [List.mem_singleton] at hb
          subst hb
          exact hnot ha
      · intro term
        rw [hmem term, hkeys]
        constructor
        · rintro (h1 | ⟨t2, ht2, h2⟩)
          · split at h1
            · exact Or.inl h1
            · rcases List.mem_append.mp h1 with h3 | h3
              · exact Or.inl h3
              · simp only [List.mem_singleton] at h3
                exact Or.inr ⟨t, List.mem_cons_self _ _, h3.symm⟩
          · exact Or.inr ⟨t2, List.mem_cons_of_mem _ ht2, h2⟩
        · rintro (h1 | ⟨t2, ht2, h2⟩)
          · left
            split
            · exact h1
            · exact List.mem_append_left _ h1
          · rcases List.mem_cons.mp ht2 with h3 | h3
            · subst h3
              left
              split
              · rename_i hin; rw [← h2]; exact hin
              · rw [← h2]; exact List.mem_append_right _ (List.mem_singleton_self _)
            · exact Or.inr ⟨t2, h3, h2⟩


/-- Inserting into a range ordered by a key keeps it ordered, for keys in any linear order. -/
theorem linearInsert_sorted_key {α β : Type} [LinearOrder β] (key : α → β) (a : α)
    (l : List α) (hl : l.Pairwise (fun x y => key x ≤ key y)) :
    (linearInsert (fun x y => decide (key x < key y)) a l).Pairwise
      (fun x y => key x ≤ key y) := by
  induction l with
  | nil => simp [linearInsert]
  | cons b l ih =>
    rw [List.pairwise_cons] at hl
    unfold linearInsert
    split
    · rename_i hab
      simp only [decide_eq_true_eq] at hab
      refine List.Pairwise.cons ?_ (List.Pairwise.cons hl.1 hl.2)
      intro x hx
      rcases List.mem_cons.mp hx with h | h
      · subst h; exact le_of_lt hab
      · exact le_trans (le_of_lt hab) (hl.1 x h)
    · rename_i hab
      simp only [decide_eq_true_eq, not_lt] at hab
      refine List.Pairwise.cons ?_ (ih hl.2)
      intro x hx
      rcases List.mem_cons.mp ((linearInsert_perm _ a l).mem_iff.mp hx) with h | h
      · subst h; exact hab
      · exact hl.1 x h

/-- With the comparison `key x < key y`, the result of `stdSort` is in non-decreasing key
order, for keys in any linear order. -/
theorem stdSort_sorted_key {α β : Type} [LinearOrder β] (key : α → β) (l : List α) :
    (stdSort (fun x y => decide (key x < key y)) l).Pairwise (fun x y => key x ≤ key y) := by
  have hfold : ∀ (l acc : List α), acc.Pairwise (fun x y => key x ≤ key y) →
      (l.foldl (fun acc a => linearInsert (fun x y => decide (key x < key y)) a acc)
        acc).Pairwise (fun x y => key x ≤ key y) := by
    intro l
    induction l with
    | nil => intro acc h; simpa using h
    | cons a l ih =>
      intro acc h
      rw [List.foldl_cons]
      exact ih _ (linearInsert_sorted_key key a acc h)
  exact hfold l [] List.Pairwise.nil

/-- With an injective key, `stdSort` returns the same list for every arrangement of its
input. -/
theorem stdSort_eq_of_perm {α β : Type} [LinearOrder β] (key : α → β)
    (hinj : Function.Injective key) (l1 l2 : List α) (h : l1.Perm l2) :
    stdSort (fun x y => decide (key x < key y)) l1 =
      stdSort (fun x y => decide (key x < key y)) l2 := by
  haveI : IsAntisymm α (fun x y => key x ≤ key y) :=
    ⟨fun a b h1 h2 => hinj (le_antisymm h1 h2)⟩
  apply List.eq_of_perm_of_sorted (r := fun x y => key x ≤ key y)
  · exact ((stdSort_perm _ l1).trans h).trans (stdSort_perm _ l2).symm
  · exact stdSort_sorted_key key l1
  · exact stdSort_sorted_key key l2

/-- Tuples with the same sort key are the same tuple. -/
theorem PostingTuple.key_injective : Function.Injective PostingTuple.key := by
  intro a b h
  cases a
  cases b
  simp only [PostingTuple.key, EmbeddingLike.apply_eq_iff_eq, Prod.mk.injEq] at h
  obtain ⟨h1, h2, h3⟩ := h
  subst h1; subst h2; subst h3
  rfl

/-- The order of the sort keys of two tuples of one term is the order of their pairs. -/
theorem key_le_same_term (a b : PostingTuple) (h : a.term = b.term) (hle : a.key ≤ b.key) :
    pairLe (a.docid, a.pos) (b.docid, b.pos) := by
  unfold PostingTuple.key at hle
  rw [Prod.Lex.le_iff] at hle
  rcases hle with h1 | ⟨_, h2⟩
  · simp only at h1
    rw [h] at h1
    exact absurd h1 (lt_irrefl _)
  · simp only at h2
    rw [Prod.Lex.le_iff] at h2
    exact h2

/-- In tuples sorted by key, the pairs of every term are in non-decreasing order. -/
theorem pairsOf_sorted (term : List Char) (ts : List PostingTuple)
    (hs : ts.Pairwise (fun a b => a.key ≤ b.key)) : (pairsOf term ts).Pairwise pairLe := by
  unfold pairsOf
  rw [List.pairwise_map]
  have hf := hs.filter (fun t => decide (t.term = term))
  refine List.Pairwise.imp_of_mem ?_ hf
  intro a b ha hb hab
  have h1 := (List.mem_filter.mp ha).2
  have h2 := (List.mem_filter.mp hb).2
  simp only [decide_eq_true_eq] at h1 h2
  exact key_le_same_term a b (h1.trans h2.symm) hab

/-- The pairs of a term in a rearrangement of the tuples are a rearrangement of its pairs. -/
theorem pairsOf_perm (term : List Char) (ts1 ts2 : List PostingTuple) (h : ts1.Perm ts2) :
    (pairsOf term ts1).Perm (pairsOf term ts2) :=
  (h.filter _).map _


/-- The writer that was never used is valid and holds nothing. -/
theorem empty_valid : PostingWriter.empty.Valid ∧ PostingWriter.empty.flat = [] := by
  decide

/-- In a valid map the writer that the provider returns for a term is valid. -/
theorem GetOrAddPosting_valid (m : PostingMap) (hm : PostingMap.Valid m) (term : List Char) :
    (GetOrAddPosting m term).Valid := by
  unfold GetOrAddPosting
  cases h : PostingMap.find m term with
  | none => exact empty_valid.1
  | some w => exact (hm.2 _ (find_mem m term w h)).1

/-- The pairs of the writer that the provider returns are pairs of an entry of the map. -/
theorem GetOrAddPosting_flat_mem (m : PostingMap) (term : List Char) (x : Nat × Nat)
    (hx : x ∈ (GetOrAddPosting m term).flat) : ∃ e ∈ m, x ∈ e.2.flat := by
  unfold GetOrAddPosting at hx
  cases h : PostingMap.find m term with
  | none =>
    rw [h] at hx
    simp only [empty_valid.2] at hx
    exact absurd hx (List.not_mem_nil x)
  | some w =>
    rw [h] at hx
    exact ⟨(term, w), find_mem m term w h, hx⟩

/-- A valid writer has records exactly when it holds pairs. -/
theorem flat_ne_nil_iff (w : PostingWriter) (hv : w.Valid) :
    w.flat ≠ [] ↔ w.postingList ≠ [] := by
  constructor
  · intro h hpl
    apply h
    simp [PostingWriter.flat, hpl, flatRecords]
  · intro h hfl
    obtain ⟨r, hr⟩ := List.exists_mem_of_ne_nil _ h
    obtain ⟨p, hp⟩ := List.exists_mem_of_ne_nil _ (hv.1.2 r hr).2.1
    have : (r.docid, p) ∈ w.flat := by
      simp only [PostingWriter.flat, flatRecords, List.mem_flatMap, List.mem_map]
      exact ⟨r, hr, p, hp, rfl⟩
    rw [hfl] at this
    exact absurd this (List.not_mem_nil _)

/-- The commit step: sorting tuples and generating their postings against a valid map whose
docids are all below those of the tuples. It succeeds, the map stays valid, and the writer of
every term holds the pairs it held followed by the pairs of the term in sorted order. -/
theorem commit_spec (m : PostingMap) (hm : PostingMap.Valid m) (ts : List PostingTuple)
    (hbound : ∀ e ∈ m, ∀ x ∈ e.2.flat, ∀ t ∈ ts, x.1 < t.docid) :
    ∃ m1, generateLoop m (stdSort (fun a b => decide (a.key < b.key)) ts) = Except.ok m1 ∧
      PostingMap.Valid m1 ∧
      (∀ term, term ∈ m1.map (fun e => e.1) ↔
        term ∈ m.map (fun e => e.1) ∨ ∃ t ∈ ts, t.term = term) ∧
      ∀ term, (GetOrAddPosting m1 term).Valid ∧
        (GetOrAddPosting m1 term).flat = (GetOrAddPosting m term).flat ++
          pairsOf term (stdSort (fun a b => decide (a.key < b.key)) ts) := by
  have hperm := stdSort_perm (fun a b : PostingTuple => decide (a.key < b.key)) ts
  have hsorted := stdSort_sorted_key PostingTuple.key ts
  have hfeed : ∀ term, ∃ w1,
      (GetOrAddPosting m term).feed
        (pairsOf term (stdSort (fun a b => decide (a.key < b.key)) ts)) = Except.ok w1 ∧
      w1.Valid ∧ w1.flat = (GetOrAddPosting m term).flat ++
        pairsOf term (stdSort (fun a b => decide (a.key < b.key)) ts) := by
    intro term
    apply feed_spec _ _ (GetOrAddPosting_valid m hm term) (pairsOf_sorted term _ hsorted)
    intro x hx y hy
    obtain ⟨e, he, hxe⟩ := GetOrAddPosting_flat_mem m term x hx
    simp only [pairsOf, List.mem_map, List.mem_filter] at hy
    obtain ⟨t, ⟨ht, _⟩, rfl⟩ := hy
    exact Or.inl (hbound e he x hxe t (hperm.mem_iff.mp ht))
  obtain ⟨m1, hm1⟩ := generateLoop_ok _ m (fun term => by
    obtain ⟨w1, h1, _⟩ := hfeed term
    exact ⟨w1, h1⟩)
  have hterm : ∀ term, (GetOrAddPosting m1 term).Valid ∧
      (GetOrAddPosting m1 term).flat = (GetOrAddPosting m term).flat ++
        pairsOf term (stdSort (fun a b => decide (a.key < b.key)) ts) := by
    intro term
    obtain ⟨w1, h1, hv1, hf1⟩ := hfeed term
    have h2 := generateLoop_find _ m m1 hm1 term
    rw [h1] at h2
    simp only [Except.ok.injEq] at h2
    rw [← h2]
    exact ⟨hv1, hf1⟩
  obtain ⟨hnd, hkeys⟩ := generateLoop_keys _ m m1 hm1
  have hkeys2 : ∀ term, term ∈ m1.map (fun e => e.1) ↔
      term ∈ m.map (fun e => e.1) ∨ ∃ t ∈ ts, t.term = term := by
    intro term
    rw [hkeys term]
    constructor
    · rintro (h | ⟨t, ht, h⟩)
      · exact Or.inl h
      · exact Or.inr ⟨t, hperm.mem_iff.mp ht, h⟩
    · rintro (h | ⟨t, ht, h⟩)
      · exact Or.inl h
      · exact Or.inr ⟨t, hperm.mem_iff.mpr ht, h⟩
  refine ⟨m1, hm1, ⟨hnd hm.1, ?_⟩, hkeys2, hterm⟩
  intro e he
  obtain ⟨term, w⟩ := e
  have hfind := find_of_mem m1 (hnd hm.1) term w he
  have hget : GetOrAddPosting m1 term = w := by simp only [GetOrAddPosting, hfind]
  obtain ⟨hv, hf⟩ := hterm term
  rw [hget] at hv hf
  refine ⟨hv, ?_⟩
  rw [← flat_ne_nil_iff w hv, hf]
  have hin : term ∈ m1.map (fun e => e.1) := List.mem_map.mpr ⟨(term, w), he, rfl⟩
  rcases (hkeys2 term).mp hin with h | ⟨t, ht, h⟩
  · obtain ⟨w0, hw0⟩ := (find_isSome_iff m term).mpr h
    have hget0 : GetOrAddPosting m term = w0 := by simp only [GetOrAddPosting, hw0]
    have h0 := hm.2 _ (find_mem m term w0 hw0)
    rw [hget0]
    intro habs
    have := (flat_ne_nil_iff w0 h0.1).mpr h0.2
    exact this (List.append_eq_nil.mp habs).1
  · intro habs
    have hmem : (t.docid, t.pos) ∈
        pairsOf term (stdSort (fun a b => decide (a.key < b.key)) ts) := by
      simp only [pairsOf, List.mem_map, List.mem_filter, decide_eq_true_eq]
      exact ⟨t, ⟨hperm.mem_iff.mpr ht, h⟩, rfl⟩
    rw [(List.append_eq_nil.mp habs).2] at hmem
    exact absurd hmem (List.not_mem_nil _)


/-- In a valid writer `df` is the number of distinct docids among the pairs it holds. -/
theorem Valid_df (w : PostingWriter) (hv : w.Valid) :
    w.df = (w.flat.map Prod.fst).toFinset.card := by
  have hnd : (w.postingList.map (fun r => r.docid)).Nodup :=
    hv.1.1.imp (fun h => Nat.ne_of_lt h)
  have hset : (w.flat.map Prod.fst).toFinset = (w.postingList.map (fun r => r.docid)).toFinset := by
    ext d
    simp only [List.mem_toFinset]
    exact mem_flatRecords_docid w.postingList hv.1 d
  rw [hset, List.toFinset_card_of_nodup hnd, List.length_map]
  exact hv.2.1

/-- In valid records, the positions of a record are the positions of the pairs with its
docid, in their order. -/
theorem RecordsValid_positions (rs : List PostingRecord) (hv : RecordsValid rs) :
    ∀ r ∈ rs, r.positions =
      ((flatRecords rs).filter (fun x => decide (x.1 = r.docid))).map Prod.snd := by
  induction rs with
  | nil => intro r hr; exact absurd hr (List.not_mem_nil r)
  | cons a rs ih =>
    obtain ⟨hdoc, hrec⟩ := hv
    rw [List.map_cons, List.pairwise_cons] at hdoc
    have hvrest : RecordsValid rs := ⟨hdoc.2, fun r hr => hrec r (List.mem_cons_of_mem _ hr)⟩
    have hsplit : flatRecords (a :: rs) =
        a.positions.map (fun p => (a.docid, p)) ++ flatRecords rs := by
      simp [flatRecords]
    intro r hr
    rw [hsplit, List.filter_append, List.map_append]
    rcases List.mem_cons.mp hr with h | h
    · subst h
      have h1 : (r.positions.map (fun p => (r.docid, p))).filter
          (fun x => decide (x.1 = r.docid)) = r.positions.map (fun p => (r.docid, p)) := by
        apply List.filter_eq_self.mpr
        intro x hx
        obtain ⟨p, _, rfl⟩ := List.mem_map.mp hx
        simp
      have h2 : (flatRecords rs).filter (fun x => decide (x.1 = r.docid)) = [] := by
        apply List.filter_eq_nil_iff.mpr
        intro x hx
        simp only [decide_eq_true_eq]
        intro hxd
        have hmem : x.1 ∈ rs.map (fun r => r.docid) :=
          (mem_flatRecords_docid rs hvrest x.1).mp (List.mem_map.mpr ⟨x, hx, rfl⟩)
        have := hdoc.1 x.1 hmem
        omega
      rw [h1, h2]
      simp
    · have hlt : a.docid < r.docid := hdoc.1 _ (List.mem_map.mpr ⟨r, h, rfl⟩)
      have h1 : (a.positions.map (fun p => (a.docid, p))).filter
          (fun x => decide (x.1 = r.docid)) = [] := by
        apply List.filter_eq_nil_iff.mpr
        intro x hx
        obtain ⟨p, _, rfl⟩ := List.mem_map.mp hx
        simp only [decide_eq_true_eq]
        omega
      rw [h1, ih hvrest r h]
      simp

/-- The buffer of the inverter that remains after merging: the tuples of the first inverter
followed by those of the others, in order. -/
theorem foldl_Merge_tuples (rest : List ColumnInverter) :
    ∀ first : ColumnInverter, (rest.foldl ColumnInverter.Merge first).tuples =
      first.tuples ++ rest.flatMap (fun inv => inv.tuples) := by
  induction rest with
  | nil => intro first; simp
  | cons a rest ih =>
    intro first
    rw [List.foldl_cons, ih]
    simp [ColumnInverter.Merge]

/-- The tuples of rows listed one after the other. -/
theorem tuplesOfRows_append (analyzer : List Char → List (List Char × Nat))
    (r1 r2 : List (Nat × List Char)) :
    tuplesOfRows analyzer (r1 ++ r2) = tuplesOfRows analyzer r1 ++ tuplesOfRows analyzer r2 := by
  simp [tuplesOfRows]

/-- The docids of the pairs of a term among the tuples of rows: the row ids of the rows for
which the analyzer emits the term. -/
theorem mem_pairsOf_docid (analyzer : List Char → List (List Char × Nat))
    (rows : List (Nat × List Char)) (term : List Char) (d : Nat) :
    d ∈ (pairsOf term (tuplesOfRows analyzer rows)).map Prod.fst ↔
      d ∈ (rows.filter (fun row => decide (term ∈ (analyzer row.2).map Prod.fst))).map
        Prod.fst := by
  simp only [pairsOf, tuplesOfRows, List.mem_map, List.mem_filter, List.mem_flatMap,
    decide_eq_true_eq, Prod.exists, exists_and_right, exists_eq_right]
  constructor
  · rintro ⟨p, t, ⟨⟨d2, text, hrow, tp, p2, htp, rfl⟩, hterm⟩, h⟩
    simp only [Prod.mk.injEq] at h
    simp only at hterm
    obtain ⟨h1, _⟩ := h
    subst h1
    exact ⟨text, hrow, p2, by rw [← hterm]; exact htp⟩
  · rintro ⟨text, hrow, p2, htp⟩
    exact ⟨p2, ⟨term, d, p2⟩, ⟨⟨d, text, hrow, term, p2, htp, rfl⟩, rfl⟩, rfl⟩

/-- With distinct row ids, the number of distinct docids among the pairs of a term is the
number of rows for which the analyzer emits the term. -/
theorem card_docids_eq_rows (analyzer : List Char → List (List Char × Nat))
    (rows : List (Nat × List Char)) (hinj : (rows.map Prod.fst).Nodup) (term : List Char)
    (L : List (Nat × Nat)) (hL : L.Perm (pairsOf term (tuplesOfRows analyzer rows))) :
    (L.map Prod.fst).toFinset.card =
      (rows.filter (fun row => decide (term ∈ (analyzer row.2).map Prod.fst))).length := by
  have hnd : ((rows.filter (fun row => decide (term ∈ (analyzer row.2).map Prod.fst))).map
      Prod.fst).Nodup :=
    hinj.sublist ((List.filter_sublist rows).map Prod.fst)
  have hset : (L.map Prod.fst).toFinset =
      ((rows.filter (fun row => decide (term ∈ (analyzer row.2).map Prod.fst))).map
        Prod.fst).toFinset := by
    ext d
    simp only [List.mem_toFinset]
    rw [(hL.map Prod.fst).mem_iff]
    exact mem_pairsOf_docid analyzer rows term d
  rw [hset, List.toFinset_card_of_nodup hnd, List.length_map]


/-- The buffer of the merged inverter holds the tuples of all ready inverters, in order. -/
theorem mergeReady_tuples (invs : List ColumnInverter) (merged : ColumnInverter)
    (h : mergeReady invs = some merged) :
    merged.tuples = invs.flatMap (fun inv => inv.tuples) := by
  cases invs with
  | nil => simp [mergeReady] at h
  | cons first rest =>
    simp only [mergeReady, Option.some.injEq] at h
    rw [← h, foldl_Merge_tuples]
    simp

/-- The tuples recorded for a list of slices are the tuples of their rows. -/
theorem slices_tuples (analyzer : List Char → List (List Char × Nat))
    (column : List (List Char)) (slices : List (Nat × Nat × Nat)) :
    (slices.map (fun s => ColumnInverter.InvertColumn { analyzer := analyzer, tuples := [] }
        column s.1 s.2.1 s.2.2)).flatMap (fun inv => inv.tuples) =
      tuplesOfRows analyzer (slicesRows column slices) := by
  induction slices with
  | nil => rfl
  | cons s slices ih =>
    rw [List.map_cons, List.flatMap_cons, ih]
    simp only [slicesRows, List.flatMap_cons, tuplesOfRows_append]
    rfl

/-- What the steps of the inverter test produce: the generation succeeds and gives a valid
term dictionary whose terms are the terms of the recorded tuples, and the writer of every
term holds the pairs of the term in sorted order. -/
theorem invertSlices_spec (analyzer : List Char → List (List Char × Nat))
    (column : List (List Char)) (slices : List (Nat × Nat × Nat)) :
    ∃ m, invertSlices analyzer column slices = Except.ok m ∧ PostingMap.Valid m ∧
      (∀ term, term ∈ m.map (fun e => e.1) ↔
        ∃ t ∈ tuplesOfRows analyzer (slicesRows column slices), t.term = term) ∧
      ∀ term, (GetOrAddPosting m term).Valid ∧
        (GetOrAddPosting m term).flat = pairsOf term
          (stdSort (fun a b => decide (a.key < b.key))
            (tuplesOfRows analyzer (slicesRows column slices))) := by
  have hvalid0 : PostingMap.Valid [] := by decide
  cases hmr : mergeReady (slices.map (fun s =>
      ColumnInverter.InvertColumn { analyzer := analyzer, tuples := [] }
        column s.1 s.2.1 s.2.2)) with
  | none =>
    have hs : slices = [] := by
      cases slices with
      | nil => rfl
      | cons s rest => simp [mergeReady] at hmr
    subst hs
    refine ⟨[], ?_, hvalid0, ?_, ?_⟩
    · simp only [invertSlices, hmr]
    · intro term
      simp [slicesRows, tuplesOfRows]
    · intro term
      refine ⟨empty_valid.1, ?_⟩
      simp [slicesRows, tuplesOfRows, stdSort, pairsOf, GetOrAddPosting, PostingMap.find,
        empty_valid.2]
  | some merged =>
    have ht := (mergeReady_tuples _ merged hmr).trans (slices_tuples analyzer column slices)
    obtain ⟨m1, hm1, hv1, hk1, hterm⟩ := commit_spec [] hvalid0 merged.tuples
      (fun e he => absurd he (List.not_mem_nil e))
    rw [ht] at hm1 hk1 hterm
    refine ⟨m1, ?_, hv1, ?_, ?_⟩
    · simp only [invertSlices, hmr, ColumnInverter.GeneratePosting, ColumnInverter.Sort, ht]
      exact hm1
    · intro term
      rw [hk1 term]
      simp
    · intro term
      obtain ⟨h1, h2⟩ := hterm term
      refine ⟨h1, ?_⟩
      rw [h2]
      simp [GetOrAddPosting, PostingMap.find, empty_valid.2]

/-- Claim C14. For every column and every list of slices whose row ids are pairwise distinct,
inverting the slices, merging, sorting and generating the postings succeeds, and for every
term: the term has a posting writer exactly when the analyzer produced it for some row, and
the `GetDF()` of that writer is the number of rows, that is, of documents, for which the
analyzer produced the term. -/
theorem GetDF_counts_documents (analyzer : List Char → List (List Char × Nat))
    (column : List (List Char)) (slices : List (Nat × Nat × Nat))
    (hinj : ((slicesRows column slices).map Prod.fst).Nodup) :
    ∃ m, invertSlices analyzer column slices = Except.ok m ∧
      ∀ term,
        ((∃ w, PostingMap.find m term = some w) ↔
          ∃ row ∈ slicesRows column slices, term ∈ (analyzer row.2).map Prod.fst) ∧
        ∀ w, PostingMap.find m term = some w →
          w.GetDF = ((slicesRows column slices).filter
            (fun row => decide (term ∈ (analyzer row.2).map Prod.fst))).length := by
  obtain ⟨m, hm, hv, hkeys, hterm⟩ := invertSlices_spec analyzer column slices
  refine ⟨m, hm, fun term => ⟨?_, ?_⟩⟩
  · rw [find_isSome_iff, hkeys term]
    simp only [tuplesOfRows, List.mem_flatMap, List.mem_map, Prod.exists]
    constructor
    · rintro ⟨t, ⟨d, text, hrow, tm, p, htp, rfl⟩, rfl⟩
      exact ⟨d, text, hrow, tm, p, htp, rfl⟩
    · rintro ⟨d, text, hrow, tm, p, htp, rfl⟩
      exact ⟨⟨tm, d, p⟩, ⟨d, text, hrow, tm, p, htp, rfl⟩, rfl⟩
  · intro w hw
    obtain ⟨hvw, hfw⟩ := hterm term
    have hget : GetOrAddPosting m term = w := by simp only [GetOrAddPosting, hw]
    rw [hget] at hvw hfw
    unfold PostingWriter.GetDF
    rw [Valid_df w hvw]
    apply card_docids_eq_rows analyzer _ hinj term
    rw [hfw]
    exact pairsOf_perm term _ _ (stdSort_perm _ _)


/-- Claim C14 at the five test paragraphs, inverted as rows 0 to 2 and rows 3 to 4: the row
ids are distinct, the analyzer produces `fst` for 3 rows and `automaton` and `transducer` for
2 rows each, and the general statement applies, so these are the values of `GetDF()`. -/
theorem GetDF_counts_documents_witness :
    ((slicesRows paragraphs testSlices).map Prod.fst).Nodup ∧
      ((slicesRows paragraphs testSlices).filter
        (fun row => decide ("fst".toList ∈ (standardAnalyzer row.2).map Prod.fst))).length = 3 ∧
      ((slicesRows paragraphs testSlices).filter
        (fun row => decide ("automaton".toList ∈
          (standardAnalyzer row.2).map Prod.fst))).length = 2 ∧
      ((slicesRows paragraphs testSlices).filter
        (fun row => decide ("transducer".toList ∈
          (standardAnalyzer row.2).map Prod.fst))).length = 2 ∧
      ∃ m, invertSlices standardAnalyzer paragraphs testSlices = Except.ok m ∧
        ∀ term,
          ((∃ w, PostingMap.find m term = some w) ↔
            ∃ row ∈ slicesRows paragraphs testSlices,
              term ∈ (standardAnalyzer row.2).map Prod.fst) ∧
          ∀ w, PostingMap.find m term = some w →
            w.GetDF = ((slicesRows paragraphs testSlices).filter
              (fun row => decide (term ∈ (standardAnalyzer row.2).map Prod.fst))).length :=
  ⟨by decide, by decide, by decide, by decide,
    GetDF_counts_documents standardAnalyzer paragraphs testSlices (by decide)⟩


/-- The record on which `SeekDoc` stops is a record of the posting list, it carries the docid
returned, and that docid is at least the target. -/
theorem SeekDoc_current (inv : Nat) (it : PostingIterator) (x : Nat) (r : PostingRecord)
    (h : (it.SeekDoc inv x).2.current = some r) :
    r ∈ it.records ∧ (it.SeekDoc inv x).1 = r.docid ∧ x ≤ r.docid := by
  unfold PostingIterator.SeekDoc at h ⊢
  cases hf : it.records.find? (fun r => decide (x ≤ r.docid)) with
  | none => rw [hf] at h; simp at h
  | some r2 =>
    rw [hf] at h
    simp only [Option.some.injEq] at h
    subst h
    have h1 := List.find?_some hf
    simp only [decide_eq_true_eq] at h1
    exact ⟨List.mem_of_find?_eq_some hf, rfl, h1⟩

/-- The rows of a slice cut in two consecutive slices. -/
theorem sliceRows_add (column : List (List Char)) (row_offset n k row_id_base : Nat) :
    sliceRows column row_offset (n + k) row_id_base =
      sliceRows column row_offset n row_id_base ++
        sliceRows column (row_offset + n) k (row_id_base + n) := by
  unfold sliceRows
  rw [List.range_add, List.map_append, List.map_map]
  congr 1
  apply List.map_congr_left
  intro i _
  simp only [Function.comp, Nat.add_assoc]

/-- The row ids of the rows of a slice run from the base up. -/
theorem mem_sliceRows (column : List (List Char)) (row_offset n row_id_base : Nat)
    (row : Nat × List Char) (h : row ∈ sliceRows column row_offset n row_id_base) :
    row_id_base ≤ row.1 ∧ row.1 < row_id_base + n := by
  unfold sliceRows at h
  obtain ⟨i, hi, rfl⟩ := List.mem_map.mp h
  rw [List.mem_range] at hi
  simp only
  omega

/-- The row ids of the rows of a slice are pairwise distinct. -/
theorem sliceRows_nodup (column : List (List Char)) (row_offset n row_id_base : Nat) :
    ((sliceRows column row_offset n row_id_base).map Prod.fst).Nodup := by
  unfold sliceRows
  rw [List.map_map]
  apply List.Nodup.map_on _ (List.nodup_range n)
  intro a _ b _ h
  simp only [Function.comp] at h
  omega

/-- What a sequence of consecutive `Insert` calls does: the term dictionary and the settings
stay, the row count grows by the number of rows, and the ready queue gains inverters whose
tuples are the tuples of the inserted rows, with the next free row ids. -/
theorem InsertAll_spec (column : List (List Char)) (counts : List Nat) :
    ∀ (ix : MemoryIndexer) (row_offset : Nat),
      (ix.InsertAll column row_offset counts).postings = ix.postings ∧
      (ix.InsertAll column row_offset counts).chunk_name = ix.chunk_name ∧
      (ix.InsertAll column row_offset counts).base_row_id = ix.base_row_id ∧
      (ix.InsertAll column row_offset counts).analyzer = ix.analyzer ∧
      (ix.InsertAll column row_offset counts).doc_count = ix.doc_count + counts.sum ∧
      (ix.InsertAll column row_offset counts).readyTuples = ix.readyTuples ++
        tuplesOfRows ix.analyzer
          (sliceRows column row_offset counts.sum (ix.base_row_id + ix.doc_count)) := by
  induction counts with
  | nil =>
    intro ix row_offset
    simp [MemoryIndexer.InsertAll, sliceRows, tuplesOfRows]
  | cons n counts ih =>
    intro ix row_offset
    obtain ⟨h1, h2, h3, h4, h5, h6⟩ := ih (ix.Insert column row_offset n) (row_offset + n)
    simp only [MemoryIndexer.InsertAll]
    refine ⟨h1, h2, h3, h4, ?_, ?_⟩
    · rw [h5]
      simp only [MemoryIndexer.Insert, List.sum_cons]
      omega
    · rw [h6, List.sum_cons, sliceRows_add, tuplesOfRows_append]
      simp only [MemoryIndexer.Insert, MemoryIndexer.readyTuples, List.flatMap_append,
        List.flatMap_cons, List.flatMap_nil, List.append_nil, ColumnInverter.InvertColumn,
        List.nil_append, List.append_assoc, Nat.add_assoc]

/-- `CommitSync` in one formula: the tuples of the ready queue are sorted and their postings
generated against the live writers, and the queue is left empty. -/
theorem CommitSync_eq (ix : MemoryIndexer) :
    ix.CommitSync =
      match generateLoop ix.postings
          (stdSort (fun a b => decide (a.key < b.key)) ix.readyTuples) with
      | Except.error e => Except.error e
      | Except.ok postings => Except.ok { ix with postings := postings, ready := [] } := by
  unfold MemoryIndexer.CommitSync
  cases hmr : mergeReady ix.ready with
  | none =>
    have hr : ix.ready = [] := by
      cases hready : ix.ready with
      | nil => rfl
      | cons a l => rw [hready] at hmr; simp [mergeReady] at hmr
    simp only [MemoryIndexer.readyTuples, hr, List.flatMap_nil, stdSort, List.foldl_nil,
      generateLoop]
    cases ix
    simp only at hr
    subst hr
    rfl
  | some merged =>
    have ht := mergeReady_tuples ix.ready merged hmr
    simp only [ColumnInverter.GeneratePosting, ColumnInverter.Sort, ht,
      MemoryIndexer.readyTuples]


/-- A fresh indexer satisfies the invariants of a drained indexer. -/
theorem new_Committed (chunk_name : String) (base_row_id : Nat)
    (analyzer : List Char → List (List Char × Nat)) :
    (MemoryIndexer.new chunk_name base_row_id analyzer).Committed := by
  have hv : PostingMap.Valid [] := by decide
  refine ⟨rfl, hv, ?_⟩
  intro e he
  exact absurd he (List.not_mem_nil e)

/-- Consecutive `Insert` calls followed by `CommitSync` on a drained indexer: the commit
succeeds and leaves a drained indexer, and the writer of every term holds the pairs it held
followed by the pairs of the term among the inserted rows, in sorted order. -/
theorem InsertAll_CommitSync_spec (ix : MemoryIndexer) (hc : ix.Committed)
    (column : List (List Char)) (row_offset : Nat) (counts : List Nat) :
    ∃ ix2, (ix.InsertAll column row_offset counts).CommitSync = Except.ok ix2 ∧
      ix2.Committed ∧ ix2.base_row_id = ix.base_row_id ∧ ix2.chunk_name = ix.chunk_name ∧
      ix2.doc_count = ix.doc_count + counts.sum ∧
      (∀ term, term ∈ ix2.postings.map (fun e => e.1) ↔
        term ∈ ix.postings.map (fun e => e.1) ∨
          ∃ t ∈ tuplesOfRows ix.analyzer
            (sliceRows column row_offset counts.sum (ix.base_row_id + ix.doc_count)),
            t.term = term) ∧
      ∀ term, (GetOrAddPosting ix2.postings term).Valid ∧
        (GetOrAddPosting ix2.postings term).flat = (GetOrAddPosting ix.postings term).flat ++
          pairsOf term (stdSort (fun a b => decide (a.key < b.key))
            (tuplesOfRows ix.analyzer
              (sliceRows column row_offset counts.sum (ix.base_row_id + ix.doc_count)))) := by
  obtain ⟨hready, hvalid, hbound⟩ := hc
  obtain ⟨h1, h2, h3, h4, h5, h6⟩ := InsertAll_spec column counts ix row_offset
  have hrt : ix.readyTuples = [] := by simp [MemoryIndexer.readyTuples, hready]
  rw [hrt, List.nil_append] at h6
  have hdocid : ∀ t ∈ tuplesOfRows ix.analyzer
      (sliceRows column row_offset counts.sum (ix.base_row_id + ix.doc_count)),
      ix.base_row_id + ix.doc_count ≤ t.docid ∧
        t.docid < ix.base_row_id + ix.doc_count + counts.sum := by
    intro t ht
    simp only [tuplesOfRows, List.mem_flatMap, List.mem_map] at ht
    obtain ⟨row, hrow, tp, _, rfl⟩ := ht
    exact mem_sliceRows column _ _ _ row hrow
  obtain ⟨m1, hm1, hv1, hk1, hterm⟩ := commit_spec ix.postings hvalid
    (tuplesOfRows ix.analyzer
      (sliceRows column row_offset counts.sum (ix.base_row_id + ix.doc_count)))
    (fun e he x hx t ht => by
      have := hbound e he x hx
      have := (hdocid t ht).1
      omega)
  refine ⟨{ (ix.InsertAll column row_offset counts) with postings := m1, ready := [] },
    ?_, ⟨rfl, hv1, ?_⟩, h3, h2, h5, hk1, hterm⟩
  · rw [CommitSync_eq, h1, h6, hm1]
  · intro e he x hx
    simp only at he ⊢
    rw [h3, h5]
    obtain ⟨term, w⟩ := e
    have hfind := find_of_mem m1 hv1.1 term w he
    have hget : GetOrAddPosting m1 term = w := by simp only [GetOrAddPosting, hfind]
    have hf := (hterm term).2
    rw [hget] at hf
    simp only at hx
    rw [hf] at hx
    rcases List.mem_append.mp hx with h | h
    · obtain ⟨e0, he0, hx0⟩ := GetOrAddPosting_flat_mem ix.postings term x h
      have := hbound e0 he0 x hx0
      omega
    · simp only [pairsOf, List.mem_map, List.mem_filter] at h
      obtain ⟨t, ⟨ht, _⟩, rfl⟩ := h
      have := (hdocid t ((stdSort_perm _ _).mem_iff.mp ht)).2
      simp only
      omega

/-- Claim C18. For every indexer and column, two partitions of the same row range into
consecutive `Insert` calls leave, after `CommitSync`, the same indexer, hence for every term
the same sequence of `(docid, tf, positions)`; the order in which the finished inverters
stand in the ready queue does not change the result either; and on a drained indexer the
commit succeeds and every posting list is valid, in particular ordered by docid. -/
theorem Insert_partition_independent (ix : MemoryIndexer) (column : List (List Char))
    (row_offset : Nat) (counts1 counts2 : List Nat) (hsum : counts1.sum = counts2.sum) :
    (ix.InsertAll column row_offset counts1).CommitSync =
        (ix.InsertAll column row_offset counts2).CommitSync ∧
      (∀ ready : List ColumnInverter, ready.Perm (ix.InsertAll column row_offset counts1).ready →
        MemoryIndexer.CommitSync
            { (ix.InsertAll column row_offset counts1) with ready := ready } =
          (ix.InsertAll column row_offset counts1).CommitSync) ∧
      (ix.Committed →
        ∃ ix1 ix2, (ix.InsertAll column row_offset counts1).CommitSync = Except.ok ix1 ∧
          (ix.InsertAll column row_offset counts2).CommitSync = Except.ok ix2 ∧
          ∀ term, ix1.postingOf term = ix2.postingOf term ∧
            RecordsValid (ix1.postingOf term)) := by
  obtain ⟨a1, a2, a3, a4, a5, a6⟩ := InsertAll_spec column counts1 ix row_offset
  obtain ⟨b1, b2, b3, b4, b5, b6⟩ := InsertAll_spec column counts2 ix row_offset
  have heq : (ix.InsertAll column row_offset counts1).CommitSync =
      (ix.InsertAll column row_offset counts2).CommitSync := by
    rw [CommitSync_eq, CommitSync_eq, a1, b1, a6, b6, hsum]
    cases generateLoop ix.postings (stdSort (fun a b => decide (a.key < b.key))
        (ix.readyTuples ++ tuplesOfRows ix.analyzer
          (sliceRows column row_offset counts2.sum (ix.base_row_id + ix.doc_count)))) with
    | error e => rfl
    | ok postings =>
      simp only [Except.ok.injEq]
      cases h1 : ix.InsertAll column row_offset counts1
      cases h2 : ix.InsertAll column row_offset counts2
      rw [h1] at a2 a3 a4 a5
      rw [h2] at b2 b3 b4 b5
      simp only at a2 a3 a4 a5 b2 b3 b4 b5
      simp only [MemoryIndexer.mk.injEq, and_true, true_and]
      exact ⟨a2.trans b2.symm, a3.trans b3.symm, a4.trans b4.symm,
        by rw [a5, b5, hsum]⟩
  refine ⟨heq, ?_, ?_⟩
  · intro ready hperm
    rw [CommitSync_eq, CommitSync_eq]
    have hp : (MemoryIndexer.readyTuples
        { (ix.InsertAll column row_offset counts1) with ready := ready }).Perm
        (ix.InsertAll column row_offset counts1).readyTuples := by
      simp only [MemoryIndexer.readyTuples]
      exact hperm.flatMap_right _
    rw [stdSort_eq_of_perm PostingTuple.key PostingTuple.key_injective _ _ hp]
  · intro hc
    obtain ⟨ix1, hix1, hc1, _, _, _, _, hterm⟩ :=
      InsertAll_CommitSync_spec ix hc column row_offset counts1
    refine ⟨ix1, ix1, hix1, by rw [← heq]; exact hix1, fun term => ⟨rfl, ?_⟩⟩
    exact (hterm term).1.1


/-- Claim C18 at the test paragraphs and the two partitions of the unit tests, rows 0 to 4 as
`(0,1),(1,3),(4,1)` and as `(0,2),(2,2),(4,1)`: both cover five rows and leave the same
indexer after the commit. -/
theorem Insert_partition_independent_witness :
    ([1, 3, 1] : List Nat).sum = ([2, 2, 1] : List Nat).sum ∧
      ((MemoryIndexer.new "chunk1" 0 standardAnalyzer).InsertAll paragraphs 0
          [1, 3, 1]).CommitSync =
        ((MemoryIndexer.new "chunk1" 0 standardAnalyzer).InsertAll paragraphs 0
          [2, 2, 1]).CommitSync :=
  ⟨by decide,
    (Insert_partition_independent (MemoryIndexer.new "chunk1" 0 standardAnalyzer) paragraphs 0
      [1, 3, 1] [2, 2, 1] (by decide)).1⟩

/-- The pairs of a term over rows listed one after the other. -/
theorem pairsOf_append (term : List Char) (ts1 ts2 : List PostingTuple) :
    pairsOf term (ts1 ++ ts2) = pairsOf term ts1 ++ pairsOf term ts2 := by
  simp [pairsOf]

/-- With distinct row ids, the pairs of a term that carry the id of a row are the positions
at which the analyzer emits the term for the text of that row, in the order of the analyzer. -/
theorem pairsOf_row (analyzer : List Char → List (List Char × Nat)) (term : List Char)
    (d : Nat) (text : List Char) :
    ∀ rows : List (Nat × List Char), (rows.map Prod.fst).Nodup → (d, text) ∈ rows →
      (pairsOf term (tuplesOfRows analyzer rows)).filter (fun x => decide (x.1 = d)) =
        ((analyzer text).filter (fun tp => decide (tp.1 = term))).map (fun tp => (d, tp.2)) := by
  intro rows
  induction rows with
  | nil => intro _ h; exact absurd h (List.not_mem_nil _)
  | cons row rows ih =>
    intro hnd hmem
    rw [List.map_cons, List.nodup_cons] at hnd
    have hsplit : tuplesOfRows analyzer (row :: rows) =
        (analyzer row.2).map (fun tp => (⟨tp.1, row.1, tp.2⟩ : PostingTuple)) ++
          tuplesOfRows analyzer rows := by
      simp [tuplesOfRows]
    have hhead : pairsOf term
        ((analyzer row.2).map (fun tp => (⟨tp.1, row.1, tp.2⟩ : PostingTuple))) =
        ((analyzer row.2).filter (fun tp => decide (tp.1 = term))).map
          (fun tp => (row.1, tp.2)) := by
      simp only [pairsOf, List.filter_map, List.map_map]
      rfl
    rw [hsplit, pairsOf_append, List.filter_append, hhead]
    rcases List.mem_cons.mp hmem with h | h
    · subst h
      have h1 : (((analyzer text).filter (fun tp => decide (tp.1 = term))).map
          (fun tp => (d, tp.2))).filter (fun x => decide (x.1 = d)) =
          ((analyzer text).filter (fun tp => decide (tp.1 = term))).map
            (fun tp => (d, tp.2)) := by
        apply List.filter_eq_self.mpr
        intro x hx
        obtain ⟨tp, _, rfl⟩ := List.mem_map.mp hx
        simp
      have h2 : (pairsOf term (tuplesOfRows analyzer rows)).filter
          (fun x => decide (x.1 = d)) = [] := by
        apply List.filter_eq_nil_iff.mpr
        intro x hx
        simp only [decide_eq_true_eq]
        intro hxd
        apply hnd.1
        have hx1 : x.1 ∈ (pairsOf term (tuplesOfRows analyzer rows)).map Prod.fst :=
          List.mem_map.mpr ⟨x, hx, rfl⟩
        rw [mem_pairsOf_docid] at hx1
        obtain ⟨row2, hrow2, hfst⟩ := List.mem_map.mp hx1
        exact List.mem_map.mpr ⟨row2, (List.mem_filter.mp hrow2).1, hfst.trans hxd⟩
      rw [h1, h2, List.append_nil]
    · have hne : row.1 ≠ d := by
        intro hrd
        apply hnd.1
        rw [hrd]
        exact List.mem_map.mpr ⟨(d, text), h, rfl⟩
      have h1 : (((analyzer row.2).filter (fun tp => decide (tp.1 = term))).map
          (fun tp => (row.1, tp.2))).filter (fun x => decide (x.1 = d)) = [] := by
        apply List.filter_eq_nil_iff.mpr
        intro x hx
        obtain ⟨tp, _, rfl⟩ := List.mem_map.mp hx
        simp only [decide_eq_true_eq]
        exact hne
      rw [h1, List.nil_append]
      exact ih hnd.2 h

/-- The records of a valid writer that holds the sorted pairs of a term over rows with
distinct row ids: every record belongs to a row, and its positions are, up to their order,
the positions at which the analyzer emits the term for the text of the row. -/
theorem record_of_rows (analyzer : List Char → List (List Char × Nat)) (term : List Char)
    (rows : List (Nat × List Char)) (hnd : (rows.map Prod.fst).Nodup) (w : PostingWriter)
    (hv : w.Valid)
    (hflat : w.flat = pairsOf term (stdSort (fun a b => decide (a.key < b.key))
      (tuplesOfRows analyzer rows)))
    (r : PostingRecord) (hr : r ∈ w.postingList) :
    ∃ text, (r.docid, text) ∈ rows ∧
      r.positions.Perm
        (((analyzer text).filter (fun tp => decide (tp.1 = term))).map Prod.snd) := by
  have hpos := RecordsValid_positions w.postingList hv.1 r hr
  have hperm : (pairsOf term (stdSort (fun a b => decide (a.key < b.key))
      (tuplesOfRows analyzer rows))).Perm (pairsOf term (tuplesOfRows analyzer rows)) :=
    pairsOf_perm term _ _ (stdSort_perm _ _)
  have hd : r.docid ∈ (pairsOf term (tuplesOfRows analyzer rows)).map Prod.fst := by
    rw [← (hperm.map Prod.fst).mem_iff, ← hflat]
    exact (mem_flatRecords_docid w.postingList hv.1 r.docid).mpr
      (List.mem_map.mpr ⟨r, hr, rfl⟩)
  rw [mem_pairsOf_docid] at hd
  obtain ⟨row, hrow, hfst⟩ := List.mem_map.mp hd
  have hmem : (r.docid, row.2) ∈ rows := by
    rw [← hfst]
    exact (List.mem_filter.mp hrow).1
  refine ⟨row.2, hmem, ?_⟩
  rw [hpos]
  have h1 : w.flat = flatRecords w.postingList := rfl
  rw [← h1, hflat]
  have h2 := (hperm.filter (fun x => decide (x.1 = r.docid))).map Prod.snd
  refine h2.trans ?_
  rw [pairsOf_row analyzer term r.docid row.2 rows hnd hmem, List.map_map]
  exact List.Perm.refl _


/-- The iterator of a term over an indexer decodes the posting list that the indexer holds
for the term. -/
theorem termIterator_records (ix : MemoryIndexer) (term : List Char) :
    (ix.termIterator term).records = ix.postingOf term := by
  unfold MemoryIndexer.termIterator MemoryIndexer.GetSegmentPosting MemoryIndexer.postingOf
    GetOrAddPosting
  cases PostingMap.find ix.postings term with
  | none => rfl
  | some w => simp [PostingIterator.Init, PostingIterator.records, SegmentPosting.Init]

/-- In a posting list with strictly increasing docids, the first record whose docid is at
least the docid of a listed record is that record. -/
theorem find_record_of_mem (rs : List PostingRecord)
    (hs : (rs.map (fun r => r.docid)).Pairwise (fun a b => a < b)) (r0 : PostingRecord)
    (h : r0 ∈ rs) :
    rs.find? (fun r => decide (r0.docid ≤ r.docid)) = some r0 := by
  induction rs with
  | nil => exact absurd h (List.not_mem_nil _)
  | cons a rs ih =>
    rw [List.map_cons, List.pairwise_cons] at hs
    rcases List.mem_cons.mp h with h1 | h1
    · subst h1
      rw [List.find?_cons_of_pos _ (by simp)]
    · have hlt : a.docid < r0.docid := hs.1 r0.docid (List.mem_map.mpr ⟨r0, h1, rfl⟩)
      rw [List.find?_cons_of_neg _ (by simp only [decide_eq_true_eq]; omega)]
      exact ih hs.2 h1

/-- On an iterator over strictly increasing docids, `SeekDoc` to the docid of a listed record
returns that docid and stops on that record. -/
theorem SeekDoc_of_mem (inv : Nat) (it : PostingIterator)
    (hs : it.docids.Pairwise (fun a b => a < b)) (r0 : PostingRecord) (h : r0 ∈ it.records) :
    (it.SeekDoc inv r0.docid).1 = r0.docid ∧ (it.SeekDoc inv r0.docid).2.current = some r0 := by
  unfold PostingIterator.SeekDoc
  rw [find_record_of_mem it.records hs r0 h]
  exact ⟨rfl, rfl⟩

/-- The positions of a record of a valid writer that holds the sorted pairs of a term over
rows with distinct row ids: up to their order, the positions at which the analyzer emits the
term for the text of the row that has the docid of the record. -/
theorem record_positions_of_row (analyzer : List Char → List (List Char × Nat))
    (term : List Char) (rows : List (Nat × List Char)) (hnd : (rows.map Prod.fst).Nodup)
    (w : PostingWriter) (hv : w.Valid)
    (hflat : w.flat = pairsOf term (stdSort (fun a b => decide (a.key < b.key))
      (tuplesOfRows analyzer rows)))
    (r : PostingRecord) (hr : r ∈ w.postingList) (text : List Char)
    (hmem : (r.docid, text) ∈ rows) :
    r.positions.Perm
      (((analyzer text).filter (fun tp => decide (tp.1 = term))).map Prod.snd) := by
  have hpos := RecordsValid_positions w.postingList hv.1 r hr
  have hperm : (pairsOf term (stdSort (fun a b => decide (a.key < b.key))
      (tuplesOfRows analyzer rows))).Perm (pairsOf term (tuplesOfRows analyzer rows)) :=
    pairsOf_perm term _ _ (stdSort_perm _ _)
  rw [hpos]
  have h1 : w.flat = flatRecords w.postingList := rfl
  rw [← h1, hflat]
  have h2 := (hperm.filter (fun x => decide (x.1 = r.docid))).map Prod.snd
  refine h2.trans ?_
  rw [pairsOf_row analyzer term r.docid text rows hnd hmem, List.map_map]
  exact List.Perm.refl _

/-- A fresh indexer after consecutive `Insert` calls and `CommitSync`: the commit succeeds;
the posting list of every term is valid; every record in it belongs to an inserted row; and
for every inserted row for whose text the analyzer emits the term, the posting list of the
term has a record with the row id of that row, whose positions are, up to their order, the
positions at which the analyzer emits the term for that text. -/
theorem fresh_index_rows (chunk_name : String) (base_row_id : Nat)
    (analyzer : List Char → List (List Char × Nat)) (column : List (List Char))
    (row_offset : Nat) (counts : List Nat) :
    ∃ ix, ((MemoryIndexer.new chunk_name base_row_id analyzer).InsertAll column row_offset
        counts).CommitSync = Except.ok ix ∧
      ∀ term, RecordsValid (ix.postingOf term) ∧
        (∀ r ∈ ix.postingOf term,
          ∃ text, (r.docid, text) ∈ sliceRows column row_offset counts.sum base_row_id ∧
            r.positions.Perm
              (((analyzer text).filter (fun tp => decide (tp.1 = term))).map Prod.snd)) ∧
        ∀ d text, (d, text) ∈ sliceRows column row_offset counts.sum base_row_id →
          term ∈ (analyzer text).map Prod.fst →
          ∃ r ∈ ix.postingOf term, r.docid = d ∧
            r.positions.Perm
              (((analyzer text).filter (fun tp => decide (tp.1 = term))).map Prod.snd) := by
  obtain ⟨ix, hix, _, _, _, _, _, hterm⟩ := InsertAll_CommitSync_spec
    (MemoryIndexer.new chunk_name base_row_id analyzer)
    (new_Committed chunk_name base_row_id analyzer) column row_offset counts
  refine ⟨ix, hix, fun term => ?_⟩
  obtain ⟨hv, hf⟩ := hterm term
  have hnd := sliceRows_nodup column row_offset counts.sum base_row_id
  have hf2 : (GetOrAddPosting ix.postings term).flat =
      pairsOf term (stdSort (fun a b => decide (a.key < b.key))
        (tuplesOfRows analyzer (sliceRows column row_offset counts.sum base_row_id))) := by
    rw [hf]
    simp [MemoryIndexer.new, GetOrAddPosting, PostingMap.find, empty_valid.2]
  refine ⟨hv.1, fun r hr => ?_, fun d text hrow hemit => ?_⟩
  · exact record_of_rows analyzer term _ hnd _ hv hf2 r hr
  · have hperm : (pairsOf term (stdSort (fun a b => decide (a.key < b.key))
        (tuplesOfRows analyzer (sliceRows column row_offset counts.sum base_row_id)))).Perm
        (pairsOf term
          (tuplesOfRows analyzer (sliceRows column row_offset counts.sum base_row_id))) :=
      pairsOf_perm term _ _ (stdSort_perm _ _)
    have hd : d ∈ (flatRecords (GetOrAddPosting ix.postings term).postingList).map
        Prod.fst := by
      have h1 : (GetOrAddPosting ix.postings term).flat =
          flatRecords (GetOrAddPosting ix.postings term).postingList := rfl
      rw [← h1, hf2, (hperm.map Prod.fst).mem_iff, mem_pairsOf_docid]
      exact List.mem_map.mpr ⟨(d, text),
        List.mem_filter.mpr ⟨hrow, by simpa using hemit⟩, rfl⟩
    rw [mem_flatRecords_docid _ hv.1] at hd
    obtain ⟨r, hr, hrd⟩ := List.mem_map.mp hd
    refine ⟨r, hr, hrd, ?_⟩
    exact record_positions_of_row analyzer term _ hnd _ hv hf2 r hr text (by rw [hrd]; exact hrow)


/-- Claim C16. For every column indexed by a fresh memory indexer through consecutive `Insert`
calls and `CommitSync`, the commit succeeds and, for every term: every inserted row for whose
text the analyzer produced the term is found, `SeekDoc` to its row id returns that row id and
stops on a record, and `GetCurrentTF()` is then the number of times the analyzer produced the
term for the text of the row, which is the number of positions stored in the record and is
not zero; and whenever `SeekDoc` returns a docid together with a record, the docid is that of
the record, `GetCurrentTF()` is the `tf` of the record, which is the number of positions
stored in the record, and the docid is the row id of an inserted row for whose text the
analyzer produced the term exactly `tf` times. -/
theorem GetCurrentTF_counts_occurrences (inv : Nat) (chunk_name : String) (base_row_id : Nat)
    (analyzer : List Char → List (List Char × Nat)) (column : List (List Char))
    (row_offset : Nat) (counts : List Nat) :
    ∃ ix, ((MemoryIndexer.new chunk_name base_row_id analyzer).InsertAll column row_offset
        counts).CommitSync = Except.ok ix ∧
      (∀ term x r, ((ix.termIterator term).SeekDoc inv x).2.current = some r →
        ((ix.termIterator term).SeekDoc inv x).1 = r.docid ∧
        ((ix.termIterator term).SeekDoc inv x).2.GetCurrentTF = some r.tf ∧
        r.tf = r.positions.length ∧
        ∃ text, (r.docid, text) ∈ sliceRows column row_offset counts.sum base_row_id ∧
          r.tf = ((analyzer text).filter (fun tp => decide (tp.1 = term))).length) ∧
      (∀ term d text, (d, text) ∈ sliceRows column row_offset counts.sum base_row_id →
        term ∈ (analyzer text).map Prod.fst →
        ((ix.termIterator term).SeekDoc inv d).1 = d ∧
        ((ix.termIterator term).SeekDoc inv d).2.GetCurrentTF =
          some ((analyzer text).filter (fun tp => decide (tp.1 = term))).length ∧
        0 < ((analyzer text).filter (fun tp => decide (tp.1 = term))).length ∧
        ∃ r, ((ix.termIterator term).SeekDoc inv d).2.current = some r ∧ r.docid = d ∧
          r.tf = r.positions.length ∧
          r.tf = ((analyzer text).filter (fun tp => decide (tp.1 = term))).length) := by
  obtain ⟨ix, hix, hterm⟩ :=
    fresh_index_rows chunk_name base_row_id analyzer column row_offset counts
  refine ⟨ix, hix, fun term x r hcur => ?_, fun term d text hrow hemit => ?_⟩
  · obtain ⟨hmem, hdoc, _⟩ := SeekDoc_current inv (ix.termIterator term) x r hcur
    rw [termIterator_records] at hmem
    obtain ⟨hv, hrec, _⟩ := hterm term
    obtain ⟨text, htext, hperm⟩ := hrec r hmem
    have htf := (hv.2 r hmem).1
    refine ⟨hdoc, ?_, htf, text, htext, ?_⟩
    · simp only [PostingIterator.GetCurrentTF, hcur, Option.map_some']
    · rw [htf, hperm.length_eq, List.length_map]
  · obtain ⟨hv, _, hfound⟩ := hterm term
    obtain ⟨r, hr, hrd, hperm⟩ := hfound d text hrow hemit
    have hsorted : (ix.termIterator term).docids.Pairwise (fun a b => a < b) := by
      unfold PostingIterator.docids
      rw [termIterator_records]
      exact hv.1
    have hrit : r ∈ (ix.termIterator term).records := by
      rw [termIterator_records]
      exact hr
    obtain ⟨h1, h2⟩ := SeekDoc_of_mem inv (ix.termIterator term) hsorted r hrit
    rw [hrd] at h1 h2
    have htf := (hv.2 r hr).1
    have hcount : r.tf = ((analyzer text).filter (fun tp => decide (tp.1 = term))).length := by
      rw [htf, hperm.length_eq, List.length_map]
    have hpos : 0 < r.tf := by
      rw [htf]
      exact List.length_pos.mpr (hv.2 r hr).2.1
    refine ⟨h1, ?_, by omega, r, h2, hrd, htf, hcount⟩
    simp only [PostingIterator.GetCurrentTF, h2, Option.map_some', hcount]


/-- Claim C16 at the unit tests. Three rows that hold `A B C` seven times, inserted into a new
indexer and committed, give the indexer `abcCommitted`, on which `SeekDoc(d)` returns `d` and
`GetCurrentTF()` returns 7 for the term `a` and each of the rows 0, 1 and 2. The five test
paragraphs, inserted as rows `(0,2),(2,2),(4,1)`, commit to an indexer on which, by the general
statement, `SeekDoc` returns 0, 1 and 2 for the term `fst` with the term frequencies 4, 2 and
2. -/
theorem GetCurrentTF_counts_occurrences_witness :
    ((MemoryIndexer.new "chunk1" 0 standardAnalyzer).InsertAll [abcText, abcText, abcText] 0
        [3]).CommitSync = Except.ok abcCommitted ∧
      (∀ d ∈ [0, 1, 2],
        ((abcCommitted.termIterator "a".toList).SeekDoc 4294967295 d).1 = d ∧
        ((abcCommitted.termIterator "a".toList).SeekDoc 4294967295 d).2.GetCurrentTF =
          some 7) ∧
      ∃ ix, ((MemoryIndexer.new "chunk1" 0 standardAnalyzer).InsertAll paragraphs 0
          [2, 2, 1]).CommitSync = Except.ok ix ∧
        ((ix.termIterator "fst".toList).SeekDoc 4294967295 0).1 = 0 ∧
        ((ix.termIterator "fst".toList).SeekDoc 4294967295 0).2.GetCurrentTF = some 4 ∧
        ((ix.termIterator "fst".toList).SeekDoc 4294967295 1).1 = 1 ∧
        ((ix.termIterator "fst".toList).SeekDoc 4294967295 1).2.GetCurrentTF = some 2 ∧
        ((ix.termIterator "fst".toList).SeekDoc 4294967295 2).1 = 2 ∧
        ((ix.termIterator "fst".toList).SeekDoc 4294967295 2).2.GetCurrentTF = some 2 := by
  refine ⟨rfl, by decide, ?_⟩
  obtain ⟨ix, hix, _, hfound⟩ := GetCurrentTF_counts_occurrences 4294967295 "chunk1" 0
    standardAnalyzer paragraphs 0 [2, 2, 1]
  have h0 := hfound "fst".toList 0 (paragraphs.getD 0 [])
    (List.mem_map.mpr ⟨0, by decide, rfl⟩) (by decide)
  have h1 := hfound "fst".toList 1 (paragraphs.getD 1 [])
    (List.mem_map.mpr ⟨1, by decide, rfl⟩) (by decide)
  have h2 := hfound "fst".toList 2 (paragraphs.getD 2 [])
    (List.mem_map.mpr ⟨2, by decide, rfl⟩) (by decide)
  have c0 : ((standardAnalyzer (paragraphs.getD 0 [])).filter
      (fun tp => decide (tp.1 = "fst".toList))).length = 4 := by decide
  have c1 : ((standardAnalyzer (paragraphs.getD 1 [])).filter
      (fun tp => decide (tp.1 = "fst".toList))).length = 2 := by decide
  have c2 : ((standardAnalyzer (paragraphs.getD 2 [])).filter
      (fun tp => decide (tp.1 = "fst".toList))).length = 2 := by decide
  rw [c0] at h0
  rw [c1] at h1
  rw [c2] at h2
  exact ⟨ix, hix, h0.1, h0.2.1, h1.1, h1.2.1, h2.1, h2.2.1⟩


/-- In a strictly increasing list, the elements from `pos` on are the first of them followed
by the elements above it. -/
theorem filter_ge_of_find (L : List Nat) (hs : L.Pairwise (fun a b => a < b)) (pos p : Nat)
    (hf : L.find? (fun q => decide (pos ≤ q)) = some p) :
    L.filter (fun q => decide (pos ≤ q)) = p :: L.filter (fun q => decide (p + 1 ≤ q)) := by
  induction L with
  | nil => simp at hf
  | cons a L ih =>
    rw [List.pairwise_cons] at hs
    by_cases ha : pos ≤ a
    · rw [List.find?_cons_of_pos _ (by simpa using ha)] at hf
      simp only [Option.some.injEq] at hf
      subst hf
      rw [List.filter_cons_of_pos (by simpa using ha),
        List.filter_cons_of_neg (by simp)]
      congr 1
      apply List.filter_congr
      intro q hq
      have := hs.1 q hq
      simp only [decide_eq_decide]
      omega
    · rw [List.find?_cons_of_neg _ (by simpa using ha)] at hf
      have h1 := List.find?_some hf
      simp only [decide_eq_true_eq] at h1
      rw [List.filter_cons_of_neg (by simpa using ha), ih hs.2 hf,
        List.filter_cons_of_neg (by simp; omega)]

/-- The position loop on an iterator whose current record has strictly increasing positions
below `INVALID_POSITION`: with enough fuel it returns the positions from `pos` on. -/
theorem positionLoop_spec (invp : Nat) (it : PostingIterator) (r : PostingRecord)
    (hcur : it.current = some r) (hs : r.positions.Pairwise (fun a b => a < b))
    (hb : ∀ p ∈ r.positions, p < invp) :
    ∀ (fuel pos : Nat), (r.positions.filter (fun q => decide (pos ≤ q))).length < fuel →
      positionLoop invp it fuel pos = some (r.positions.filter (fun q => decide (pos ≤ q))) := by
  have hseek : ∀ pos, it.SeekPosition invp pos =
      (r.positions.find? (fun p => decide (pos ≤ p))).getD invp := by
    intro pos
    simp only [PostingIterator.SeekPosition, hcur]
  intro fuel
  induction fuel with
  | zero => intro pos h; omega
  | succ fuel ih =>
    intro pos hlen
    simp only [positionLoop, hseek]
    cases hf : r.positions.find? (fun p => decide (pos ≤ p)) with
    | none =>
      simp only [Option.getD_none, if_true]
      congr 1
      symm
      apply List.filter_eq_nil_iff.mpr
      intro q hq
      exact List.find?_eq_none.mp hf q hq
    | some p =>
      have hmem := List.mem_of_find?_eq_some hf
      have hne : p ≠ invp := Nat.ne_of_lt (hb p hmem)
      have hsplit := filter_ge_of_find r.positions hs pos p hf
      simp only [Option.getD_some, hne, if_false]
      rw [hsplit] at hlen ⊢
      simp only [List.length_cons] at hlen
      rw [ih (p + 1) (by omega)]


/-- Claim C17. For every column indexed by a fresh memory indexer, with an analyzer whose
positions increase within each inserted row and are below `INVALID_POSITION`, the commit
succeeds and, for every term: every inserted row for whose text the analyzer produced the term
is found, `SeekDoc` to its row id returns that row id and stops on a record whose positions
are exactly the positions at which the analyzer emits the term for the text of the row, of
which there is at least one; then, for every `pos`, `SeekPosition(pos, out)` sets `out` to the
least of these positions that is at least `pos`, or to `INVALID_POSITION` when there is none,
and the loop that starts at 0 and continues from `out + 1` returns, for every large enough
fuel, all these positions in their increasing order and then stops on `INVALID_POSITION`. The
same holds of every record on which `SeekDoc` stops, for any target. -/
theorem SeekPosition_enumerates (inv invp : Nat) (chunk_name : String) (base_row_id : Nat)
    (analyzer : List Char → List (List Char × Nat)) (column : List (List Char))
    (row_offset : Nat) (counts : List Nat)
    (hpos : ∀ row ∈ sliceRows column row_offset counts.sum base_row_id,
      ((analyzer row.2).map Prod.snd).Pairwise (fun a b => a < b))
    (hlt : ∀ row ∈ sliceRows column row_offset counts.sum base_row_id,
      ∀ tp ∈ analyzer row.2, tp.2 < invp) :
    ∃ ix, ((MemoryIndexer.new chunk_name base_row_id analyzer).InsertAll column row_offset
        counts).CommitSync = Except.ok ix ∧
      (∀ term x r, ((ix.termIterator term).SeekDoc inv x).2.current = some r →
        r.positions.Pairwise (fun a b => a < b) ∧
        (∃ text, (r.docid, text) ∈ sliceRows column row_offset counts.sum base_row_id ∧
          r.positions =
            ((analyzer text).filter (fun tp => decide (tp.1 = term))).map Prod.snd) ∧
        (∀ pos,
          IsLeast {p | pos ≤ p ∧ p ∈ r.positions}
              (((ix.termIterator term).SeekDoc inv x).2.SeekPosition invp pos) ∨
            (((ix.termIterator term).SeekDoc inv x).2.SeekPosition invp pos = invp ∧
              ∀ p ∈ r.positions, p < pos)) ∧
        ∃ N, ∀ fuel, N ≤ fuel →
          positionLoop invp ((ix.termIterator term).SeekDoc inv x).2 fuel 0 =
            some r.positions) ∧
      (∀ term d text, (d, text) ∈ sliceRows column row_offset counts.sum base_row_id →
        term ∈ (analyzer text).map Prod.fst →
        ((ix.termIterator term).SeekDoc inv d).1 = d ∧
        (∃ r, ((ix.termIterator term).SeekDoc inv d).2.current = some r ∧ r.docid = d ∧
          r.positions =
            ((analyzer text).filter (fun tp => decide (tp.1 = term))).map Prod.snd) ∧
        ((analyzer text).filter (fun tp => decide (tp.1 = term))).map Prod.snd ≠ [] ∧
        (∀ pos,
          IsLeast {p | pos ≤ p ∧
                p ∈ ((analyzer text).filter (fun tp => decide (tp.1 = term))).map Prod.snd}
              (((ix.termIterator term).SeekDoc inv d).2.SeekPosition invp pos) ∨
            (((ix.termIterator term).SeekDoc inv d).2.SeekPosition invp pos = invp ∧
              ∀ p ∈ ((analyzer text).filter (fun tp => decide (tp.1 = term))).map Prod.snd,
                p < pos)) ∧
        ∃ N, ∀ fuel, N ≤ fuel →
          positionLoop invp ((ix.termIterator term).SeekDoc inv d).2 fuel 0 =
            some (((analyzer text).filter (fun tp => decide (tp.1 = term))).map Prod.snd)) := by
  obtain ⟨ix, hix, hterm⟩ :=
    fresh_index_rows chunk_name base_row_id analyzer column row_offset counts
  have hexact : ∀ term (r : PostingRecord), r ∈ ix.postingOf term → ∀ text,
      (r.docid, text) ∈ sliceRows column row_offset counts.sum base_row_id →
      r.positions.Perm
        (((analyzer text).filter (fun tp => decide (tp.1 = term))).map Prod.snd) →
      r.positions =
        ((analyzer text).filter (fun tp => decide (tp.1 = term))).map Prod.snd := by
    intro term r hmem text htext hperm
    have hsub : (((analyzer text).filter (fun tp => decide (tp.1 = term))).map
        Prod.snd).Sublist ((analyzer text).map Prod.snd) :=
      (List.filter_sublist _).map Prod.snd
    have hT := (hpos _ htext).sublist hsub
    exact List.eq_of_perm_of_sorted (r := fun a b : Nat => a ≤ b) hperm
      ((hterm term).1.2 r hmem).2.2 (hT.imp (fun h => Nat.le_of_lt h))
  have hsound : ∀ term x r, ((ix.termIterator term).SeekDoc inv x).2.current = some r →
      r.positions.Pairwise (fun a b => a < b) ∧
      (∃ text, (r.docid, text) ∈ sliceRows column row_offset counts.sum base_row_id ∧
        r.positions =
          ((analyzer text).filter (fun tp => decide (tp.1 = term))).map Prod.snd) ∧
      (∀ pos,
        IsLeast {p | pos ≤ p ∧ p ∈ r.positions}
            (((ix.termIterator term).SeekDoc inv x).2.SeekPosition invp pos) ∨
          (((ix.termIterator term).SeekDoc inv x).2.SeekPosition invp pos = invp ∧
            ∀ p ∈ r.positions, p < pos)) ∧
      ∃ N, ∀ fuel, N ≤ fuel →
        positionLoop invp ((ix.termIterator term).SeekDoc inv x).2 fuel 0 =
          some r.positions := by
    intro term x r hcur
    obtain ⟨hmem, _, _⟩ := SeekDoc_current inv (ix.termIterator term) x r hcur
    rw [termIterator_records] at hmem
    obtain ⟨_, hrec, _⟩ := hterm term
    obtain ⟨text, htext, hperm⟩ := hrec r hmem
    have heq := hexact term r hmem text htext hperm
    have hsub : (((analyzer text).filter (fun tp => decide (tp.1 = term))).map
        Prod.snd).Sublist ((analyzer text).map Prod.snd) :=
      (List.filter_sublist _).map Prod.snd
    have hstrict : r.positions.Pairwise (fun a b => a < b) := by
      rw [heq]; exact (hpos _ htext).sublist hsub
    have hbound : ∀ p ∈ r.positions, p < invp := by
      intro p hp
      rw [heq] at hp
      obtain ⟨tp, htp, rfl⟩ := List.mem_map.mp hp
      exact hlt _ htext tp (List.mem_filter.mp htp).1
    have hseek : ∀ pos, ((ix.termIterator term).SeekDoc inv x).2.SeekPosition invp pos =
        (r.positions.find? (fun p => decide (pos ≤ p))).getD invp := by
      intro pos
      simp only [PostingIterator.SeekPosition, hcur]
    refine ⟨hstrict, ⟨text, htext, heq⟩, fun pos => ?_,
      r.positions.length + 1, fun fuel hf => ?_⟩
    · rw [hseek]
      cases hfind : r.positions.find? (fun p => decide (pos ≤ p)) with
      | none =>
        right
        refine ⟨rfl, fun p hp => ?_⟩
        have := List.find?_eq_none.mp hfind p hp
        simp only [decide_eq_true_eq, not_le] at this
        exact this
      | some p =>
        left
        have h1 := List.find?_some hfind
        simp only [decide_eq_true_eq] at h1
        refine ⟨⟨h1, List.mem_of_find?_eq_some hfind⟩, ?_⟩
        rintro q ⟨hq1, hq2⟩
        have := scan_le_of_mem invp pos r.positions hstrict q hq2 hq1
        rw [hfind] at this
        exact this
    · have hall : r.positions.filter (fun q => decide (0 ≤ q)) = r.positions := by
        apply List.filter_eq_self.mpr
        intro q _
        simp
      have := positionLoop_spec invp _ r hcur hstrict hbound fuel 0 (by rw [hall]; omega)
      rw [hall] at this
      exact this
  refine ⟨ix, hix, hsound, fun term d text hrow hemit => ?_⟩
  obtain ⟨hv, _, hfound⟩ := hterm term
  obtain ⟨r, hr, hrd, hperm⟩ := hfound d text hrow hemit
  have hsorted : (ix.termIterator term).docids.Pairwise (fun a b => a < b) := by
    unfold PostingIterator.docids
    rw [termIterator_records]
    exact hv.1
  have hrit : r ∈ (ix.termIterator term).records := by
    rw [termIterator_records]
    exact hr
  obtain ⟨h1, h2⟩ := SeekDoc_of_mem inv (ix.termIterator term) hsorted r hrit
  rw [hrd] at h1 h2
  have heq := hexact term r hr text (by rw [hrd]; exact hrow) hperm
  obtain ⟨_, _, hleast, hloop⟩ := hsound term d r h2
  rw [heq] at hleast hloop
  refine ⟨h1, ⟨r, h2, hrd, heq⟩, ?_, hleast, hloop⟩
  rw [← heq]
  exact (hv.2 r hr).2.1

/-- Claim C17 at the unit test `SeekPosition`. Three rows that hold `A B C` seven times,
inserted into a new indexer and committed, give the indexer `abcCommitted`. On it, for the
term `a` and each of the rows 0, 1 and 2, `SeekDoc(d)` returns `d`, `SeekPosition` from 0, 1,
4 and 18 gives 0, 3, 6 and 18, `SeekPosition(19, out)` gives `INVALID_POSITION`, and the loop
from 0 returns the positions 0, 3, ..., 18. The positions of the analyzer increase and are
below the sentinel, and the general statement applies to these rows. -/
theorem SeekPosition_enumerates_witness :
    (∀ row ∈ sliceRows [abcText, abcText, abcText] 0 ([3] : List Nat).sum 0,
        ((standardAnalyzer row.2).map Prod.snd).Pairwise (fun a b => a < b)) ∧
      (∀ row ∈ sliceRows [abcText, abcText, abcText] 0 ([3] : List Nat).sum 0,
        ∀ tp ∈ standardAnalyzer row.2, tp.2 < 4294967295) ∧
      ((MemoryIndexer.new "chunk1" 0 standardAnalyzer).InsertAll [abcText, abcText, abcText] 0
        [3]).CommitSync = Except.ok abcCommitted ∧
      (∀ d ∈ [0, 1, 2],
        ((abcCommitted.termIterator "a".toList).SeekDoc 4294967295 d).1 = d ∧
        [0, 1, 4, 18, 19].map
            (((abcCommitted.termIterator "a".toList).SeekDoc 4294967295 d).2.SeekPosition
              4294967295) = [0, 3, 6, 18, 4294967295] ∧
        positionLoop 4294967295
            ((abcCommitted.termIterator "a".toList).SeekDoc 4294967295 d).2 8 0 =
          some [0, 3, 6, 9, 12, 15, 18]) ∧
      ((standardAnalyzer abcText).filter (fun tp => decide (tp.1 = "a".toList))).map Prod.snd =
        [0, 3, 6, 9, 12, 15, 18] ∧
      ∃ ix, ((MemoryIndexer.new "chunk1" 0 standardAnalyzer).InsertAll
          [abcText, abcText, abcText] 0 [3]).CommitSync = Except.ok ix ∧
        ∀ d ∈ [0, 1, 2],
          ((ix.termIterator "a".toList).SeekDoc 4294967295 d).1 = d ∧
          ∃ N, ∀ fuel, N ≤ fuel →
            positionLoop 4294967295 ((ix.termIterator "a".toList).SeekDoc 4294967295 d).2
              fuel 0 = some [0, 3, 6, 9, 12, 15, 18] := by
  have hP : ((standardAnalyzer abcText).filter
      (fun tp => decide (tp.1 = "a".toList))).map Prod.snd = [0, 3, 6, 9, 12, 15, 18] := by
    decide
  refine ⟨by decide, by decide, rfl, by decide, hP, ?_⟩
  obtain ⟨ix, hix, _, hfound⟩ := SeekPosition_enumerates 4294967295 4294967295 "chunk1" 0
    standardAnalyzer [abcText, abcText, abcText] 0 [3] (by decide) (by decide)
  refine ⟨ix, hix, fun d hd => ?_⟩
  have hrow : (d, abcText) ∈ sliceRows [abcText, abcText, abcText] 0 ([3] : List Nat).sum 0 := by
    have hd3 : d = 0 ∨ d = 1 ∨ d = 2 := by simpa using hd
    rcases hd3 with h | h | h <;> subst h <;> decide
  obtain ⟨h1, _, _, _, hloop⟩ := hfound "a".toList d abcText hrow (by decide)
  rw [hP] at hloop
  exact ⟨h1, hloop⟩


/-- Decoding undoes the delta encoding of a sequence that does not decrease from `prev` on. -/
theorem deltaDecode_deltaEncode (xs : List Nat) :
    ∀ prev, (prev :: xs).Pairwise (fun a b => a ≤ b) →
      deltaDecode prev (deltaEncode prev xs) = xs := by
  induction xs with
  | nil => intro _ _; rfl
  | cons x xs ih =>
    intro prev h
    rw [List.pairwise_cons] at h
    have hx : prev ≤ x := h.1 x (List.mem_cons_self _ _)
    simp only [deltaEncode, deltaDecode]
    rw [Nat.add_sub_cancel' hx, ih x h.2]

/-- Delta encoding keeps the number of elements. -/
theorem deltaEncode_length (xs : List Nat) : ∀ prev, (deltaEncode prev xs).length = xs.length := by
  induction xs with
  | nil => intro _; rfl
  | cons x xs ih => intro prev; simp only [deltaEncode, List.length_cons, ih]

/-- Splitting and decoding the positions blob of valid records gives their positions back. -/
theorem decodePositions_encode (rs : List PostingRecord)
    (hrec : ∀ r ∈ rs, r.tf = r.positions.length ∧ r.positions ≠ [] ∧
      r.positions.Pairwise (fun a b => a ≤ b)) :
    decodePositions (rs.map (fun r => r.tf))
        (rs.flatMap (fun r => deltaEncode 0 r.positions)) =
      rs.map (fun r => r.positions) := by
  induction rs with
  | nil => rfl
  | cons r rs ih =>
    have hr := hrec r (List.mem_cons_self _ _)
    have hlen : (deltaEncode 0 r.positions).length = r.tf := by
      rw [deltaEncode_length, hr.1]
    simp only [List.map_cons, List.flatMap_cons, decodePositions]
    rw [List.take_left' hlen, List.drop_left' hlen,
      ih (fun q hq => hrec q (List.mem_cons_of_mem _ hq)),
      deltaDecode_deltaEncode r.positions 0
        (List.Pairwise.cons (fun a _ => Nat.zero_le a) hr.2.2)]

/-- Putting the three streams of a list of records together gives the records back. -/
theorem zipRecords_map (rs : List PostingRecord) :
    zipRecords (rs.map (fun r => r.docid)) (rs.map (fun r => r.tf))
      (rs.map (fun r => r.positions)) = rs := by
  induction rs with
  | nil => rfl
  | cons r rs ih => simp only [List.map_cons, zipRecords, ih]

/-- Decoding a block undoes its encoding, for valid records whose docids do not decrease from
the last docid of the block before. -/
theorem decodeBlock_encodeBlock (prev : Nat) (rs : List PostingRecord)
    (hdoc : (prev :: rs.map (fun r => r.docid)).Pairwise (fun a b => a ≤ b))
    (hrec : ∀ r ∈ rs, r.tf = r.positions.length ∧ r.positions ≠ [] ∧
      r.positions.Pairwise (fun a b => a ≤ b)) :
    decodeBlock prev (encodeBlock prev rs) = rs := by
  simp only [decodeBlock, encodeBlock]
  rw [deltaDecode_deltaEncode _ prev hdoc, decodePositions_encode rs hrec, zipRecords_map]

/-- The last docid of a group is not below `prev` and not above the docids that follow. -/
theorem lastDocid_bounds (prev : Nat) (rs : List PostingRecord) (rest : List Nat)
    (h : (prev :: (rs.map (fun r => r.docid) ++ rest)).Pairwise (fun a b => a ≤ b)) :
    (lastDocid prev rs :: rest).Pairwise (fun a b => a ≤ b) := by
  rw [List.pairwise_cons] at h
  unfold lastDocid
  cases hl : rs.getLast? with
  | none =>
    have : rs = [] := List.getLast?_eq_none_iff.mp hl
    subst this
    simp only [List.map_nil, List.nil_append] at h
    exact List.Pairwise.cons h.1 h.2
  | some r =>
    have hsplit := List.dropLast_append_getLast? r hl
    have h2 := h.2
    rw [← hsplit, List.map_append, List.append_assoc, List.pairwise_append] at h2
    simp only [List.map_cons, List.map_nil, List.singleton_append] at h2
    exact h2.2.1

/-- Decoding consecutive blocks undoes their encoding. -/
theorem decodeBlocks_encodeBlocks (groups : List (List PostingRecord)) :
    ∀ prev, (prev :: groups.flatten.map (fun r => r.docid)).Pairwise (fun a b => a ≤ b) →
      (∀ r ∈ groups.flatten, r.tf = r.positions.length ∧ r.positions ≠ [] ∧
        r.positions.Pairwise (fun a b => a ≤ b)) →
      decodeBlocks prev (encodeBlocks prev groups) = groups.flatten := by
  induction groups with
  | nil => intro _ _ _; rfl
  | cons rs groups ih =>
    intro prev hdoc hrec
    simp only [List.flatten_cons, List.map_append] at hdoc
    have hrs : (prev :: rs.map (fun r => r.docid)).Pairwise (fun a b => a ≤ b) := by
      rw [List.pairwise_cons] at hdoc ⊢
      exact ⟨fun a ha => hdoc.1 a (List.mem_append_left _ ha),
        (List.pairwise_append.mp hdoc.2).1⟩
    have hblock := decodeBlock_encodeBlock prev rs hrs
      (fun r hr => hrec r (by simp only [List.flatten_cons]; exact List.mem_append_left _ hr))
    simp only [encodeBlocks, decodeBlocks, hblock, List.flatten_cons]
    rw [ih (lastDocid prev rs) (lastDocid_bounds prev rs _ hdoc)
      (fun r hr => hrec r (by simp only [List.flatten_cons]; exact List.mem_append_right _ hr))]

/-- Cutting into blocks loses nothing: the blocks put together are the block being filled
followed by the rest. -/
theorem splitBlocks_flatten {α : Type} (size : Nat) (l : List α) :
    ∀ cur : List α, (splitBlocks size l cur).flatten = cur ++ l := by
  induction l with
  | nil =>
    intro cur
    simp only [splitBlocks]
    cases cur with
    | nil => rfl
    | cons a cur => simp
  | cons a l ih =>
    intro cur
    simp only [splitBlocks]
    split
    · simp [ih]
    · simp [ih]

/-- Decoding the sealed posting list of a writer with valid records gives its posting list. -/
theorem decode_Seal (w : PostingWriter) (hv : RecordsValid w.postingList) :
    w.Seal.decode = w.postingList := by
  simp only [SealedPosting.decode, PostingWriter.Seal]
  have hfl := splitBlocks_flatten BLOCK_SIZE w.postingList []
  rw [List.nil_append] at hfl
  rw [decodeBlocks_encodeBlocks _ 0 ?_ ?_, hfl]
  · rw [hfl]
    exact List.Pairwise.cons (fun a _ => Nat.zero_le a) (hv.1.imp (fun h => Nat.le_of_lt h))
  · rw [hfl]
    exact hv.2

/-- A valid writer is the unsealed writer over its own posting list and statistics. -/
theorem ofRecords_postingList (w : PostingWriter) (hv : w.Valid) :
    PostingWriter.ofRecords w.postingList w.df w.ttf = w := by
  obtain ⟨_, _, _, hnone⟩ := hv
  cases w with
  | mk flushed current df ttf =>
    simp only at hnone
    cases current with
    | none =>
      have := hnone rfl
      subst this
      rfl
    | some r =>
      simp [PostingWriter.ofRecords, PostingWriter.postingList]


/-- Reading the file just written. -/
theorem read_write_self (fs : FileSystem) (path : String × FileExt) (content : FileContent) :
    FileSystem.read (FileSystem.write fs path content) path = some content := by
  induction fs with
  | nil => simp only [FileSystem.write, FileSystem.read, if_true]
  | cons e fs ih =>
    obtain ⟨k, v⟩ := e
    by_cases hk : k = path
    · subst hk
      simp only [FileSystem.write, FileSystem.read, if_true]
    · simp only [FileSystem.write, FileSystem.read, hk, if_false, ih]

/-- Reading another file than the one just written. -/
theorem read_write_other (fs : FileSystem) (path other : String × FileExt)
    (content : FileContent) (h : other ≠ path) :
    FileSystem.read (FileSystem.write fs path content) other = FileSystem.read fs other := by
  induction fs with
  | nil => simp only [FileSystem.write, FileSystem.read, Ne.symm h, if_false]
  | cons e fs ih =>
    obtain ⟨k, v⟩ := e
    by_cases hk : k = path
    · subst hk
      simp only [FileSystem.write, FileSystem.read, if_true, Ne.symm h, if_false]
    · by_cases hko : k = other
      · subst hko
        simp only [FileSystem.write, FileSystem.read, hk, if_false, if_true]
      · simp only [FileSystem.write, FileSystem.read, hk, hko, if_false, ih]

/-- Looking a term up after a change of all writers. -/
theorem find_map (m : PostingMap) (f : List Char × PostingWriter → PostingWriter)
    (term : List Char) :
    PostingMap.find (m.map (fun e => (e.1, f e))) term =
      match PostingMap.find m term with
      | some w => some (f (term, w))
      | none => none := by
  induction m with
  | nil => rfl
  | cons e m ih =>
    obtain ⟨k, v⟩ := e
    by_cases hk : k = term
    · subst hk
      simp only [List.map_cons, PostingMap.find, if_true]
    · simp only [List.map_cons, PostingMap.find, hk, if_false, ih]

/-- Looking a term up in a rearranged map in which every term has one entry. -/
theorem find_perm (m1 m2 : PostingMap) (hp : m1.Perm m2)
    (hnd : (m2.map (fun e => e.1)).Nodup) (term : List Char) :
    PostingMap.find m1 term = PostingMap.find m2 term := by
  have hnd1 : (m1.map (fun e => e.1)).Nodup := (hp.map _).nodup_iff.mpr hnd
  cases h2 : PostingMap.find m2 term with
  | some w =>
    exact find_of_mem m1 hnd1 term w (hp.mem_iff.mpr (find_mem m2 term w h2))
  | none =>
    cases h1 : PostingMap.find m1 term with
    | none => rfl
    | some w =>
      have := find_of_mem m2 hnd term w (hp.mem_iff.mp (find_mem m1 term w h1))
      rw [h2] at this
      cases this

/-- What `Load` reads back from the chunk and the sidecar that `Dump` writes for a term
dictionary: the entries of the dictionary in sorted order, each writer rebuilt from its
decoded postings and its statistics. -/
theorem load_entries (postings : PostingMap) :
    (chunkOfPostings postings).term_dict.filterMap (fun e =>
        match (chunkOfPostings postings).postings[e.postings_offset]? with
        | some p => some (e.term, PostingWriter.ofRecords p.decode e.df e.ttf)
        | none => none) =
      (stdSort (fun a b => decide (a.1 < b.1)) postings).map
        (fun e => (e.1, PostingWriter.ofRecords e.2.Seal.decode e.2.df e.2.ttf)) := by
  simp only [chunkOfPostings]
  rw [List.filterMap_map]
  have hcongr : ∀ e ∈ (stdSort (fun a b => decide (a.1 < b.1)) postings).enum,
      ((fun (e : TermDictEntry) =>
          match (List.map (fun e => e.2.Seal)
              (stdSort (fun a b => decide (a.1 < b.1)) postings))[e.postings_offset]? with
          | some p => some (e.term, PostingWriter.ofRecords p.decode e.df e.ttf)
          | none => none) ∘
        fun e => { term := e.2.1, postings_offset := e.1, df := e.2.2.df, ttf := e.2.2.ttf })
        e =
      (some ∘ (fun e : Nat × List Char × PostingWriter =>
        (e.2.1, PostingWriter.ofRecords e.2.2.Seal.decode e.2.2.df e.2.2.ttf))) e := by
    intro e he
    obtain ⟨i, x⟩ := e
    have hget : (stdSort (fun a b => decide (a.1 < b.1)) postings)[i]? = some x :=
      List.mk_mem_enum_iff_getElem?.mp he
    simp only [Function.comp, List.getElem?_map, hget, Option.map_some']
  rw [List.filterMap_congr hcongr, List.filterMap_eq_map]
  have hsnd := List.enum_map_snd (stdSort (fun a b => decide (a.1 < b.1)) postings)
  conv_rhs => rw [← hsnd]
  rw [List.map_map]
  rfl

/-- A commit keeps the chunk name. -/
theorem CommitSync_chunk_name (ix ixc : MemoryIndexer) (h : ix.CommitSync = Except.ok ixc) :
    ixc.chunk_name = ix.chunk_name := by
  rw [CommitSync_eq] at h
  cases hg : generateLoop ix.postings
      (stdSort (fun a b => decide (a.key < b.key)) ix.readyTuples) with
  | error e => rw [hg] at h; cases h
  | ok postings =>
    rw [hg] at h
    simp only [Except.ok.injEq] at h
    rw [← h]

/-- Claim C19. For every memory indexer `ix` whose pending inverters commit to the state `ixc`
with a valid term dictionary (every state reached from a new indexer by `Insert` calls does, by
`InsertAll_CommitSync_spec`), and every file system: `Dump(force=false, spill=true)` succeeds
and leaves the term dictionary empty, and `Load()` on any indexer with the same chunk name then
succeeds and holds for every term the writer that the indexer held, all inserted rows
committed, before the dump: the same sequence of `(docid, tf, positions)`. -/
theorem Dump_Load_roundtrip (ix ixc fresh : MemoryIndexer) (fs : FileSystem)
    (hcommit : ix.CommitSync = Except.ok ixc) (hvalid : PostingMap.Valid ixc.postings)
    (hname : fresh.chunk_name = ix.chunk_name) :
    ∃ ix1 fs1 ix2, ix.Dump fs false true = Except.ok (ix1, fs1) ∧ ix1.postings = [] ∧
      fresh.Load fs1 = Except.ok ix2 ∧
      ∀ term, PostingMap.find ix2.postings term = PostingMap.find ixc.postings term ∧
        ix2.postingOf term = ixc.postingOf term := by
  have hchunk := CommitSync_chunk_name ix ixc hcommit
  refine ⟨{ ixc with postings := [] },
    FileSystem.write
      (FileSystem.write fs (ixc.chunk_name, FileExt.idx)
        (FileContent.chunk (chunkOfPostings ixc.postings)))
      (ixc.chunk_name, FileExt.spill)
      (FileContent.sidecar (chunkOfPostings ixc.postings).term_dict),
    { fresh with postings := (chunkOfPostings ixc.postings).term_dict.filterMap (fun e =>
        match (chunkOfPostings ixc.postings).postings[e.postings_offset]? with
        | some p => some (e.term, PostingWriter.ofRecords p.decode e.df e.ttf)
        | none => none) }, ?_, rfl, ?_, ?_⟩
  · simp only [MemoryIndexer.Dump, hcommit, if_true]
  · have hne : (ixc.chunk_name, FileExt.idx) ≠ (ixc.chunk_name, FileExt.spill) := by
      intro h
      cases h
    simp only [MemoryIndexer.Load, hname, ← hchunk, read_write_self,
      read_write_other _ _ _ _ hne]
    have hmagic : (chunkOfPostings ixc.postings).magic = "IFTC" ∧
        (chunkOfPostings ixc.postings).version = 1 := ⟨rfl, rfl⟩
    rw [if_pos hmagic]
  · intro term
    simp only
    have hfind : PostingMap.find
        ((chunkOfPostings ixc.postings).term_dict.filterMap (fun e =>
          match (chunkOfPostings ixc.postings).postings[e.postings_offset]? with
          | some p => some (e.term, PostingWriter.ofRecords p.decode e.df e.ttf)
          | none => none)) term = PostingMap.find ixc.postings term := by
      rw [load_entries, find_map,
        find_perm _ _ (stdSort_perm (fun a b => decide (a.1 < b.1)) ixc.postings) hvalid.1 term]
      cases hf : PostingMap.find ixc.postings term with
      | none => rfl
      | some w =>
        have hw := (hvalid.2 _ (find_mem ixc.postings term w hf)).1
        simp only
        rw [decode_Seal w hw.1, ofRecords_postingList w hw]
    refine ⟨hfind, ?_⟩
    simp only [MemoryIndexer.postingOf, GetOrAddPosting, hfind]

/-- Witness of claim C19: two rows inserted by two `Insert` calls into a new indexer named
`chunk1`, dumped with a spill into an empty file system and loaded by a new indexer of the
same name. -/
theorem Dump_Load_roundtrip_witness :
    spillIndexer.CommitSync = Except.ok spillCommitted ∧
      PostingMap.Valid spillCommitted.postings ∧
      (MemoryIndexer.new "chunk1" 0 standardAnalyzer).chunk_name = spillIndexer.chunk_name ∧
      ∃ ix1 fs1 ix2, spillIndexer.Dump [] false true = Except.ok (ix1, fs1) ∧
        ix1.postings = [] ∧
        (MemoryIndexer.new "chunk1" 0 standardAnalyzer).Load fs1 = Except.ok ix2 ∧
        ∀ term, PostingMap.find ix2.postings term =
            PostingMap.find spillCommitted.postings term ∧
          ix2.postingOf term = spillCommitted.postingOf term :=
  ⟨rfl, by decide, rfl,
    Dump_Load_roundtrip spillIndexer spillCommitted
      (MemoryIndexer.new "chunk1" 0 standardAnalyzer) [] rfl (by decide) rfl⟩


/-! ## Theorems: `infinity.cpp` -/

/-- Claim C25. For every name, string value and scope, the statement that
`SetVariableOrConfig(name, String value, scope)` submits is a `CommandStatement` whose `SetCmd`
carries the scope, the type tag `SetVarType::kDouble`, the name after `ToLower` and the string
value; the overload for a `double` value submits a command with the same type tag; and the
result is what `QueryStatement` returns for that statement. With the characters turned into
lower case, the name `Profile_Record` is carried as `profile_record`. -/
theorem SetVariableOrConfig_String_kDouble {S D Q : Type}
    (QueryStatement : BaseStatement S D → Q) (ToLower : List Char → List Char)
    (name value : List Char) (scope : S) :
    SetVariableOrConfig QueryStatement ToLower name (SetValue.ofString value) scope =
        QueryStatement (BaseStatement.ofCommand
          { command_info_ := { scope_ := scope, var_type_ := SetVarType.kDouble,
                               var_name_ := ToLower name,
                               value_ := SetValue.ofString value } }) ∧
      (∀ d : D, SetVariableOrConfig QueryStatement ToLower name (SetValue.ofDouble d) scope =
        QueryStatement (BaseStatement.ofCommand
          { command_info_ := { scope_ := scope, var_type_ := SetVarType.kDouble,
                               var_name_ := ToLower name,
                               value_ := SetValue.ofDouble d } })) ∧
      SetVariableOrConfig (fun s : BaseStatement S D => s) (fun s => s.map Char.toLower)
          "Profile_Record".toList (SetValue.ofString "ON".toList) scope =
        BaseStatement.ofCommand
          { command_info_ := { scope_ := scope, var_type_ := SetVarType.kDouble,
                               var_name_ := "profile_record".toList,
                               value_ := SetValue.ofString "ON".toList } } :=
  ⟨rfl, fun _ => rfl, by simp [SetVariableOrConfig]⟩

/-- Claim C26. The statement that `ShowTransactions()` submits is a `ShowStatement` whose
`show_type_` is `ShowStmtType::kQueries` and whose other members are as the default constructor
left them; it is the statement that `ShowQueries()` submits, so for every `QueryStatement` the
two methods return the same result. -/
theorem ShowTransactions_eq_ShowQueries {S D Q : Type}
    (QueryStatement : BaseStatement S D → Q) :
    ShowTransactions QueryStatement =
        QueryStatement (BaseStatement.ofShow
          { show_type_ := some ShowStmtType.kQueries, session_id_ := none }) ∧
      ShowQueries QueryStatement =
        QueryStatement (BaseStatement.ofShow
          { show_type_ := some ShowStmtType.kQueries, session_id_ := none }) ∧
      ShowTransactions QueryStatement = ShowQueries QueryStatement ∧
      ShowTransactions (fun s : BaseStatement S D => s) =
        ShowQueries (fun s : BaseStatement S D => s) :=
  ⟨rfl, rfl, rfl, rfl⟩


end Infinity
